import Mathlib

/-!
Verification of the kaban core engine against its natural-language
specification.  The definitions below are a shallow embedding of the
TypeScript sources: `TaskService` (services/task.ts), `DependencyService`
(services/dependency.ts), the `SCHEMA_SQL` audit triggers (db/index.ts),
the due-date scorer (services/scoring/scorers/due-date.ts) and the
`MarkdownService` codec (services/markdown.ts).  Pieces of the repository
that are referenced but whose source file is absent (the validators of
validation.ts, the board service of board.ts) are modelled from the
specification and marked as such in their doc comments.
-/

set_option maxHeartbeats 1000000

namespace Kaban

/-- Error kinds with their stable numeric exit codes (types.ts). -/
inductive ExitCode where
  | GENERAL
  | NOT_FOUND
  | CONFLICT
  | VALIDATION
  | BLOCKED
  | CYCLE
  | DUPLICATE
  | AMBIGUOUS_ID
  | IO_ERROR
deriving Repr, DecidableEq

/-- A KabanError carries an error kind and a human-readable message. -/
structure KabanError where
  code : ExitCode
  message : String
deriving Repr, DecidableEq

/-- Result of a fallible service operation (a thrown `KabanError` in the
TypeScript source becomes the `err` constructor). -/
inductive KResult (α : Type) where
  | ok (a : α)
  | err (e : KabanError)
deriving Repr, DecidableEq

/-- A calendar date (year-month-day), the projection of a JavaScript
`Date` that the markdown codec works with (`formatDate` keeps only the
`YYYY-MM-DD` part of the ISO string). -/
structure MdDate where
  year : Nat
  month : Nat
  day : Nat
deriving Repr, DecidableEq

/-- A task row of the `tasks` table (db/schema.ts).  Timestamps are epoch
milliseconds; nullable columns are `Option`. -/
structure Task where
  id : String
  boardTaskId : Option Nat
  title : String
  description : Option String
  columnId : String
  position : Int
  createdBy : String
  assignedTo : Option String
  parentId : Option String
  dependsOn : List String
  files : List String
  labels : List String
  blockedReason : Option String
  version : Nat
  createdAt : Nat
  updatedAt : Nat
  startedAt : Option Nat
  completedAt : Option Nat
  dueDate : Option MdDate
  archived : Bool
  archivedAt : Option Nat
  updatedBy : Option String
deriving Repr, DecidableEq

/-- A column row of the `columns` table (db/schema.ts). -/
structure Column where
  id : String
  boardId : String
  name : String
  position : Int
  wipLimit : Option Nat
  isTerminal : Bool
deriving Repr, DecidableEq

/-- A board row of the `boards` table (db/schema.ts). -/
structure Board where
  id : String
  name : String
  maxBoardTaskId : Nat
  createdAt : Nat
  updatedAt : Nat
deriving Repr, DecidableEq

/-- Value payload stored in the `old_value` / `new_value` audit columns.
`json fields` stands for the text produced by SQLite `json_object` over
the given key/value pairs, `strList` for the JSON-encoded label array,
`num` for an integer-valued column rendered as text. -/
inductive AuditPayload where
  | str (s : String)
  | num (n : Int)
  | strList (l : List String)
  | json (fields : List (String × String))
deriving Repr, DecidableEq

/-- Object kinds tracked by the audit log. -/
inductive AuditObject where
  | task
  | column
  | board
deriving Repr, DecidableEq

/-- Event kinds tracked by the audit log. -/
inductive AuditEvent where
  | CREATE
  | UPDATE
  | DELETE
deriving Repr, DecidableEq

/-- One row of the `audits` table.  The autoincrement `id` and the
defaulted `timestamp` column are not modelled; no claim concerns them. -/
structure AuditEntry where
  eventType : AuditEvent
  objectType : AuditObject
  objectId : String
  fieldName : Option String
  oldValue : Option AuditPayload
  newValue : Option AuditPayload
  actor : Option String
deriving Repr, DecidableEq

/-- The database state seen by the services: the single board, its
columns, the task rows and the trigger-populated audit rows. -/
structure BoardState where
  board : Option Board
  columns : List Column
  tasks : List Task
  audits : List AuditEntry
deriving Repr, DecidableEq

/-! ### Audit triggers (SCHEMA_SQL in db/index.ts)

`SCHEMA_SQL` installs exactly three triggers, all on the `tasks` table:
`audit_task_insert`, `audit_task_update` and `audit_task_delete`.  There
is no trigger of any kind on `columns` or `boards`. -/

/-- Rows emitted by the `audit_task_insert` trigger for an inserted task:
one CREATE row whose `new_value` is `json_object('title', NEW.title,
'columnId', NEW.column_id)` and whose actor is `NEW.created_by`. -/
def auditOnInsertTask (t : Task) : List AuditEntry :=
  [{ eventType := .CREATE, objectType := .task, objectId := t.id,
     fieldName := none, oldValue := none,
     newValue := some (.json [("title", t.title), ("columnId", t.columnId)]),
     actor := some t.createdBy }]

/-- Rows emitted by the installed triggers for an inserted column:
`SCHEMA_SQL` contains no `AFTER INSERT` trigger on `columns`, so a column
insert emits no audit rows. -/
def auditOnInsertColumn (_c : Column) : List AuditEntry := []

/-- Rows emitted by the installed triggers for an inserted board:
`SCHEMA_SQL` contains no `AFTER INSERT` trigger on `boards`, so a board
insert emits no audit rows. -/
def auditOnInsertBoard (_b : Board) : List AuditEntry := []

/-- One conditional insert of the `audit_task_update` trigger: an UPDATE
row is emitted when the old and new value differ (the explicit
`IS NULL` / `<>` disjunction of the SQL implements exactly inequality
with NULL transitions detected). -/
def auditFieldChange {α : Type} [DecidableEq α] (taskId : String)
    (fieldName : String) (encode : α → Option AuditPayload)
    (oldV newV : α) (actor : Option String) : List AuditEntry :=
  if oldV ≠ newV then
    [{ eventType := .UPDATE, objectType := .task, objectId := taskId,
       fieldName := some fieldName, oldValue := encode oldV,
       newValue := encode newV, actor := actor }]
  else []

/-- Rows emitted by the `audit_task_update` trigger for one updated task
row, in the order of the trigger body: title, columnId, assignedTo,
description, archived, labels.  The actor is `NEW.updated_by`. -/
def auditOnUpdateTask (oldT newT : Task) : List AuditEntry :=
  auditFieldChange oldT.id "title" (fun s => some (.str s))
      oldT.title newT.title newT.updatedBy
  ++ auditFieldChange oldT.id "columnId" (fun s => some (.str s))
      oldT.columnId newT.columnId newT.updatedBy
  ++ auditFieldChange oldT.id "assignedTo" (fun s => s.map .str)
      oldT.assignedTo newT.assignedTo newT.updatedBy
  ++ auditFieldChange oldT.id "description" (fun s => s.map .str)
      oldT.description newT.description newT.updatedBy
  ++ auditFieldChange oldT.id "archived" (fun b => some (.num (if b then 1 else 0)))
      oldT.archived newT.archived newT.updatedBy
  ++ auditFieldChange oldT.id "labels" (fun l => some (.strList l))
      oldT.labels newT.labels newT.updatedBy

/-- Insert a task row; the `audit_task_insert` trigger fires in the same
transaction. -/
def insertTask (s : BoardState) (t : Task) : BoardState :=
  { s with tasks := s.tasks ++ [t], audits := s.audits ++ auditOnInsertTask t }

/-- Insert a column row; no trigger fires (none is installed). -/
def insertColumn (s : BoardState) (c : Column) : BoardState :=
  { s with columns := s.columns ++ [c], audits := s.audits ++ auditOnInsertColumn c }

/-- Insert the board row; no trigger fires (none is installed). -/
def insertBoard (s : BoardState) (b : Board) : BoardState :=
  { s with board := some b, audits := s.audits ++ auditOnInsertBoard b }

/-! ### Validators

The validators live in validation.ts, which is not under the source tree
(only its import in services/task.ts is); they are modelled from the
specification, section 4.8. -/

/-- Whitespace characters as matched by JavaScript `\s` and `trim` (the
subset relevant here). -/
def isWsChar (c : Char) : Bool :=
  c == ' ' || c == '\t' || c == '\n' || c == '\r'

/-- Modelled from the spec: `title` is valid when non-empty, at most 200
characters, with no leading or trailing whitespace (section 4.8). -/
def validateTitle (t : String) : KResult String :=
  if t.data = [] then .err ⟨.VALIDATION, "Title must not be empty"⟩
  else if t.data.length > 200 then .err ⟨.VALIDATION, "Title too long"⟩
  else if (t.data.head?.elim false isWsChar) || (t.data.getLast?.elim false isWsChar) then
    .err ⟨.VALIDATION, "Title has surrounding whitespace"⟩
  else .ok t

/-- Modelled from the spec: agent names match `[A-Za-z0-9_-]` with length
1..64 (section 4.8). -/
def validateAgentName (a : String) : KResult String :=
  if a.data ≠ [] && a.data.length ≤ 64
      && a.data.all (fun c => c.isAlphanum || c == '-' || c == '_') then
    .ok a
  else .err ⟨.VALIDATION, "Invalid agent name"⟩

/-- Modelled from the spec: a column id is a slug (section 4.8):
non-empty, lowercase letters, digits, underscore or dash. -/
def validateColumnId (c : String) : KResult String :=
  if c.data ≠ [] && c.data.all (fun ch => ch.isLower || ch.isDigit || ch == '_' || ch == '-') then
    .ok c
  else .err ⟨.VALIDATION, "Invalid column id"⟩

/-! ### Board service

board.ts is not under the source tree (only its test and callers are);
`getColumn` and `initializeBoard` are modelled from the specification,
section 4.2, and from the expectations of board.test.ts. -/

/-- Modelled from the spec: `getColumn(idOrName)` resolves a column by id
or display name. -/
def getColumn (s : BoardState) (idOrName : String) : Option Column :=
  s.columns.find? (fun c => c.id == idOrName || c.name == idOrName)

/-- Modelled from the spec: the `DEFAULT_CONFIG` columns created by
`initializeBoard` — backlog, todo, in_progress (WIP 3), review (WIP 2)
and the terminal done column (section 4.2, board.test.ts). -/
def defaultColumns (boardId : String) : List Column :=
  [ { id := "backlog", boardId, name := "Backlog", position := 0,
      wipLimit := none, isTerminal := false },
    { id := "todo", boardId, name := "Todo", position := 1,
      wipLimit := none, isTerminal := false },
    { id := "in_progress", boardId, name := "In Progress", position := 2,
      wipLimit := some 3, isTerminal := false },
    { id := "review", boardId, name := "Review", position := 3,
      wipLimit := some 2, isTerminal := false },
    { id := "done", boardId, name := "Done", position := 4,
      wipLimit := none, isTerminal := true } ]

/-- Modelled from the spec: `initializeBoard` inserts the board row and
the five default columns into an empty database.  Each insert fires the
installed triggers — of which there are none for boards or columns. -/
def initializeBoard (name : String) (boardId : String) (now : Nat) : BoardState :=
  let s0 : BoardState := { board := none, columns := [], tasks := [], audits := [] }
  let s1 := insertBoard s0 { id := boardId, name, maxBoardTaskId := 0,
                             createdAt := now, updatedAt := now }
  (defaultColumns boardId).foldl insertColumn s1

/-! ### Task service (services/task.ts) -/

/-- Input of `addTask` (services/task.ts).  An absent optional field is
`none`; the TypeScript falsiness of the empty string for `columnId` and
`agent` is reproduced in `addTask` itself. -/
structure AddTaskInput where
  title : String
  description : Option String := none
  columnId : Option String := none
  agent : Option String := none
  dependsOn : List String := []
  files : List String := []
  labels : List String := []

/-- `getTask`: select the task row by primary key. -/
def getTask (s : BoardState) (id : String) : Option Task :=
  s.tasks.find? (fun t => t.id == id)

/-- `COALESCE(MAX(position), -1)` over the tasks of one column. -/
def maxPositionIn (tasks : List Task) (columnId : String) : Int :=
  (tasks.filter (fun t => t.columnId == columnId)).foldl
    (fun m t => max m t.position) (-1)

/-- `COUNT(*)` over the tasks of one column (`getTaskCountInColumn`). -/
def countTasksInColumn (s : BoardState) (columnId : String) : Nat :=
  (s.tasks.filter (fun t => t.columnId == columnId)).length

/-- `TaskService.addTask` (services/task.ts).  `now` is the clock reading
and `newId` the fresh ulid, both effects of the call.  Note that the
insert does not set `board_task_id` (the column keeps its NULL default),
and that no WIP-limit check is performed. -/
def addTask (s : BoardState) (input : AddTaskInput) (now : Nat) (newId : String) :
    KResult (Task × BoardState) :=
  match validateTitle input.title with
  | .err e => .err e
  | .ok title =>
  match (match input.agent with
         | some a => if a == "" then KResult.ok "user" else validateAgentName a
         | none => KResult.ok "user") with
  | .err e => .err e
  | .ok agent =>
  match (match input.columnId with
         | some c => if c == "" then KResult.ok "todo" else validateColumnId c
         | none => KResult.ok "todo") with
  | .err e => .err e
  | .ok columnId =>
  match getColumn s columnId with
  | none => .err ⟨.VALIDATION, "Column does not exist"⟩
  | some _column =>
    let position := maxPositionIn s.tasks columnId + 1
    let newTask : Task :=
      { id := newId, boardTaskId := none, title, description := input.description,
        columnId, position, createdBy := agent, assignedTo := none,
        parentId := none, dependsOn := input.dependsOn, files := input.files,
        labels := input.labels, blockedReason := none, version := 1,
        createdAt := now, updatedAt := now, startedAt := none,
        completedAt := none, dueDate := none, archived := false,
        archivedAt := none, updatedBy := none }
    let s1 := insertTask s newTask
    match getTask s1 newId with
    | some t => .ok (t, s1)
    | none => .err ⟨.NOT_FOUND, "Task not found after insert"⟩

/-- The row update applied by `moveTask`: the SET clause writes columnId,
position, version, updatedAt, completedAt and startedAt, all computed
from the task row fetched at the start of the call. -/
def applyMove (task : Task) (columnId : String) (newPosition : Int) (now : Nat)
    (isTerminal : Bool) (u : Task) : Task :=
  { u with
    columnId := columnId,
    position := newPosition,
    version := task.version + 1,
    updatedAt := now,
    completedAt := if isTerminal then some now else task.completedAt,
    startedAt :=
      if columnId == "in_progress"
          && (match task.startedAt with | none => true | some ms => ms == 0) then
        some now
      else task.startedAt }

/-- The WIP gate of `moveTask`: the check fires when the target column
has a truthy `wipLimit` (non-null and non-zero), `force` is not set, and
the row count of the target column has reached the limit. -/
def wipGate (col : Column) (force : Bool) (count : Nat) : Bool :=
  (match col.wipLimit with | some k => decide (k ≠ 0) | none => false)
    && !force && decide (count ≥ col.wipLimit.getD 0)

/-- The state after the `moveTask` UPDATE statement: every row matching
the id is rewritten by `applyMove`, and the `audit_task_update` trigger
fires for each updated row. -/
def moveUpdateState (s : BoardState) (id : String) (upd : Task → Task) : BoardState :=
  { s with
    tasks := s.tasks.map (fun u => if u.id == id then upd u else u),
    audits := s.audits
      ++ (s.tasks.filter (fun u => u.id == id)).flatMap
           (fun u => auditOnUpdateTask u (upd u)) }

/-- `TaskService.moveTask` (services/task.ts).  The WIP check counts all
rows of the target column; position is max+1 in the target.  There is no
check of blockers or dependency state anywhere in the function. -/
def moveTask (s : BoardState) (id : String) (columnId : String) (force : Bool)
    (now : Nat) : KResult (Task × BoardState) :=
  match getTask s id with
  | none => .err ⟨.NOT_FOUND, "Task not found"⟩
  | some task =>
  match validateColumnId columnId with
  | .err e => .err e
  | .ok _ =>
  match getColumn s columnId with
  | none => .err ⟨.VALIDATION, "Column does not exist"⟩
  | some column =>
    if wipGate column force (countTasksInColumn s columnId) then
      .err ⟨.VALIDATION, "Column at WIP limit"⟩
    else
      match getTask (moveUpdateState s id
          (applyMove task columnId (maxPositionIn s.tasks columnId + 1) now
            column.isTerminal)) id with
      | some t => .ok (t, moveUpdateState s id
          (applyMove task columnId (maxPositionIn s.tasks columnId + 1) now
            column.isTerminal))
      | none => .err ⟨.NOT_FOUND, "Task not found after update"⟩

/-- Modelled from the spec: a task `b` is an unresolved blocker of `t`
when `t` depends on `b` and `b` is neither completed nor archived
(glossary, section 4.4). -/
def hasUnresolvedBlocker (s : BoardState) (t : Task) : Bool :=
  t.dependsOn.any (fun bid =>
    match getTask s bid with
    | some b => !b.completedAt.isSome && !b.archived
    | none => false)

/-- Tasks of one column that are not archived (the quantity bounded by
the WIP invariant of the specification). -/
def nonArchivedCountInColumn (s : BoardState) (columnId : String) : Nat :=
  (s.tasks.filter (fun t => t.columnId == columnId && !t.archived)).length

/-- Task of a successful service result, `none` on error. -/
def resultTask {α : Type} : KResult (Task × α) → Option Task
  | .ok (t, _) => some t
  | .err _ => none

/-- State of a successful service result, `none` on error. -/
def resultState : KResult (Task × BoardState) → Option BoardState
  | .ok (_, s) => some s
  | .err _ => none

/-! ### List helper lemmas -/

theorem find?_append_of_none {α : Type} (p : α → Bool) (l₁ l₂ : List α)
    (h : l₁.find? p = none) : (l₁ ++ l₂).find? p = l₂.find? p := by
  induction l₁ with
  | nil => simp
  | cons a l ih =>
    cases hp : p a with
    | true => simp [List.find?_cons, hp] at h
    | false =>
      simp only [List.find?_cons, hp] at h
      simpa [List.find?_cons, hp] using ih h

theorem find?_pred {α : Type} (p : α → Bool) (l : List α) (a : α)
    (h : l.find? p = some a) : p a = true := by
  induction l with
  | nil => simp at h
  | cons x l ih =>
    cases hp : p x with
    | true =>
      simp only [List.find?_cons, hp, Option.some.injEq] at h
      rw [← h]; exact hp
    | false =>
      simp only [List.find?_cons, hp] at h
      exact ih h

theorem find?_map_preserving {α : Type} (p : α → Bool) (f : α → α)
    (hf : ∀ u, p (f u) = p u) (l : List α) :
    (l.map (fun u => if p u then f u else u)).find? p
      = (l.find? p).map (fun u => if p u then f u else u) := by
  induction l with
  | nil => rfl
  | cons a l ih =>
    cases hb : p a with
    | true =>
      have hfb : p (f a) = true := by rw [hf a]; exact hb
      simp [List.find?_cons, hb, hfb]
    | false =>
      simpa [List.find?_cons, hb] using ih

theorem length_filter_mono {α : Type} (p q : α → Bool)
    (h : ∀ a, p a = true → q a = true) (l : List α) :
    (l.filter p).length ≤ (l.filter q).length := by
  induction l with
  | nil => simp
  | cons a l ih =>
    cases hp : p a with
    | true =>
      have hq := h a hp
      simp only [List.filter_cons, hp, hq, if_true, List.length_cons]
      exact Nat.succ_le_succ ih
    | false =>
      cases hq : q a with
      | true =>
        simp only [List.filter_cons, hp, hq, Bool.false_eq_true, if_false, if_true,
          List.length_cons]
        exact Nat.le_succ_of_le ih
      | false =>
        simpa [List.filter_cons, hp, hq] using ih

theorem map_eq_self_of_no_match {α : Type} (p : α → Bool) (f : α → α)
    (l : List α) (h : ∀ u ∈ l, p u = false) :
    l.map (fun u => if p u then f u else u) = l := by
  induction l with
  | nil => rfl
  | cons a l ih =>
    simp [h a (by simp), ih (fun u hu => h u (by simp [hu]))]

/-! ### Concrete example data -/

/-- The empty database state. -/
def emptySt : BoardState := { board := none, columns := [], tasks := [], audits := [] }

/-- A freshly initialised board, as produced by `init --name "Test Board"`. -/
def exInit : BoardState := initializeBoard "Test Board" "b1" 1000

/-- A default-valued task used to build concrete states. -/
def baseTask : Task :=
  { id := "t1", boardTaskId := none, title := "Task 1", description := none,
    columnId := "todo", position := 0, createdBy := "user", assignedTo := none,
    parentId := none, dependsOn := [], files := [], labels := [],
    blockedReason := none, version := 1, createdAt := 10, updatedAt := 10,
    startedAt := none, completedAt := none, dueDate := none, archived := false,
    archivedAt := none, updatedBy := none }

/-- State for the completedAt counterexample: a task in `todo` whose
`completedAt` is already set, with a terminal `done` column. -/
def exStC3 : BoardState :=
  { board := none,
    columns :=
      [ { id := "todo", boardId := "b1", name := "Todo", position := 0,
          wipLimit := none, isTerminal := false },
        { id := "done", boardId := "b1", name := "Done", position := 1,
          wipLimit := none, isTerminal := true } ],
    tasks := [{ baseTask with completedAt := some 100 }],
    audits := [] }

/-- State for the blocker counterexample: `t1` depends on `t2`, and `t2`
is neither completed nor archived. -/
def exStC5 : BoardState :=
  { board := none,
    columns :=
      [ { id := "todo", boardId := "b1", name := "Todo", position := 0,
          wipLimit := none, isTerminal := false },
        { id := "in_progress", boardId := "b1", name := "In Progress", position := 1,
          wipLimit := some 3, isTerminal := false } ],
    tasks := [{ baseTask with dependsOn := ["t2"] },
              { baseTask with id := "t2", position := 1 }],
    audits := [] }

/-- Three consecutive `addTask` calls into the `review` column (WIP limit
2) of a freshly initialised board. -/
def exWipRun : KResult (Task × BoardState) :=
  match addTask exInit { title := "A", columnId := some "review" } 2000 "id-a" with
  | .err e => .err e
  | .ok (_, s1) =>
  match addTask s1 { title := "B", columnId := some "review" } 2001 "id-b" with
  | .err e => .err e
  | .ok (_, s2) => addTask s2 { title := "C", columnId := some "review" } 2002 "id-c"

/-- An example column and board row for the audit counterexample. -/
def exCol : Column :=
  { id := "todo", boardId := "b1", name := "Todo", position := 0,
    wipLimit := none, isTerminal := false }

/-- An example board row for the audit counterexample. -/
def exBoard : Board :=
  { id := "b1", name := "Test Board", maxBoardTaskId := 0, createdAt := 5, updatedAt := 5 }

/-! ### Structure of a successful moveTask -/

theorem applyMove_id (task : Task) (columnId : String) (pos : Int) (now : Nat)
    (isT : Bool) (u : Task) :
    (applyMove task columnId pos now isT u).id = u.id := rfl

theorem getTask_moveUpdateState (s : BoardState) (id : String) (upd : Task → Task)
    (hupd : ∀ u, (upd u).id = u.id) :
    getTask (moveUpdateState s id upd) id
      = (getTask s id).map (fun u => if u.id == id then upd u else u) := by
  unfold getTask moveUpdateState
  exact find?_map_preserving (fun t => t.id == id) upd
    (fun u => by show ((upd u).id == id) = (u.id == id); rw [hupd u]) s.tasks

theorem moveTask_ok_spec (s : BoardState) (id columnId : String) (force : Bool)
    (now : Nat) (task t : Task) (s₁ : BoardState)
    (htask : getTask s id = some task)
    (hok : moveTask s id columnId force now = .ok (t, s₁)) :
    ∃ col, getColumn s columnId = some col ∧
      t = applyMove task columnId (maxPositionIn s.tasks columnId + 1) now
            col.isTerminal task ∧
      s₁ = moveUpdateState s id
            (applyMove task columnId (maxPositionIn s.tasks columnId + 1) now
              col.isTerminal) ∧
      wipGate col force (countTasksInColumn s columnId) = false := by
  unfold moveTask at hok
  cases hv : validateColumnId columnId with
  | err e =>
    simp only [htask, hv] at hok
    exact (KResult.noConfusion hok)
  | ok vc =>
    cases hc : getColumn s columnId with
    | none =>
      simp only [htask, hv, hc] at hok
      exact (KResult.noConfusion hok)
    | some col =>
      simp only [htask, hv, hc] at hok
      refine ⟨col, rfl, ?_⟩
      by_cases hgate : wipGate col force (countTasksInColumn s columnId) = true
      · rw [if_pos hgate] at hok
        exact (KResult.noConfusion hok)
      · rw [if_neg hgate] at hok
        have htask' : List.find? (fun t => t.id == id) s.tasks = some task := htask
        have hid : (task.id == id) = true := find?_pred (fun t => t.id == id) s.tasks task htask'
        have hget := getTask_moveUpdateState s id
          (applyMove task columnId (maxPositionIn s.tasks columnId + 1) now
            col.isTerminal) (fun u => rfl)
        rw [htask] at hget
        have heq : task.id = id := by simpa using hid
        simp [heq] at hget
        rw [hget] at hok
        injection hok with hok'
        injection hok' with h1 h2
        exact ⟨h1.symm, h2.symm, by simpa using hgate⟩

/-! ### Structure of a successful addTask -/

theorem getTask_insertTask (s : BoardState) (t : Task) (id : String)
    (hid : t.id = id) (hfresh : getTask s id = none) :
    getTask (insertTask s t) id = some t := by
  unfold getTask insertTask at *
  rw [find?_append_of_none _ _ _ hfresh]
  simp [List.find?_cons, hid]

theorem addTask_ok_spec (s : BoardState) (input : AddTaskInput) (now : Nat)
    (newId : String) (t : Task) (s₁ : BoardState)
    (hfresh : getTask s newId = none)
    (hok : addTask s input now newId = .ok (t, s₁)) :
    ∃ title agent columnId,
      (input.columnId = none → columnId = "todo") ∧
      t = { id := newId, boardTaskId := none, title := title,
            description := input.description, columnId := columnId,
            position := maxPositionIn s.tasks columnId + 1, createdBy := agent,
            assignedTo := none, parentId := none, dependsOn := input.dependsOn,
            files := input.files, labels := input.labels, blockedReason := none,
            version := 1, createdAt := now, updatedAt := now, startedAt := none,
            completedAt := none, dueDate := none, archived := false,
            archivedAt := none, updatedBy := none } ∧
      s₁ = insertTask s t := by
  unfold addTask at hok
  cases ht : validateTitle input.title with
  | err e => simp only [ht] at hok; exact (KResult.noConfusion hok)
  | ok title =>
    cases ha : (match input.agent with
                | some a => if a == "" then KResult.ok "user" else validateAgentName a
                | none => KResult.ok "user") with
    | err e => simp only [ht, ha] at hok; exact (KResult.noConfusion hok)
    | ok agent =>
      cases hcid : (match input.columnId with
                    | some c => if c == "" then KResult.ok "todo" else validateColumnId c
                    | none => KResult.ok "todo") with
      | err e => simp only [ht, ha, hcid] at hok; exact (KResult.noConfusion hok)
      | ok columnId =>
        cases hc : getColumn s columnId with
        | none => simp only [ht, ha, hcid, hc] at hok; exact (KResult.noConfusion hok)
        | some col =>
          simp only [ht, ha, hcid, hc] at hok
          refine ⟨title, agent, columnId, ?_, ?_⟩
          · intro hnone
            rw [hnone] at hcid
            exact (KResult.ok.inj hcid).symm
          · have hins := getTask_insertTask s
              { id := newId, boardTaskId := none, title := title,
                description := input.description, columnId := columnId,
                position := maxPositionIn s.tasks columnId + 1, createdBy := agent,
                assignedTo := none, parentId := none, dependsOn := input.dependsOn,
                files := input.files, labels := input.labels, blockedReason := none,
                version := 1, createdAt := now, updatedAt := now, startedAt := none,
                completedAt := none, dueDate := none, archived := false,
                archivedAt := none, updatedBy := none } newId rfl hfresh
            rw [hins] at hok
            injection hok with hok'
            injection hok' with h1 h2
            exact ⟨h1.symm, by rw [← h1]; exact h2.symm⟩

/-! ### Claim theorems -/

/-- C1 (counterexample).  On a freshly initialised board, `add "Task 1"`
returns a task whose `boardTaskId` is NULL, not 1: the insert of
`TaskService.addTask` never sets `board_task_id`.  The other Scenario A
fields (`columnId`, `position`, `version`) do come out as claimed. -/
theorem addTask_boardTaskId_null_cex :
    (resultTask (addTask exInit { title := "Task 1" } 2000 "01AZX9")).map
        (fun t => (t.boardTaskId, t.columnId, t.position, t.version))
      = some (none, "todo", 0, 1)
    ∧ (resultTask (addTask exInit { title := "Task 1" } 2000 "01AZX9")).map
        (fun t => t.boardTaskId) ≠ some (some 1) := by
  constructor
  · rfl
  · decide

/-- C1 (amended).  Every successful `addTask` persists the task with
`version = 1`, `position = max+1` within its column, the default column
`todo` when none is given — and `boardTaskId` left NULL: no boardTaskId is
allocated anywhere in `addTask`. -/
theorem addTask_fields (s : BoardState) (input : AddTaskInput) (now : Nat)
    (newId : String) (t : Task) (s₁ : BoardState)
    (hfresh : getTask s newId = none)
    (hok : addTask s input now newId = .ok (t, s₁)) :
    t.boardTaskId = none ∧ t.version = 1 ∧
    t.position = maxPositionIn s.tasks t.columnId + 1 ∧
    (input.columnId = none → t.columnId = "todo") := by
  obtain ⟨title, agent, columnId, hdef, ht, _⟩ :=
    addTask_ok_spec s input now newId t s₁ hfresh hok
  subst ht
  exact ⟨rfl, rfl, rfl, fun h => hdef h⟩

/-- C1 (witness): the amended theorem applied to Scenario A. -/
theorem addTask_fields_witness :
    (match addTask exInit { title := "Task 1" } 2000 "01AZX9" with
     | .ok (t, _) => t.boardTaskId = none ∧ t.version = 1 ∧
         t.position = maxPositionIn exInit.tasks t.columnId + 1 ∧ t.columnId = "todo"
     | .err _ => False) := by
  cases h : addTask exInit { title := "Task 1" } 2000 "01AZX9" with
  | ok p =>
    obtain ⟨t, s₁⟩ := p
    obtain ⟨h1, h2, h3, h4⟩ :=
      addTask_fields exInit { title := "Task 1" } 2000 "01AZX9" t s₁ (by rfl) h
    exact ⟨h1, h2, h3, h4 rfl⟩
  | err e =>
    have hsome : (resultTask (addTask exInit { title := "Task 1" } 2000 "01AZX9")).isSome
        = true := by decide
    rw [h] at hsome
    simp [resultTask] at hsome

/-- C3 (counterexample).  Moving a task whose `completedAt` is already
non-null into a terminal column does not leave `completedAt` unchanged:
`moveTask` overwrites it with the move time (`completedAt: isTerminal ?
now : task.completedAt`). -/
theorem moveTask_overwrites_completedAt_cex :
    (getTask exStC3 "t1").map Task.completedAt = some (some 100)
    ∧ (getColumn exStC3 "done").map Column.isTerminal = some true
    ∧ (resultTask (moveTask exStC3 "t1" "done" false 200)).map Task.completedAt
        = some (some 200)
    ∧ (resultTask (moveTask exStC3 "t1" "done" false 200)).map Task.completedAt
        ≠ some (some 100) := by
  refine ⟨rfl, rfl, rfl, ?_⟩
  decide

/-- C3 (amended).  A successful `moveTask` sets `completedAt` to the move
time whenever the target column is terminal — even when it was already
non-null, in which case it is overwritten — and leaves it unchanged when
the target is non-terminal. -/
theorem moveTask_completedAt (s : BoardState) (id columnId : String) (force : Bool)
    (now : Nat) (task t : Task) (s₁ : BoardState) (col : Column)
    (htask : getTask s id = some task)
    (hcol : getColumn s columnId = some col)
    (hok : moveTask s id columnId force now = .ok (t, s₁)) :
    t.completedAt = if col.isTerminal then some now else task.completedAt := by
  obtain ⟨col', hc', ht, _, _⟩ :=
    moveTask_ok_spec s id columnId force now task t s₁ htask hok
  rw [hcol] at hc'
  injection hc' with hcc
  subst hcc
  rw [ht]
  rfl

/-- C3 (witness): the amended theorem applied to the concrete move of the
counterexample state. -/
theorem moveTask_completedAt_witness :
    (match moveTask exStC3 "t1" "done" false 200 with
     | .ok (t, _) => t.completedAt = some 200
     | .err _ => False) := by
  cases h : moveTask exStC3 "t1" "done" false 200 with
  | ok p =>
    obtain ⟨t, s₁⟩ := p
    have := moveTask_completedAt exStC3 "t1" "done" false 200
      { baseTask with completedAt := some 100 } t s₁
      { id := "done", boardId := "b1", name := "Done", position := 1,
        wipLimit := none, isTerminal := true }
      (by rfl) (by rfl) h
    simpa using this
  | err e =>
    have hsome : (resultTask (moveTask exStC3 "t1" "done" false 200)).isSome = true := by
      decide
    rw [h] at hsome
    simp [resultTask] at hsome

/-! ### WIP-limit lemmas (C4) -/

theorem count_after_update_le (l : List Task) (id colId : String) (f : Task → Task)
    (hfc : ∀ u, (f u).columnId = colId)
    (hnd : (l.map Task.id).Nodup) :
    ((l.map (fun u => if u.id == id then f u else u)).filter
        (fun t => t.columnId == colId)).length
      ≤ (l.filter (fun t => t.columnId == colId)).length + 1 := by
  induction l with
  | nil => simp
  | cons a l ih =>
    rw [List.map_cons, List.nodup_cons] at hnd
    obtain ⟨hna, hnd'⟩ := hnd
    cases hb : (a.id == id) with
    | true =>
      have haid : a.id = id := by simpa using hb
      have htail : l.map (fun u => if u.id == id then f u else u) = l := by
        refine map_eq_self_of_no_match _ f l (fun u hu => ?_)
        have : u.id ≠ a.id := fun hcontra => hna (hcontra ▸ List.mem_map_of_mem Task.id hu)
        simp [haid ▸ this]
      simp only [List.map_cons, hb, if_true, htail]
      have hfcol : ((f a).columnId == colId) = true := by simp [hfc a]
      rw [List.filter_cons, List.filter_cons, hfcol]
      cases hac : (a.columnId == colId) <;> simp
    | false =>
      simp only [List.map_cons, hb, Bool.false_eq_true, if_false]
      rw [List.filter_cons, List.filter_cons]
      cases hac : (a.columnId == colId) with
      | true => simpa using ih hnd'
      | false => simpa using ih hnd'

/-- C4 (counterexample).  From a freshly initialised board, three plain
`addTask` calls into `review` (WIP limit 2) all succeed and leave three
non-archived tasks in the column: `addTask` performs no WIP check, so the
invariant fails for sequences that contain `addTask` into a full column. -/
theorem addTask_exceeds_wip_cex :
    (getColumn exInit "review").map Column.wipLimit = some (some 2)
    ∧ (resultState exWipRun).map (fun s => countTasksInColumn s "review") = some 3
    ∧ (resultState exWipRun).map (fun s => nonArchivedCountInColumn s "review")
        = some 3
    ∧ (resultState exWipRun).map (fun s => nonArchivedCountInColumn s "review")
        ≠ some 2 := by
  refine ⟨rfl, rfl, rfl, ?_⟩
  decide

/-- C4 (amended).  `moveTask` without `force` does preserve the WIP bound:
after a successful move into a column with `wipLimit = k` (k non-zero) the
column holds at most k rows, hence at most k non-archived tasks.  (The
`addTask` half of the original claim is false: `addTask` has no WIP check,
see the counterexample.) -/
theorem moveTask_preserves_wip (s : BoardState) (id columnId : String)
    (force : Bool) (now : Nat) (task t : Task) (s₁ : BoardState) (col : Column)
    (k : Nat)
    (hnd : (s.tasks.map Task.id).Nodup)
    (htask : getTask s id = some task)
    (hcol : getColumn s columnId = some col)
    (hwip : col.wipLimit = some k) (hk : k ≠ 0) (hforce : force = false)
    (hok : moveTask s id columnId force now = .ok (t, s₁)) :
    countTasksInColumn s₁ columnId ≤ k ∧
    nonArchivedCountInColumn s₁ columnId ≤ k := by
  obtain ⟨col', hc', ht, hs, hgate⟩ :=
    moveTask_ok_spec s id columnId force now task t s₁ htask hok
  rw [hcol] at hc'
  injection hc' with hcc
  subst hcc
  have hlt : countTasksInColumn s columnId < k := by
    unfold wipGate at hgate
    rw [hwip, hforce] at hgate
    simp [hk] at hgate
    omega
  have hcount : countTasksInColumn s₁ columnId
      ≤ countTasksInColumn s columnId + 1 := by
    rw [hs]
    unfold countTasksInColumn moveUpdateState
    exact count_after_update_le s.tasks id columnId _ (fun u => rfl) hnd
  have h1 : countTasksInColumn s₁ columnId ≤ k := by omega
  refine ⟨h1, le_trans ?_ h1⟩
  unfold nonArchivedCountInColumn countTasksInColumn
  exact length_filter_mono _ _ (fun a ha => by
    simp only [Bool.and_eq_true] at ha
    exact ha.1) s₁.tasks

/-- C4 (witness): the amended theorem applied to a concrete in-limit move
into `in_progress` (WIP limit 3) on the two-task blocker state. -/
theorem moveTask_preserves_wip_witness :
    (match moveTask exStC5 "t1" "in_progress" false 500 with
     | .ok (_, s₁) => countTasksInColumn s₁ "in_progress" ≤ 3 ∧
         nonArchivedCountInColumn s₁ "in_progress" ≤ 3
     | .err _ => False) := by
  cases h : moveTask exStC5 "t1" "in_progress" false 500 with
  | ok p =>
    obtain ⟨t, s₁⟩ := p
    exact moveTask_preserves_wip exStC5 "t1" "in_progress" false 500
      { baseTask with dependsOn := ["t2"] } t s₁
      { id := "in_progress", boardId := "b1", name := "In Progress", position := 1,
        wipLimit := some 3, isTerminal := false } 3
      (by decide) (by rfl) (by rfl) rfl (by decide) rfl h
  | err e =>
    have hsome : (resultTask (moveTask exStC5 "t1" "in_progress" false 500)).isSome
        = true := by decide
    rw [h] at hsome
    simp [resultTask] at hsome

/-! ### Blocker behaviour (C5) -/

theorem validateColumnId_err (c : String) (e : KabanError)
    (h : validateColumnId c = .err e) : e.code = .VALIDATION := by
  unfold validateColumnId at h
  split at h
  · exact (KResult.noConfusion h)
  · injection h with h'
    rw [← h']

/-- C5 (counterexample).  A task with an unresolved blocker (`t1` depends
on `t2`, which is neither completed nor archived) moves into
`in_progress` — a non-terminal, non-backlog column — without any BLOCKED
error: `moveTask` consults no blocker information at all. -/
theorem moveTask_ignores_blockers_cex :
    (getTask exStC5 "t1").map (hasUnresolvedBlocker exStC5) = some true
    ∧ (getColumn exStC5 "in_progress").map Column.isTerminal = some false
    ∧ ("in_progress" : String) ≠ "backlog"
    ∧ (resultTask (moveTask exStC5 "t1" "in_progress" false 500)).map Task.columnId
        = some "in_progress" := by
  refine ⟨rfl, rfl, by decide, rfl⟩

/-- C5 (amended).  `moveTask` never fails with a BLOCKED error: the only
error codes it can produce are NOT_FOUND and VALIDATION, whatever the
dependency state of the task. -/
theorem moveTask_never_blocked (s : BoardState) (id columnId : String)
    (force : Bool) (now : Nat) (e : KabanError)
    (h : moveTask s id columnId force now = .err e) : e.code ≠ .BLOCKED := by
  unfold moveTask at h
  cases hg : getTask s id with
  | none =>
    simp only [hg] at h
    injection h with h'
    rw [← h']
    decide
  | some task =>
    cases hv : validateColumnId columnId with
    | err e' =>
      simp only [hg, hv] at h
      injection h with h'
      rw [← h']
      rw [validateColumnId_err columnId e' hv]
      decide
    | ok vc =>
      cases hc : getColumn s columnId with
      | none =>
        simp only [hg, hv, hc] at h
        injection h with h'
        rw [← h']
        decide
      | some col =>
        simp only [hg, hv, hc] at h
        split at h
        · injection h with h'
          rw [← h']
          decide
        · split at h
          · exact (KResult.noConfusion h)
          · injection h with h'
            rw [← h']
            decide

/-- C5 (witness): the amended theorem applied to a concrete failing move
(unknown task id). -/
theorem moveTask_never_blocked_witness :
    ({ code := ExitCode.NOT_FOUND, message := "Task not found" } : KabanError).code
      ≠ ExitCode.BLOCKED := by
  exact moveTask_never_blocked emptySt "nop" "todo" false 0
    { code := ExitCode.NOT_FOUND, message := "Task not found" } (by rfl)

/-! ### Frame of moveTask (C9) -/

/-- C9.  A successful `moveTask` rewrites only `columnId`, `position`,
`version`, `updatedAt`, `completedAt` and `startedAt` of the moved task:
every other stored field is returned unchanged, the column rows are
untouched, and every other task row is carried over identically (in both
directions). -/
theorem moveTask_frame (s : BoardState) (id columnId : String) (force : Bool)
    (now : Nat) (task t : Task) (s₁ : BoardState)
    (htask : getTask s id = some task)
    (hok : moveTask s id columnId force now = .ok (t, s₁)) :
    (t.id = task.id ∧ t.boardTaskId = task.boardTaskId ∧ t.title = task.title ∧
     t.description = task.description ∧ t.labels = task.labels ∧
     t.files = task.files ∧ t.createdBy = task.createdBy ∧
     t.assignedTo = task.assignedTo ∧ t.parentId = task.parentId ∧
     t.dependsOn = task.dependsOn ∧ t.blockedReason = task.blockedReason ∧
     t.createdAt = task.createdAt ∧ t.dueDate = task.dueDate ∧
     t.archived = task.archived ∧ t.archivedAt = task.archivedAt ∧
     t.updatedBy = task.updatedBy) ∧
    s₁.columns = s.columns ∧
    (∀ u ∈ s.tasks, u.id ≠ id → u ∈ s₁.tasks) ∧
    (∀ u ∈ s₁.tasks, u.id ≠ id → u ∈ s.tasks) := by
  obtain ⟨col, hc, ht, hs, _⟩ :=
    moveTask_ok_spec s id columnId force now task t s₁ htask hok
  subst hs
  refine ⟨by rw [ht]; exact ⟨rfl, rfl, rfl, rfl, rfl, rfl, rfl, rfl, rfl, rfl, rfl,
    rfl, rfl, rfl, rfl, rfl⟩, rfl, ?_, ?_⟩
  · intro u hu hne
    show u ∈ s.tasks.map (fun v => if v.id == id then _ else v)
    have : (u.id == id) = false := by simpa using hne
    have := List.mem_map_of_mem (fun v => if v.id == id then
      applyMove task columnId (maxPositionIn s.tasks columnId + 1) now
        col.isTerminal v else v) hu
    simpa [this, ‹(u.id == id) = false›] using this
  · intro u hu hne
    obtain ⟨v, hv, hvu⟩ := List.mem_map.mp hu
    cases hb : (v.id == id) with
    | true =>
      rw [hb] at hvu
      simp only [if_true] at hvu
      have : u.id = v.id := by rw [← hvu]; rfl
      have hvid : v.id = id := by simpa using hb
      exact absurd (this.trans hvid) hne
    | false =>
      rw [hb] at hvu
      simp only [Bool.false_eq_true, if_false] at hvu
      rw [← hvu]
      exact hv

/-- C9 (witness): the frame theorem applied to the concrete move of the
two-task state. -/
theorem moveTask_frame_witness :
    (match moveTask exStC5 "t1" "in_progress" false 500 with
     | .ok (t, s₁) => t.title = "Task 1" ∧ t.dependsOn = ["t2"] ∧
         s₁.columns = exStC5.columns ∧
         (∀ u ∈ exStC5.tasks, u.id ≠ "t1" → u ∈ s₁.tasks)
     | .err _ => False) := by
  cases h : moveTask exStC5 "t1" "in_progress" false 500 with
  | ok p =>
    obtain ⟨t, s₁⟩ := p
    obtain ⟨⟨_, _, h3, _, _, _, _, _, _, h10, _⟩, hcols, hfwd, _⟩ :=
      moveTask_frame exStC5 "t1" "in_progress" false 500
        { baseTask with dependsOn := ["t2"] } t s₁ (by rfl) h
    exact ⟨h3, h10, hcols, hfwd⟩
  | err e =>
    have hsome : (resultTask (moveTask exStC5 "t1" "in_progress" false 500)).isSome
        = true := by decide
    rw [h] at hsome
    simp [resultTask] at hsome

/-! ### Audit trigger coverage (C6) -/

/-- C6 (counterexample).  Inserting a column row or the board row emits no
audit row at all (the required CREATE row is missing): `SCHEMA_SQL`
installs audit triggers only on `tasks`.  A freshly initialised board
(one board insert plus five column inserts) therefore has an empty audit
log, exactly as the repository's own audit test expects. -/
theorem column_board_insert_no_audit_cex :
    (insertColumn emptySt exCol).audits = []
    ∧ (insertBoard emptySt exBoard).audits = []
    ∧ exInit.audits = []
    ∧ (insertColumn emptySt exCol).audits.length ≠ 1
    ∧ (insertBoard emptySt exBoard).audits.length ≠ 1 := by
  refine ⟨rfl, rfl, rfl, by decide, by decide⟩

/-- C6 (amended).  Of the three tables, only `tasks` has an `AFTER INSERT`
audit trigger: a task insert appends exactly one CREATE row whose
`new_value` is the compact JSON summary `{title, columnId}` and whose
actor is the row's `created_by` — as does every successful `addTask` —
while column and board inserts append nothing. -/
theorem insert_audit_rows (s : BoardState) (tk : Task) (c : Column) (b : Board)
    (input : AddTaskInput) (now : Nat) (newId : String) (t : Task)
    (s₁ : BoardState)
    (hfresh : getTask s newId = none)
    (hok : addTask s input now newId = .ok (t, s₁)) :
    (insertTask s tk).audits = s.audits ++
      [{ eventType := .CREATE, objectType := .task, objectId := tk.id,
         fieldName := none, oldValue := none,
         newValue := some (.json [("title", tk.title), ("columnId", tk.columnId)]),
         actor := some tk.createdBy }]
    ∧ (insertColumn s c).audits = s.audits
    ∧ (insertBoard s b).audits = s.audits
    ∧ s₁.audits = s.audits ++
      [{ eventType := .CREATE, objectType := .task, objectId := t.id,
         fieldName := none, oldValue := none,
         newValue := some (.json [("title", t.title), ("columnId", t.columnId)]),
         actor := some t.createdBy }] := by
  obtain ⟨title, agent, columnId, _, ht, hs⟩ :=
    addTask_ok_spec s input now newId t s₁ hfresh hok
  refine ⟨rfl, by simp [insertColumn, auditOnInsertColumn], by
    simp [insertBoard, auditOnInsertBoard], ?_⟩
  rw [hs]
  rfl

/-- C6 (witness): the amended theorem applied to Scenario A's `addTask`. -/
theorem insert_audit_rows_witness :
    (match addTask exInit { title := "Task 1" } 2000 "01AZX9" with
     | .ok (t, s₁) => s₁.audits = exInit.audits ++
         [{ eventType := .CREATE, objectType := .task, objectId := t.id,
            fieldName := none, oldValue := none,
            newValue := some (.json [("title", t.title), ("columnId", t.columnId)]),
            actor := some t.createdBy }]
     | .err _ => False) := by
  cases h : addTask exInit { title := "Task 1" } 2000 "01AZX9" with
  | ok p =>
    obtain ⟨t, s₁⟩ := p
    exact (insert_audit_rows exInit baseTask exCol exBoard
      { title := "Task 1" } 2000 "01AZX9" t s₁ (by rfl) h).2.2.2
  | err e =>
    have hsome : (resultTask (addTask exInit { title := "Task 1" } 2000 "01AZX9")).isSome
        = true := by decide
    rw [h] at hsome
    simp [resultTask] at hsome

/-! ### Dependency service (services/dependency.ts)

`DependencyService.wouldCreateCycle(taskId, dependsOnId)` reads the
dependency graph through its injected `getTask`: the relevant projection
of the task table is an association list from task id to the `dependsOn`
array of its row, and an id with no row (or an empty array) has no
outgoing edges. -/

/-- The `dependsOn` edges of one node: `task?.dependsOn` read through
`getTask`, the empty list when the task does not exist. -/
def depsOf (g : List (String × List String)) (x : String) : List String :=
  match g.find? (fun p => p.1 == x) with
  | some p => p.2
  | none => []

/-- The ids that have a row in the table (with multiplicity; only used to
bound the traversal). -/
def graphKeys (g : List (String × List String)) : List String := g.map Prod.fst

/-- One iteration of the `for (const depId of task.dependsOn)` loop of
`dfs`, folded over the dependency array: `F` is the recursive `dfs` call
one level deeper.  Once a path has been found (or the fuel ran out) the
remaining iterations change nothing — the source loop returns early. -/
def stepDep (F : List String → String → Option (Option (List String) × List String))
    (current : String)
    (acc : Option (Option (List String) × List String)) (dep : String) :
    Option (Option (List String) × List String) :=
  match acc with
  | none => none
  | some (some p, v) => some (some p, v)
  | some (none, v) =>
    match F v dep with
    | none => none
    | some (some p, v') => some (some (current :: p), v')
    | some (none, v') => some (none, v')

/-- The recursive `dfs` closure of `wouldCreateCycle`, with an explicit
fuel argument standing for the recursion depth (the TypeScript recursion
has none; `dfs_terminates_fueled` below shows that the bound `fuelBound`
never runs out, which is the visited-set termination argument).  The
result on success is `(some path, visited)` where `path` is what the
source accumulates in its shared `path` array — the chain of active
`currentId`s ending in `taskId` — and `visited` is threaded exactly as
the shared mutable `Set` is; on failure it is `(none, visited)`. -/
def dfsF (g : List (String × List String)) (target : String) :
    Nat → List String → String → Option (Option (List String) × List String)
  | 0, _, _ => none
  | fuel + 1, visited, current =>
    if current == target then some (some [current], visited)
    else if visited.contains current then some (none, visited)
    else
      match depsOf g current with
      | [] => some (none, current :: visited)
      | d :: ds =>
        (d :: ds).foldl (stepDep (dfsF g target fuel) current)
          (some (none, current :: visited))

/-- Fuel that always suffices: one more than the number of stored rows. -/
def fuelBound (g : List (String × List String)) : Nat := (graphKeys g).length + 1

/-- Result record of the cycle check (CycleCheckResult in
services/dependency.ts; `cyclePath` is absent when no cycle is found). -/
structure CycleCheckResult where
  hasCycle : Bool
  cyclePath : Option (List String)
deriving Repr, DecidableEq

/-- `DependencyService.wouldCreateCycle`: a self-edge is an immediate
cycle with path `[taskId, taskId]`; otherwise a depth-first traversal
from `dependsOnId` looks for `taskId`, and on success the reported path
is `[taskId, ...path]`. -/
def wouldCreateCycle (g : List (String × List String)) (taskId dependsOnId : String) :
    CycleCheckResult :=
  if taskId == dependsOnId then { hasCycle := true, cyclePath := some [taskId, taskId] }
  else
    match dfsF g taskId (fuelBound g) [] dependsOnId with
    | some (some p, _) => { hasCycle := true, cyclePath := some (taskId :: p) }
    | some (none, _) => { hasCycle := false, cyclePath := none }
    | none => { hasCycle := false, cyclePath := none }

/-- `DependencyService.formatCyclePath`: each id becomes `#N` when the
short-id lookup yields a truthy value, else the first 8 characters of the
global id; the pieces are joined with arrows. -/
def formatCyclePath (path : List String) (getShortId : String → Option Nat) : String :=
  String.intercalate " → " (path.map (fun id =>
    match getShortId id with
    | some n => if n == 0 then String.mk (id.data.take 8) else "#" ++ Nat.repr n
    | none => String.mk (id.data.take 8)))

/-- Reachability over the `dependsOn` edges (zero or more steps). -/
inductive Reaches (g : List (String × List String)) : String → String → Prop
  | refl (x : String) : Reaches g x x
  | step {x y z : String} : y ∈ depsOf g x → Reaches g y z → Reaches g x z

/-- `DepChainTo g target p`: `p` is a non-empty chain of `dependsOn`
edges whose last node is `target`. -/
def DepChainTo (g : List (String × List String)) (target : String) :
    List String → Prop
  | [] => False
  | [x] => x = target
  | x :: y :: rest => y ∈ depsOf g x ∧ DepChainTo g target (y :: rest)

/-- Number of stored rows not yet visited: the traversal's measure. -/
def unvisited (g : List (String × List String)) (v : List String) : Nat :=
  ((graphKeys g).filter (fun k => !v.contains k)).length

/-- `GoodE g target V E`: the visited set `V` is fully explored except
for the nodes of `E` (the gray stack): the target is not in `V`, and
every successor of a non-excepted visited node avoids the target and is
itself visited. -/
def GoodE (g : List (String × List String)) (target : String)
    (V E : List String) : Prop :=
  target ∉ V ∧ ∀ x ∈ V, x ∉ E → ∀ y ∈ depsOf g x, y ≠ target ∧ y ∈ V

/-! ### DFS lemmas -/

theorem length_filter_lt {α : Type} (p q : α → Bool) (l : List α)
    (himp : ∀ a, p a = true → q a = true) (a : α) (ha : a ∈ l)
    (hpa : p a = false) (hqa : q a = true) :
    (l.filter p).length < (l.filter q).length := by
  induction l with
  | nil => cases ha
  | cons b l ih =>
    rcases List.mem_cons.mp ha with hb | hb
    · subst hb
      rw [List.filter_cons, List.filter_cons]
      simp only [hpa, hqa, if_true, Bool.false_eq_true, if_false, List.length_cons]
      exact Nat.lt_succ_of_le (length_filter_mono p q himp l)
    · rw [List.filter_cons, List.filter_cons]
      cases hpb : p b with
      | true =>
        have hqb := himp b hpb
        simp only [hqb, if_true, List.length_cons]
        exact Nat.succ_lt_succ (ih hb)
      | false =>
        cases hqb : q b with
        | true =>
          simp only [Bool.false_eq_true, if_false, hqb, if_true, List.length_cons]
          exact Nat.lt_succ_of_lt (ih hb)
        | false => simpa using ih hb

theorem contains_eq_true_iff (l : List String) (a : String) :
    l.contains a = true ↔ a ∈ l := List.elem_iff

theorem unvisited_le_of_subset (g : List (String × List String)) (v v' : List String)
    (h : ∀ x ∈ v, x ∈ v') : unvisited g v' ≤ unvisited g v := by
  refine length_filter_mono _ _ (fun a hp => ?_) (graphKeys g)
  simp only [Bool.not_eq_true'] at hp ⊢
  cases hc : v.contains a with
  | false => rfl
  | true =>
    have hv' : a ∈ v' := h a ((contains_eq_true_iff v a).mp hc)
    rw [(contains_eq_true_iff v' a).mpr hv'] at hp
    cases hp

theorem unvisited_insert_lt (g : List (String × List String)) (v : List String)
    (c : String) (hc : c ∈ graphKeys g) (hnv : v.contains c = false) :
    unvisited g (c :: v) < unvisited g v := by
  refine length_filter_lt _ _ (graphKeys g) (fun a hp => ?_) c hc ?_ ?_
  · simp only [Bool.not_eq_true'] at hp ⊢
    cases hcv : v.contains a with
    | false => rfl
    | true =>
      have hmem : a ∈ c :: v :=
        List.mem_cons_of_mem c ((contains_eq_true_iff v a).mp hcv)
      rw [(contains_eq_true_iff (c :: v) a).mpr hmem] at hp
      cases hp
  · show (!(c :: v).contains c) = false
    rw [(contains_eq_true_iff (c :: v) c).mpr (List.mem_cons_self c v)]
    rfl
  · show (!v.contains c) = true
    rw [hnv]
    rfl

theorem depsOf_key (g : List (String × List String)) (c : String) (d : String)
    (ds : List String) (h : depsOf g c = d :: ds) : c ∈ graphKeys g := by
  unfold depsOf at h
  cases hf : g.find? (fun p => p.1 == c) with
  | none => rw [hf] at h; cases h
  | some pr =>
    have hm : pr ∈ g := List.mem_of_find?_eq_some hf
    have hp : (pr.1 == c) = true := find?_pred _ g pr hf
    have : pr.1 = c := by simpa using hp
    rw [← this]
    exact List.mem_map_of_mem Prod.fst hm

theorem foldl_stepDep_stuck (F : List String → String →
      Option (Option (List String) × List String)) (c : String)
    (ds : List String) (p : List String) (v : List String) :
    ds.foldl (stepDep F c) (some (some p, v)) = some (some p, v) := by
  induction ds with
  | nil => rfl
  | cons d ds ih => rw [List.foldl_cons]; exact ih

theorem foldl_stepDep_none (F : List String → String →
      Option (Option (List String) × List String)) (c : String)
    (ds : List String) : ds.foldl (stepDep F c) none = none := by
  induction ds with
  | nil => rfl
  | cons d ds ih => rw [List.foldl_cons]; exact ih

theorem dfs_mono (g : List (String × List String)) (target : String) :
    ∀ fuel visited current res,
      dfsF g target fuel visited current = some res → ∀ x ∈ visited, x ∈ res.2 := by
  intro fuel
  induction fuel with
  | zero =>
    intro v c res h
    exact absurd h (by simp [dfsF])
  | succ f ih =>
    have hgo : ∀ (ds v : List String) (c : String)
        (res : Option (List String) × List String),
        List.foldl (stepDep (dfsF g target f) c) (some (none, v)) ds = some res →
        ∀ x ∈ v, x ∈ res.2 := by
      intro ds
      induction ds with
      | nil =>
        intro v c res h x hx
        injection h with h'
        rw [← h']
        exact hx
      | cons d ds ihds =>
        intro v c res h x hx
        rw [List.foldl_cons] at h
        cases hF : dfsF g target f v d with
        | none =>
          simp only [stepDep, hF] at h
          rw [foldl_stepDep_none] at h
          cases h
        | some r =>
          obtain ⟨ropt, rv⟩ := r
          have hxv : x ∈ rv := ih v d (ropt, rv) hF x hx
          cases ropt with
          | some p =>
            simp only [stepDep, hF] at h
            rw [foldl_stepDep_stuck] at h
            injection h with h'
            rw [← h']
            exact hxv
          | none =>
            simp only [stepDep, hF] at h
            exact ihds rv c res h x hxv
    intro v c res h
    simp only [dfsF] at h
    split at h
    · injection h with h'; rw [← h']; exact fun x hx => hx
    · split at h
      · injection h with h'; rw [← h']; exact fun x hx => hx
      · split at h
        · injection h with h'
          rw [← h']
          exact fun x hx => List.mem_cons_of_mem c hx
        · exact fun x hx => hgo _ _ _ res h x (List.mem_cons_of_mem c hx)

theorem dfs_fuel_sufficient (g : List (String × List String)) (target : String) :
    ∀ fuel visited current, unvisited g visited < fuel →
      (dfsF g target fuel visited current).isSome = true := by
  intro fuel
  induction fuel with
  | zero => intro v c h; cases h
  | succ f ih =>
    have hgo : ∀ (ds v : List String) (c : String), unvisited g v < f →
        (List.foldl (stepDep (dfsF g target f) c) (some (none, v)) ds).isSome = true := by
      intro ds
      induction ds with
      | nil => intro v c _; rfl
      | cons d ds ihds =>
        intro v c hv
        rw [List.foldl_cons]
        cases hF : dfsF g target f v d with
        | none =>
          have := ih v d hv
          rw [hF] at this
          cases this
        | some r =>
          obtain ⟨ropt, rv⟩ := r
          have hsub : ∀ x ∈ v, x ∈ rv := dfs_mono g target f v d (ropt, rv) hF
          cases ropt with
          | some p =>
            simp only [stepDep, hF]
            rw [foldl_stepDep_stuck]
            rfl
          | none =>
            simp only [stepDep, hF]
            exact ihds rv c (Nat.lt_of_le_of_lt (unvisited_le_of_subset g v rv hsub) hv)
    intro v c hv
    simp only [dfsF]
    split
    · rfl
    · split
      · rfl
      · rename_i hbeq hcontains
        have hnv : v.contains c = false := by
          revert hcontains
          cases v.contains c <;> simp
        cases hdeps : depsOf g c with
        | nil => rfl
        | cons d ds =>
          have hkey : c ∈ graphKeys g := depsOf_key g c _ _ hdeps
          have hlt : unvisited g (c :: v) < unvisited g v :=
            unvisited_insert_lt g v c hkey hnv
          exact hgo _ _ _ (Nat.lt_of_lt_of_le hlt (Nat.lt_succ_iff.mp hv))

theorem dfs_sound (g : List (String × List String)) (target : String) :
    ∀ fuel visited current p v,
      dfsF g target fuel visited current = some (some p, v) →
      p.head? = some current ∧ DepChainTo g target p := by
  intro fuel
  induction fuel with
  | zero =>
    intro vs c p v h
    exact absurd h (by simp [dfsF])
  | succ f ih =>
    have hgo : ∀ (ds : List String) (c : String) (vs : List String)
        (p : List String) (rv : List String),
        (∀ y ∈ ds, y ∈ depsOf g c) →
        List.foldl (stepDep (dfsF g target f) c) (some (none, vs)) ds
          = some (some p, rv) →
        p.head? = some c ∧ DepChainTo g target p := by
      intro ds
      induction ds with
      | nil =>
        intro c vs p rv _ h
        injection h with h'
        cases h'
      | cons d ds ihds =>
        intro c vs p rv hds h
        rw [List.foldl_cons] at h
        cases hF : dfsF g target f vs d with
        | none =>
          simp only [stepDep, hF] at h
          rw [foldl_stepDep_none] at h
          cases h
        | some r =>
          obtain ⟨ropt, rv'⟩ := r
          cases ropt with
          | some q =>
            simp only [stepDep, hF] at h
            rw [foldl_stepDep_stuck] at h
            injection h with h'
            injection h' with h1 h2
            obtain ⟨hqh, hqc⟩ := ih vs d q rv' hF
            injection h1 with h1'
            subst h1'
            cases q with
            | nil => cases hqh
            | cons q0 qrest =>
              injection hqh with hq0
              subst hq0
              refine ⟨rfl, ?_⟩
              exact ⟨hds _ (List.mem_cons_self _ _), hqc⟩
          | none =>
            simp only [stepDep, hF] at h
            exact ihds c rv' p rv (fun y hy => hds y (by simp [hy])) h
    intro vs c p v h
    simp only [dfsF] at h
    split at h
    · rename_i hbeq
      injection h with h'
      injection h' with h1 h2
      injection h1 with h1'
      subst h1'
      refine ⟨rfl, ?_⟩
      show c = target
      simpa using hbeq
    · split at h
      · injection h with h'
        cases h'
      · split at h
        · injection h with h'
          cases h'
        · rename_i d ds hdeps
          refine hgo (d :: ds) c (c :: vs) p v ?_ h
          rw [hdeps]
          exact fun y hy => hy

theorem dfs_closed (g : List (String × List String)) (target : String) :
    ∀ fuel V E c v,
      GoodE g target V E → dfsF g target fuel V c = some (none, v) →
      GoodE g target v E ∧ c ∈ v := by
  intro fuel
  induction fuel with
  | zero =>
    intro V E c v _ h
    exact absurd h (by simp [dfsF])
  | succ f ih =>
    have hgo : ∀ (ds : List String) (c : String) (V E : List String)
        (v : List String),
        GoodE g target V (c :: E) → c ∈ V →
        (∀ y ∈ depsOf g c, y ∈ ds ∨ (y ≠ target ∧ y ∈ V)) →
        List.foldl (stepDep (dfsF g target f) c) (some (none, V)) ds
          = some (none, v) →
        GoodE g target v E ∧ c ∈ v := by
      intro ds
      induction ds with
      | nil =>
        intro c V E v hG hc hpend h
        injection h with h'
        injection h' with h1 h2
        subst h2
        refine ⟨⟨hG.1, fun x hx hxE y hy => ?_⟩, hc⟩
        by_cases hxc : x = c
        · subst hxc
          rcases hpend y hy with hy' | hy'
          · cases hy'
          · exact hy'
        · exact hG.2 x hx (by simp [hxE, hxc]) y hy
      | cons d ds ihds =>
        intro c V E v hG hc hpend h
        rw [List.foldl_cons] at h
        cases hF : dfsF g target f V d with
        | none =>
          simp only [stepDep, hF] at h
          rw [foldl_stepDep_none] at h
          cases h
        | some r =>
          obtain ⟨ropt, rv⟩ := r
          cases ropt with
          | some q =>
            simp only [stepDep, hF] at h
            rw [foldl_stepDep_stuck] at h
            injection h with h'
            injection h' with h1 h2
            cases h1
          | none =>
            simp only [stepDep, hF] at h
            obtain ⟨hGv, hdv⟩ := ih V (c :: E) d rv hG hF
            have hsub : ∀ x ∈ V, x ∈ rv := dfs_mono g target f V d (none, rv) hF
            refine ihds c rv E v hGv (hsub c hc) (fun y hy => ?_) h
            rcases hpend y hy with hy' | hy'
            · rcases List.mem_cons.mp hy' with hyd | hyds
              · subst hyd
                exact Or.inr ⟨fun hcontra => hGv.1 (hcontra ▸ hdv), hdv⟩
              · exact Or.inl hyds
            · exact Or.inr ⟨hy'.1, hsub y hy'.2⟩
    intro V E c v hG h
    simp only [dfsF] at h
    split at h
    · injection h with h'
      injection h' with h1 h2
      cases h1
    · split at h
      · rename_i hbeq hcts
        injection h with h'
        injection h' with h1 h2
        subst h2
        exact ⟨hG, (contains_eq_true_iff V c).mp (by simpa using hcts)⟩
      · rename_i hbeq hcts
        have hcne : c ≠ target := by simpa using hbeq
        split at h
        · rename_i hdeps
          injection h with h'
          injection h' with h1 h2
          subst h2
          refine ⟨⟨?_, ?_⟩, List.mem_cons_self c V⟩
          · intro hmem
            rcases List.mem_cons.mp hmem with h' | h'
            · exact hcne h'.symm
            · exact hG.1 h'
          · intro x hx hxE y hy
            rcases List.mem_cons.mp hx with hxc | hxV
            · subst hxc
              rw [hdeps] at hy
              cases hy
            · obtain ⟨hy1, hy2⟩ := hG.2 x hxV hxE y hy
              exact ⟨hy1, List.mem_cons_of_mem c hy2⟩
        · rename_i d ds hdeps
          have hGc : GoodE g target (c :: V) (c :: E) := by
            refine ⟨?_, ?_⟩
            · intro hmem
              rcases List.mem_cons.mp hmem with h' | h'
              · exact hcne h'.symm
              · exact hG.1 h'
            · intro x hx hxE y hy
              have hxc : x ≠ c := fun hcontra => hxE (by simp [hcontra])
              rcases List.mem_cons.mp hx with hxc' | hxV
              · exact absurd hxc' hxc
              · obtain ⟨hy1, hy2⟩ := hG.2 x hxV (fun hcontra => hxE (by simp [hcontra])) y hy
                exact ⟨hy1, List.mem_cons_of_mem c hy2⟩
          refine hgo (d :: ds) c (c :: V) E v hGc (List.mem_cons_self c V) ?_ h
          intro y hy
          rw [hdeps] at hy
          exact Or.inl hy

theorem chain_getLast (g : List (String × List String)) (target : String) :
    ∀ p, DepChainTo g target p → p.getLast? = some target := by
  intro p
  induction p with
  | nil => intro h; cases h
  | cons x rest ih =>
    intro h
    cases rest with
    | nil =>
      have hx : x = target := h
      simp [hx]
    | cons y rest' =>
      obtain ⟨_, hchain⟩ := h
      rw [List.getLast?_cons_cons]
      exact ih hchain

theorem reaches_of_chain (g : List (String × List String)) (target : String) :
    ∀ p x, DepChainTo g target p → p.head? = some x → Reaches g x target := by
  intro p
  induction p with
  | nil => intro x h; cases h
  | cons a rest ih =>
    intro x h hh
    injection hh with hh'
    subst hh'
    cases rest with
    | nil =>
      have hx : a = target := h
      subst hx
      exact Reaches.refl a
    | cons y rest' =>
      obtain ⟨hy, hchain⟩ := h
      exact Reaches.step hy (ih y hchain rfl)

theorem closed_no_reach (g : List (String × List String)) (target : String)
    (V : List String) (hG : GoodE g target V []) :
    ∀ x z, Reaches g x z → z = target → x ∈ V → False := by
  intro x z hr
  induction hr with
  | refl a =>
    intro hz hx
    subst hz
    exact hG.1 hx
  | step hy hr ih =>
    intro hz hx
    exact ih hz ((hG.2 _ hx (by simp) _ hy).2)

/-- Dependency graph of Scenario C: `#1` depends on `#2` (from
`blocked_by(#1,#2)`) and `#2` depends on `#3`. -/
def g3 : List (String × List String) := [("t1", ["t2"]), ("t2", ["t3"])]

/-- Board-short ids of the three Scenario C tasks, as the `getShortId`
lookup of `formatCyclePath` resolves them. -/
def exShortIds : String → Option Nat := fun id =>
  if id == "t1" then some 1
  else if id == "t2" then some 2
  else if id == "t3" then some 3
  else none

/-- C2 (counterexample).  In Scenario C the rejected edge `#3 depends on
#1` is reported with cycle path `#3 → #1 → #2 → #3`.  That path has the
form A → B → … → A (the candidate target B right after A), not the form
A → … → B → A stated by the claim: no list can place `t1` in the
second-to-last position of the reported path. -/
theorem wouldCreateCycle_path_form_cex :
    wouldCreateCycle g3 "t3" "t1"
      = { hasCycle := true, cyclePath := some ["t3", "t1", "t2", "t3"] }
    ∧ formatCyclePath ["t3", "t1", "t2", "t3"] exShortIds = "#3 → #1 → #2 → #3"
    ∧ (∀ mid : List String, "t3" :: (mid ++ ["t1", "t3"]) ≠ ["t3", "t1", "t2", "t3"]) := by
  refine ⟨by decide, by decide, ?_⟩
  intro mid h
  cases mid with
  | nil => exact absurd h (by decide)
  | cons m rest =>
    cases rest with
    | nil =>
      have h' := h
      injection h' with e1 h'
      injection h' with e2 h'
      injection h' with e3 h'
      exact absurd e3 (by decide)
    | cons m2 rest2 =>
      have hl := congrArg List.length h
      simp at hl

/-- C2 (amended).  The check reports a cycle exactly when A = B or A is
reachable from B over the existing dependency edges; on rejection the
reported path starts at A, continues with B, follows existing edges and
ends at A — the form A → B → … → A. -/
theorem wouldCreateCycle_correct (g : List (String × List String)) (A B : String) :
    ((wouldCreateCycle g A B).hasCycle = true ↔ (A = B ∨ Reaches g B A))
    ∧ (∀ p, (wouldCreateCycle g A B).cyclePath = some p →
        p.head? = some A ∧ p.tail.head? = some B ∧ p.getLast? = some A ∧
        DepChainTo g A p.tail) := by
  unfold wouldCreateCycle
  by_cases hAB : (A == B) = true
  · have hab : A = B := by simpa using hAB
    rw [if_pos hAB]
    refine ⟨by simp [hab], ?_⟩
    intro p hp
    injection hp with hp'
    subst hp'
    subst hab
    exact ⟨rfl, rfl, rfl, rfl⟩
  · have hab : A ≠ B := by simpa using hAB
    rw [if_neg hAB]
    have hterm : (dfsF g A (fuelBound g) [] B).isSome = true := by
      apply dfs_fuel_sufficient
      unfold fuelBound
      exact Nat.lt_succ_of_le (List.length_filter_le _ _)
    cases hrun : dfsF g A (fuelBound g) [] B with
    | none => rw [hrun] at hterm; cases hterm
    | some r =>
      obtain ⟨ropt, rv⟩ := r
      cases ropt with
      | some p =>
        obtain ⟨hph, hpc⟩ := dfs_sound g A (fuelBound g) [] B p rv hrun
        constructor
        · exact ⟨fun _ => Or.inr (reaches_of_chain g A p B hpc hph), fun _ => rfl⟩
        · intro q hq
          injection hq with hq'
          subst hq'
          refine ⟨rfl, ?_, ?_, ?_⟩
          · simpa using hph
          · cases p with
            | nil => cases hph
            | cons p0 ps =>
              rw [List.getLast?_cons_cons]
              exact chain_getLast g A (p0 :: ps) hpc
          · exact hpc
      | none =>
        obtain ⟨hGv, hBv⟩ := dfs_closed g A (fuelBound g) [] [] B rv
          ⟨by simp, by simp⟩ hrun
        constructor
        · refine ⟨fun hcontra => absurd hcontra (by simp), fun hor => ?_⟩
          exfalso
          rcases hor with h' | h'
          · exact hab h'
          · exact closed_no_reach g A rv hGv B A h' rfl hBv
        · intro q hq
          cases hq

/-- C2 (witness): the amended theorem applied to the Scenario C graph and
the concrete reported path. -/
theorem wouldCreateCycle_correct_witness :
    (["t3", "t1", "t2", "t3"] : List String).head? = some "t3"
    ∧ (["t3", "t1", "t2", "t3"] : List String).tail.head? = some "t1"
    ∧ (["t3", "t1", "t2", "t3"] : List String).getLast? = some "t3"
    ∧ DepChainTo g3 "t3" ["t1", "t2", "t3"] := by
  exact (wouldCreateCycle_correct g3 "t3" "t1").2 ["t3", "t1", "t2", "t3"] (by decide)

/-- C10.  The depth-first traversal of `wouldCreateCycle` always returns
on a finite dependency graph — including graphs that already contain
cycles — because the visited set lets each stored row be expanded at most
once: with fuel one larger than the number of rows (`fuelBound`), the
fueled traversal never reports fuel exhaustion, from any start node. -/
theorem dfs_terminates_fueled (g : List (String × List String)) (A B : String) :
    (dfsF g A (fuelBound g) [] B).isSome = true := by
  apply dfs_fuel_sufficient
  unfold fuelBound
  exact Nat.lt_succ_of_le (List.length_filter_le _ _)

/-! ### Due-date scorer (services/scoring/scorers/due-date.ts)

`dueDateScorer.score(task)` reads `task.dueDate.getTime()` and
`Date.now()`; the scorer is embedded as a function of those two epoch
millisecond values, with JavaScript number arithmetic carried out
exactly over ℚ. -/

/-- `dueDateScorer.score`, translated from the scorer source: 0 without a
due date, otherwise a piecewise function of
`daysUntilDue = (dueTime - now) / (1000*60*60*24)`. -/
def dueDateScorerScore (dueDateMs : Option Int) (nowMs : Int) : ℚ :=
  match dueDateMs with
  | none => 0
  | some due =>
    let daysUntilDue : ℚ := ((due : ℚ) - (nowMs : ℚ)) / (1000 * 60 * 60 * 24)
    if daysUntilDue ≤ 0 then 1000 + |daysUntilDue| * 10
    else if daysUntilDue ≤ 1 then 500
    else if daysUntilDue ≤ 7 then 100 + (7 - daysUntilDue) * 10
    else max 0 (50 - daysUntilDue)

/-- Modelled from the spec: the claim's formula, written with its four
disjoint regimes over `d`, the possibly fractional number of days until
the due date (86400000 ms per day): overdue `1000 + |d|·10` when `d ≤ 0`;
`500` when `0 < d ≤ 1`; `100 + (7−d)·10` when `1 < d ≤ 7`; and
`max(0, 50−d)` when `d > 7` — and 0 with no due date. -/
def dueDateSpecScore (dueDateMs : Option Int) (nowMs : Int) : ℚ :=
  match dueDateMs with
  | none => 0
  | some due =>
    let d : ℚ := ((due : ℚ) - (nowMs : ℚ)) / 86400000
    if d ≤ 0 then 1000 + |d| * 10
    else if 0 < d ∧ d ≤ 1 then 500
    else if 1 < d ∧ d ≤ 7 then 100 + (7 - d) * 10
    else max 0 (50 - d)

/-- C8.  The due-date scorer computes exactly the claimed piecewise
formula: 0 when the task has no due date, and otherwise the four-regime
function of the fractional day distance `d`. -/
theorem dueDateScorer_matches_spec (dueDateMs : Option Int) (nowMs : Int) :
    dueDateScorerScore dueDateMs nowMs = dueDateSpecScore dueDateMs nowMs := by
  cases dueDateMs with
  | none => rfl
  | some due =>
    unfold dueDateScorerScore dueDateSpecScore
    have hden : (1000 * 60 * 60 * 24 : ℚ) = 86400000 := by norm_num
    simp only [hden]
    split_ifs <;> first
      | rfl
      | (exfalso; simp_all)

/-! ### Character-level string utilities

The markdown codec (services/markdown.ts) is embedded over `List Char`,
the underlying data of `String`; the JavaScript string operations it uses
(`split`, `join`, `trim`, `trimEnd`, `startsWith`, `includes`,
`replace`, and the specific regular expressions of the parser) are
implemented below. -/

/-- `pat` is a prefix of the second list. -/
def isPre : List Char → List Char → Bool
  | [], _ => true
  | _ :: _, [] => false
  | a :: as, b :: bs => a == b && isPre as bs

/-- `String.prototype.includes`: some occurrence of `pat`. -/
def containsSub (pat : List Char) : List Char → Bool
  | [] => isPre pat []
  | c :: cs => isPre pat (c :: cs) || containsSub pat cs

/-- Case-insensitive prefix test (for the `/i` regex flag). -/
def isPreCI : List Char → List Char → Bool
  | [], _ => true
  | _ :: _, [] => false
  | a :: as, b :: bs => a.toLower == b.toLower && isPreCI as bs

/-- Leading JavaScript whitespace removed. -/
def trimLeftCh : List Char → List Char
  | [] => []
  | c :: cs => if isWsChar c then trimLeftCh cs else c :: cs

/-- `String.prototype.trimEnd`. -/
def trimEndCh (l : List Char) : List Char := (trimLeftCh l.reverse).reverse

/-- `String.prototype.trim`. -/
def trimCh (l : List Char) : List Char := trimLeftCh (trimEndCh l)

/-- `split("\n")`. -/
def splitNlCh : List Char → List (List Char)
  | [] => [[]]
  | c :: cs =>
    if c == '\n' then [] :: splitNlCh cs
    else
      match splitNlCh cs with
      | [] => [[c]]
      | l :: ls => (c :: l) :: ls

/-- `join("\n")`. -/
def joinNlCh : List (List Char) → List Char
  | [] => []
  | [l] => l
  | l :: l' :: ls => l ++ '\n' :: joinNlCh (l' :: ls)

/-- `split(",")`. -/
def splitCommaCh : List Char → List (List Char)
  | [] => [[]]
  | c :: cs =>
    if c == ',' then [] :: splitCommaCh cs
    else
      match splitCommaCh cs with
      | [] => [[c]]
      | l :: ls => (c :: l) :: ls

/-- Global literal-pattern replacement (`replace(/pat/g, rep)`): leftmost
non-overlapping occurrences.  `skip` counts pattern characters still to
be consumed after a match. -/
def repGo (pat rep : List Char) (skip : Nat) : List Char → List Char
  | [] => []
  | c :: cs =>
    match skip with
    | n + 1 => repGo pat rep n cs
    | 0 =>
      if pat ≠ [] && isPre pat (c :: cs) then
        rep ++ repGo pat rep (pat.length - 1) cs
      else c :: repGo pat rep 0 cs

/-- `replace` with the `g` flag over character lists. -/
def replaceAllCh (pat rep l : List Char) : List Char := repGo pat rep 0 l

/-- `dueLine.replace("✓", "")`: a string pattern replaces only the first
occurrence. -/
def removeFirstCheck : List Char → List Char
  | [] => []
  | c :: cs => if c == '✓' then cs else c :: removeFirstCheck cs

/-- Decimal digits of a `Nat` (fueled, structural). -/
def natDigitsAux : Nat → Nat → List Char
  | 0, _ => []
  | fuel + 1, n =>
    if n < 10 then [Nat.digitChar n]
    else natDigitsAux fuel (n / 10) ++ [Nat.digitChar (n % 10)]

/-- Decimal rendering of a `Nat`, as a template literal prints it. -/
def natToDigits (n : Nat) : List Char := natDigitsAux (n + 1) n

/-- `parseInt` on a digit run. -/
def digitsToNat (l : List Char) : Nat :=
  l.foldl (fun acc c => acc * 10 + (c.toNat - 48)) 0

/-! ### Markdown codec (services/markdown.ts) -/

/-- `escapeMarkdown`: backslashes double, newlines become spaces, and the
opener `<!--` is escaped to keep metadata comments unambiguous. -/
def escCh (l : List Char) : List Char :=
  replaceAllCh "<!--".data "\\<!--".data
    (replaceAllCh "\n".data " ".data
      (replaceAllCh "\\".data "\\\\".data l))

/-- `unescapeMarkdown`. -/
def unescCh (l : List Char) : List Char :=
  replaceAllCh "\\\\".data "\\".data (replaceAllCh "\\<!--".data "<!--".data l)

/-- `unescapeMarkdown` on strings. -/
def unescapeMarkdown (s : String) : String := ⟨unescCh s.data⟩

/-- Gregorian leap year. -/
def isLeap (y : Nat) : Bool := (y % 4 == 0 && y % 100 != 0) || y % 400 == 0

/-- Days in a month. -/
def daysInMonth (y m : Nat) : Nat :=
  if m == 2 then (if isLeap y then 29 else 28)
  else if m == 4 || m == 6 || m == 9 || m == 11 then 30
  else 31

/-- Calendar validity, as `new Date("YYYY-MM-DDT00:00:00.000Z")` accepts
an ISO date (out-of-range fields give an Invalid Date). -/
def validDate (y m d : Nat) : Bool :=
  1 ≤ m && m ≤ 12 && 1 ≤ d && d ≤ daysInMonth y m

/-- Two fixed decimal digits (the month/day fields of `toISOString`). -/
def pad2 (n : Nat) : List Char := [Nat.digitChar (n / 10 % 10), Nat.digitChar (n % 10)]

/-- Four fixed decimal digits (the year field of `toISOString` for years
up to 9999). -/
def pad4 (n : Nat) : List Char :=
  [Nat.digitChar (n / 1000 % 10), Nat.digitChar (n / 100 % 10),
   Nat.digitChar (n / 10 % 10), Nat.digitChar (n % 10)]

/-- `formatDate`: the `YYYY-MM-DD` part of the ISO string. -/
def formatDate (d : MdDate) : List Char :=
  pad4 d.year ++ '-' :: (pad2 d.month ++ '-' :: pad2 d.day)

/-- `parseISODate`: the strict `^(\d{4})-(\d{2})-(\d{2})$` shape, then
JavaScript `Date` validity. -/
def parseISODateCh (l : List Char) : Option MdDate :=
  match l with
  | [y1, y2, y3, y4, h1, m1, m2, h2, d1, d2] =>
    if y1.isDigit && y2.isDigit && y3.isDigit && y4.isDigit && h1 == '-'
        && m1.isDigit && m2.isDigit && h2 == '-' && d1.isDigit && d2.isDigit then
      let y := digitsToNat [y1, y2, y3, y4]
      let m := digitsToNat [m1, m2]
      let d := digitsToNat [d1, d2]
      if validDate y m d then some ⟨y, m, d⟩ else none
    else none
  | _ => none

/-- The `/<!--\s*id:([^\s]+)\s*-->/` tail after a `<!--` opener: skips
whitespace, expects `id:`, takes the maximal non-space token, and closes
on `-->` — either as the token's own suffix or after further whitespace
(the two ways the backtracking regex completes when the token holds no
earlier `-->`). -/
def parseIdAt (l : List Char) : Option (List Char × List Char) :=
  let l1 := l.dropWhile isWsChar
  if isPre "id:".data l1 then
    let l2 := l1.drop 3
    let tok := l2.takeWhile (fun c => !isWsChar c)
    let l3 := l2.drop tok.length
    if tok.isEmpty then none
    else if isPre "-->".data.reverse tok.reverse && decide (3 < tok.length) then
      some (tok.take (tok.length - 3), l3)
    else
      let l4 := l3.dropWhile isWsChar
      if isPre "-->".data l4 then some (tok, l4.drop 3) else none
  else none

/-- Leftmost match of the id-comment regex: returns the captured id and
the line with the matched span removed (`title.replace(idMatch[0], "")`). -/
def findIdComment : List Char → Option (List Char × List Char)
  | [] => none
  | c :: cs =>
    if isPre "<!--".data (c :: cs) then
      match parseIdAt ((c :: cs).drop 4) with
      | some (id, rest) => some (id, rest)
      | none =>
        match findIdComment cs with
        | some (id, rem) => some (id, c :: rem)
        | none => none
    else
      match findIdComment cs with
      | some (id, rem) => some (id, c :: rem)
      | none => none

/-- Leftmost match of `/WIP Limit:\s*(\d+|none)/i`: `some (some n)` for a
digit run, `some none` for the keyword `none`, `none` when the pattern
never completes. -/
def findWip : List Char → Option (Option Nat)
  | [] => none
  | c :: cs =>
    if isPreCI "wip limit:".data (c :: cs) then
      let rest := ((c :: cs).drop 10).dropWhile isWsChar
      let digitsTok := rest.takeWhile Char.isDigit
      if !digitsTok.isEmpty then some (some (digitsToNat digitsTok))
      else if isPreCI "none".data rest then some none
      else findWip cs
    else findWip cs

/-- Leftmost match of `/assigned:\s*(\S+)/`: the token after the marker. -/
def findAssigned : List Char → Option (List Char)
  | [] => none
  | c :: cs =>
    if isPre "assigned:".data (c :: cs) then
      let rest := ((c :: cs).drop 9).dropWhile isWsChar
      let tok := rest.takeWhile (fun ch => !isWsChar ch)
      if tok.isEmpty then findAssigned cs else some tok
    else findAssigned cs

/-- The `/^(\s{4}|\t)/` indent test: four whitespace characters, or (when
those do not match) a single leading tab; yields the line content after
the indent. -/
def indentContent (l : List Char) : Option (List Char) :=
  match l with
  | c1 :: c2 :: c3 :: c4 :: rest =>
    if isWsChar c1 && isWsChar c2 && isWsChar c3 && isWsChar c4 then
      some rest
    else if c1 == '\t' then some (c2 :: c3 :: c4 :: rest)
    else none
  | [c1, c2, c3] => if c1 == '\t' then some [c2, c3] else none
  | [c1, c2] => if c1 == '\t' then some [c2] else none
  | [c1] => if c1 == '\t' then some [] else none
  | [] => none

/-- Export options of `exportBoard`. -/
structure ExportOptions where
  includeArchived : Bool := false
  includeMetadata : Bool := false
deriving Repr, DecidableEq

/-- Insertion step of a stable ascending sort by an integer key. -/
def insertByKey {α : Type} (key : α → Int) (x : α) : List α → List α
  | [] => [x]
  | u :: us => if key x < key u then x :: u :: us else u :: insertByKey key x us

/-- Stable ascending sort by an integer key (the JavaScript
`sort((a, b) => key(a) - key(b))` of a modern engine is stable). -/
def sortByKey {α : Type} (key : α → Int) (l : List α) : List α :=
  l.foldl (fun acc x => insertByKey key x acc) []

/-- `", "`-join of labels (`task.labels.join(", ")`). -/
def joinLabels : List (List Char) → List Char
  | [] => []
  | [l] => l
  | l :: l' :: ls => l ++ ',' :: ' ' :: joinLabels (l' :: ls)

/-- The column's tasks a board export sees: sorted by position, archived
rows skipped unless requested. -/
def keptTasks (tasksBC : String → List Task) (opts : ExportOptions)
    (colId : String) : List Task :=
  (sortByKey Task.position (tasksBC colId)).filter
    (fun t => opts.includeArchived || !t.archived)

/-- The lines `exportBoard` emits for one task. -/
def taskLines (opts : ExportOptions) (t : Task) : List String :=
  [if opts.includeMetadata then
     ⟨'-' :: ' ' :: (escCh t.title.data
        ++ (" <!-- id:".data ++ (t.id.data ++ " -->".data)))⟩
   else ⟨'-' :: ' ' :: escCh t.title.data⟩]
  ++ (match t.dueDate with
      | some d =>
        [⟨"    @ ".data ++ (formatDate d
            ++ (if t.completedAt.isSome then " ✓".data else []))⟩]
      | none => [])
  ++ (if t.labels.isEmpty then []
      else [⟨"    # ".data ++ joinLabels (t.labels.map String.data)⟩])
  ++ (match t.assignedTo with
      | some a => if a.data.isEmpty then [] else [⟨"    @ assigned: ".data ++ a.data⟩]
      | none => [])
  ++ (match t.description with
      | some dsc =>
        if dsc.data.isEmpty then []
        else (splitNlCh dsc.data).map (fun ln => ⟨"    > ".data ++ escCh ln⟩)
      | none => [])
  ++ [""]

/-- The lines `exportBoard` emits for one column. -/
def colLines (opts : ExportOptions) (tasksBC : String → List Task)
    (c : Column) : List String :=
  [⟨'#' :: '#' :: ' ' :: escCh c.name.data⟩]
  ++ (match c.wipLimit with
      | some n => [⟨"<!-- WIP Limit: ".data ++ (natToDigits n ++ " -->".data)⟩]
      | none => [])
  ++ (if c.isTerminal then ["<!-- Terminal column -->"] else [])
  ++ [""]
  ++ (keptTasks tasksBC opts c.id).flatMap (taskLines opts)

/-- All lines of an export, before the final join. -/
def exportLines (boardName : String) (columns : List Column)
    (tasksBC : String → List Task) (opts : ExportOptions) : List String :=
  [⟨'#' :: ' ' :: escCh boardName.data⟩, ""]
  ++ (sortByKey Column.position columns).flatMap (colLines opts tasksBC)

/-- `exportBoard`: `lines.join("\n").trimEnd() + "\n"`. -/
def exportBoard (boardName : String) (columns : List Column)
    (tasksBC : String → List Task) (opts : ExportOptions) : String :=
  ⟨trimEndCh (joinNlCh ((exportLines boardName columns tasksBC opts).map String.data))
     ++ ['\n']⟩

/-- A task as `parseMarkdown` accumulates it. -/
structure ParsedTask where
  title : String
  id : Option String
  description : Option String
  dueDate : Option MdDate
  labels : List String
  assignedTo : Option String
deriving Repr, DecidableEq

/-- A column as `parseMarkdown` accumulates it. -/
structure ParsedColumn where
  name : String
  wipLimit : Option Nat
  isTerminal : Option Bool
  tasks : List ParsedTask
deriving Repr, DecidableEq

/-- The result record of `parseMarkdown`. -/
structure ParseResult where
  boardName : String
  columns : List ParsedColumn
  errors : List String
deriving Repr, DecidableEq

/-- The parser's loop state: accumulated columns, the open column and
open task, errors, and the current line number. -/
structure PState where
  boardName : String
  cols : List ParsedColumn
  curCol : Option ParsedColumn
  curTask : Option ParsedTask
  errors : List String
  lineNum : Nat
deriving Repr, DecidableEq

/-- `currentColumn.tasks.push(currentTask)` guarded on the task. -/
def pushTask (pc : ParsedColumn) : Option ParsedTask → ParsedColumn
  | some t => { pc with tasks := pc.tasks ++ [t] }
  | none => pc

/-- One iteration of the `parseMarkdown` line loop. -/
def parseStep (st0 : PState) (line : String) : PState :=
  let st := { st0 with lineNum := st0.lineNum + 1 }
  let n := st.lineNum
  let l := line.data
  if isPre "# ".data l && !isPre "## ".data l then
    { st with boardName := unescapeMarkdown ⟨trimCh (l.drop 2)⟩ }
  else if isPre "## ".data l then
    let st1 :=
      match st.curTask, st.curCol with
      | some t, some pc =>
        { st with curCol := some { pc with tasks := pc.tasks ++ [t] }, curTask := none }
      | _, _ => st
    let st2 :=
      match st1.curCol with
      | some pc => { st1 with cols := st1.cols ++ [pc] }
      | none => st1
    { st2 with curCol := some { name := unescapeMarkdown ⟨trimCh (l.drop 3)⟩,
                                wipLimit := none, isTerminal := none, tasks := [] } }
  else if containsSub "WIP Limit:".data l && st.curCol.isSome then
    match st.curCol, findWip l with
    | some pc, some v => { st with curCol := some { pc with wipLimit := v } }
    | _, _ => st
  else if containsSub "Terminal column".data l && st.curCol.isSome then
    match st.curCol with
    | some pc => { st with curCol := some { pc with isTerminal := some true } }
    | none => st
  else if isPre "- ".data l then
    let st1 :=
      match st.curTask, st.curCol with
      | some t, some pc =>
        { st with curCol := some { pc with tasks := pc.tasks ++ [t] } }
      | _, _ => st
    let rest := l.drop 2
    let newTask : ParsedTask :=
      match findIdComment rest with
      | some (idtok, removed) =>
        { title := unescapeMarkdown ⟨trimCh removed⟩, id := some ⟨idtok⟩,
          description := none, dueDate := none, labels := [], assignedTo := none }
      | none =>
        { title := unescapeMarkdown ⟨rest⟩, id := none,
          description := none, dueDate := none, labels := [], assignedTo := none }
    { st1 with curTask := some newTask }
  else
    match indentContent l with
    | none => st
    | some content =>
      match st.curTask with
      | none => st
      | some t =>
        if isPre "@ ".data content && !containsSub "assigned:".data content then
          let dateStr := trimCh (removeFirstCheck (trimCh (content.drop 2)))
          match parseISODateCh dateStr with
          | some dt => { st with curTask := some { t with dueDate := some dt } }
          | none =>
            { st with errors := st.errors
                ++ ["Line " ++ Nat.repr n ++ ": Invalid date format \""
                      ++ String.mk dateStr ++ "\""] }
        else if containsSub "assigned:".data content then
          match findAssigned content with
          | some tok => { st with curTask := some { t with assignedTo := some ⟨tok⟩ } }
          | none => st
        else if isPre "# ".data content then
          let labelStr := trimCh (content.drop 2)
          let newLabels :=
            ((splitCommaCh labelStr).map (fun lc => String.mk (trimCh lc))).filter
              (fun s => !s.data.isEmpty)
          { st with curTask := some { t with labels := newLabels } }
        else if isPre "> ".data content then
          let descLine := unescapeMarkdown ⟨content.drop 2⟩
          match t.description with
          | none => { st with curTask := some { t with description := some descLine } }
          | some d =>
            { st with curTask := some { t with description := some (d ++ "\n" ++ descLine) } }
        else st

/-- The parser's initial state. -/
def initPState : PState :=
  { boardName := "Imported Board", cols := [], curCol := none, curTask := none,
    errors := [], lineNum := 0 }

/-- The flush `parseMarkdown` performs after the loop. -/
def finalizeRun (st : PState) : ParseResult :=
  let st1 :=
    match st.curTask, st.curCol with
    | some t, some pc =>
      { st with curCol := some { pc with tasks := pc.tasks ++ [t] }, curTask := none }
    | _, _ => st
  let cols :=
    match st1.curCol with
    | some pc => st1.cols ++ [pc]
    | none => st1.cols
  { boardName := st1.boardName, columns := cols, errors := st1.errors }

/-- `parseMarkdown` on a pre-split line list. -/
def parseLinesRun (lines : List String) : ParseResult :=
  finalizeRun (lines.foldl parseStep initPState)

/-- `parseMarkdown`. -/
def parseMarkdown (content : String) : ParseResult :=
  parseLinesRun ((splitNlCh content.data).map String.mk)

/-! ### Substring and prefix lemmas -/

/-- Matching `pat` against `seg ++ anything` fails inside `seg`. -/
def diesWithin : List Char → List Char → Bool
  | [], _ => false
  | _ :: _, [] => false
  | p :: ps, c :: cs => if p == c then diesWithin ps cs else true

/-- No start position inside `lit` can begin a match of `pat` that
survives past `lit`. -/
def litNoStart (pat lit : List Char) : Bool :=
  (List.range lit.length).all (fun i => diesWithin pat (lit.drop i))

/-- A match of a proper, nonempty tail of `pat` cannot begin at `seg`. -/
def noStraddleSeg (pat seg : List Char) : Bool :=
  (List.range pat.length).all (fun k => decide (k = 0) || diesWithin (pat.drop k) seg)

theorem isPre_append_false_of_dies : ∀ (pat seg l : List Char),
    diesWithin pat seg = true → isPre pat (seg ++ l) = false := by
  intro pat
  induction pat with
  | nil => intro seg l h; simp [diesWithin] at h
  | cons p ps ih =>
    intro seg l h
    cases seg with
    | nil => simp [diesWithin] at h
    | cons c cs =>
      show (p == c && isPre ps (cs ++ l)) = false
      by_cases hpc : p == c
      · rw [hpc]
        simp only [diesWithin, if_pos hpc] at h
        simp [ih cs l h]
      · simp [hpc]

theorem isPre_append_refl : ∀ (pat l : List Char), isPre pat (pat ++ l) = true := by
  intro pat
  induction pat with
  | nil => intro l; rfl
  | cons p ps ih => intro l; show (p == p && isPre ps (ps ++ l)) = true; simp [ih l]

theorem isPre_chars : ∀ (pat l : List Char), isPre pat l = true → ∀ c ∈ pat, c ∈ l := by
  intro pat
  induction pat with
  | nil => intro l _ c hc; cases hc
  | cons p ps ih =>
    intro l h c hc
    cases l with
    | nil => simp [isPre] at h
    | cons x xs =>
      have h1 : (p == x) = true ∧ isPre ps xs = true := by
        have := h; simp [isPre, Bool.and_eq_true] at this; exact ⟨by simp [this.1], this.2⟩
      rcases List.mem_cons.mp hc with hcp | hc2
      · have hpx : p = x := by simpa using h1.1
        rw [hcp, hpx]; exact List.mem_cons_self _ _
      · exact List.mem_cons_of_mem _ (ih xs h1.2 c hc2)

theorem containsSub_chars : ∀ (l pat : List Char),
    containsSub pat l = true → ∀ c ∈ pat, c ∈ l := by
  intro l
  induction l with
  | nil =>
    intro pat h c hc
    cases pat with
    | nil => cases hc
    | cons p ps => simp [containsSub, isPre] at h
  | cons x xs ih =>
    intro pat h c hc
    have h2 : isPre pat (x :: xs) = true ∨ containsSub pat xs = true := by
      simpa [containsSub, Bool.or_eq_true] using h
    rcases h2 with h2 | h2
    · exact isPre_chars pat (x :: xs) h2 c hc
    · exact List.mem_cons_of_mem _ (ih pat h2 c hc)

/-- `includes` fails when some pattern character is absent. -/
theorem containsSub_eq_false_of_not_mem (pat l : List Char) (c : Char)
    (hc : c ∈ pat) (hl : c ∉ l) : containsSub pat l = false := by
  cases h : containsSub pat l with
  | false => rfl
  | true => exact absurd (containsSub_chars l pat h c hc) hl

theorem litNoStart_head (pat : List Char) (c : Char) (cs : List Char)
    (h : litNoStart pat (c :: cs) = true) : diesWithin pat (c :: cs) = true := by
  have := (List.all_eq_true.mp h) 0 (List.mem_range.mpr (by simp))
  simpa using this

theorem litNoStart_tail (pat : List Char) (c : Char) (cs : List Char)
    (h : litNoStart pat (c :: cs) = true) : litNoStart pat cs = true := by
  apply List.all_eq_true.mpr
  intro i hi
  have hi' : i + 1 ∈ List.range (c :: cs).length := by
    simp only [List.mem_range] at hi ⊢; simpa using Nat.succ_lt_succ hi
  have := (List.all_eq_true.mp h) (i + 1) hi'
  simpa using this

/-- Stripping a literal prefix that can start no match. -/
theorem containsSub_append_lit : ∀ (lit pat l : List Char),
    litNoStart pat lit = true → containsSub pat (lit ++ l) = containsSub pat l := by
  intro lit
  induction lit with
  | nil => intro pat l _; rfl
  | cons c cs ih =>
    intro pat l h
    show (isPre pat ((c :: cs) ++ l) || containsSub pat (cs ++ l)) = containsSub pat l
    rw [isPre_append_false_of_dies pat (c :: cs) l (litNoStart_head pat c cs h),
        ih pat l (litNoStart_tail pat c cs h)]
    rfl

theorem isPre_drop_append : ∀ (x pat y : List Char),
    isPre pat (x ++ y) = true → isPre (pat.drop x.length) y = true := by
  intro x
  induction x with
  | nil => intro pat y h; simpa using h
  | cons c x' ih =>
    intro pat y h
    cases pat with
    | nil => simp [isPre]
    | cons p ps =>
      have h2 : isPre ps (x' ++ y) = true := by
        have := h; simp [isPre, Bool.and_eq_true] at this; exact this.2
      simpa using ih ps y h2

theorem isPre_append_of_le : ∀ (pat x y : List Char),
    pat.length ≤ x.length → isPre pat (x ++ y) = true → isPre pat x = true := by
  intro pat
  induction pat with
  | nil => intro x y _ _; rfl
  | cons p ps ih =>
    intro x y hlen h
    cases x with
    | nil => simp at hlen
    | cons c x' =>
      have h2 : (p == c) = true ∧ isPre ps (x' ++ y) = true := by
        have := h; simp [isPre, Bool.and_eq_true] at this; exact ⟨by simp [this.1], this.2⟩
      show (p == c && isPre ps x') = true
      rw [h2.1, ih x' y (by simpa using hlen) h2.2]
      rfl

theorem noStraddleSeg_spec (pat seg : List Char) (h : noStraddleSeg pat seg = true) :
    ∀ k l, 0 < k → k < pat.length → isPre (pat.drop k) (seg ++ l) = false := by
  intro k l hk hkl
  have := (List.all_eq_true.mp h) k (List.mem_range.mpr hkl)
  simp only [Bool.or_eq_true, decide_eq_true_eq] at this
  rcases this with h0 | hd
  · omega
  · exact isPre_append_false_of_dies _ seg l hd

/-- `includes` over a concatenation whose boundary cannot be straddled. -/
theorem containsSub_append_false (pat a b : List Char)
    (ha : containsSub pat a = false) (hb : containsSub pat b = false)
    (hstr : ∀ k, 0 < k → k < pat.length → isPre (pat.drop k) b = false) :
    containsSub pat (a ++ b) = false := by
  induction a with
  | nil => simpa using hb
  | cons c a' ih =>
    have ha2 : isPre pat (c :: a') = false ∧ containsSub pat a' = false := by
      have := ha; simp only [containsSub, Bool.or_eq_false_iff] at this; exact this
    show (isPre pat ((c :: a') ++ b) || containsSub pat (a' ++ b)) = false
    rw [ih ha2.2]
    have hfirst : isPre pat ((c :: a') ++ b) = false := by
      cases hcase : isPre pat ((c :: a') ++ b) with
      | false => rfl
      | true =>
        exfalso
        by_cases hlen : pat.length ≤ (c :: a').length
        · have := isPre_append_of_le pat (c :: a') b hlen hcase
          rw [ha2.1] at this; cases this
        · push_neg at hlen
          have hdrop := isPre_drop_append (c :: a') pat b hcase
          have := hstr (c :: a').length (by simp) hlen
          rw [hdrop] at this; cases this
    rw [hfirst]
    rfl

theorem containsSub_append_seg_false (pat a seg l : List Char)
    (ha : containsSub pat a = false) (hb : containsSub pat (seg ++ l) = false)
    (hD : noStraddleSeg pat seg = true) :
    containsSub pat (a ++ (seg ++ l)) = false :=
  containsSub_append_false pat a (seg ++ l) ha hb
    (fun k hk hkl => noStraddleSeg_spec pat seg hD k l hk hkl)

/-- `includes` of a single character is `contains`. -/
theorem containsSub_singleton (c : Char) : ∀ (l : List Char),
    containsSub [c] l = l.contains c := by
  intro l
  induction l with
  | nil => rfl
  | cons x xs ih =>
    show (isPre [c] (x :: xs) || containsSub [c] xs) = (x :: xs).contains c
    have h1 : isPre [c] (x :: xs) = (c == x) := by simp [isPre]
    rw [h1, ih, List.contains_cons]

/-! ### Trim, split and join lemmas -/

/-- First character is not whitespace (vacuously for empty text). -/
def headNotWs (l : List Char) : Bool :=
  match l.head? with
  | some c => !isWsChar c
  | none => true

/-- Last character is not whitespace (vacuously for empty text). -/
def lastNotWs (l : List Char) : Bool :=
  match l.getLast? with
  | some c => !isWsChar c
  | none => true

theorem trimLeftCh_of_headNotWs : ∀ (l : List Char), headNotWs l = true → trimLeftCh l = l := by
  intro l h
  cases l with
  | nil => rfl
  | cons c cs =>
    have hc : isWsChar c = false := by simpa [headNotWs] using h
    simp [trimLeftCh, hc]

theorem getLast?_append_right {α : Type} : ∀ (x : List α) (a : α) (y : List α),
    (x ++ a :: y).getLast? = (a :: y).getLast? := by
  intro x a y
  induction x with
  | nil => rfl
  | cons c cs ih =>
    show (c :: (cs ++ a :: y)).getLast? = _
    cases hcs : cs ++ a :: y with
    | nil => exact absurd hcs (by simp)
    | cons b bs =>
      rw [List.getLast?_cons_cons, ← hcs, ih]

theorem headNotWs_reverse (l : List Char) (h : lastNotWs l = true) :
    headNotWs l.reverse = true := by
  cases hl : l.reverse with
  | nil => rfl
  | cons c cs =>
    have hform : l = cs.reverse ++ c :: [] := by
      have := congrArg List.reverse hl; simpa using this
    have : l.getLast? = some c := by
      rw [hform, getLast?_append_right]; rfl
    simp only [headNotWs, List.head?]
    simpa [lastNotWs, this] using h

theorem trimEndCh_of_lastNotWs (l : List Char) (h : lastNotWs l = true) :
    trimEndCh l = l := by
  unfold trimEndCh
  rw [trimLeftCh_of_headNotWs l.reverse (headNotWs_reverse l h), List.reverse_reverse]

theorem trimCh_id (l : List Char) (hh : headNotWs l = true) (hl : lastNotWs l = true) :
    trimCh l = l := by
  unfold trimCh
  rw [trimEndCh_of_lastNotWs l hl, trimLeftCh_of_headNotWs l hh]

/-- Some character is not whitespace. -/
def anyNonWs (l : List Char) : Bool := l.any (fun c => !isWsChar c)

theorem trimLeftCh_ne_nil (l : List Char) (h : anyNonWs l = true) : trimLeftCh l ≠ [] := by
  induction l with
  | nil => simp [anyNonWs] at h
  | cons c cs ih =>
    by_cases hc : isWsChar c = true
    · have : anyNonWs cs = true := by
        have := h; simp only [anyNonWs, List.any_cons, Bool.or_eq_true] at this
        rcases this with h1 | h1
        · rw [hc] at h1; cases h1
        · simpa [anyNonWs] using h1
      simpa [trimLeftCh, hc] using ih this
    · simp only [Bool.not_eq_true] at hc
      simp [trimLeftCh, hc]

theorem trimLeftCh_append_of_ne_nil (x y : List Char) (h : trimLeftCh x ≠ []) :
    trimLeftCh (x ++ y) = trimLeftCh x ++ y := by
  induction x with
  | nil => simp [trimLeftCh] at h
  | cons c cs ih =>
    by_cases hc : isWsChar c = true
    · have h2 : trimLeftCh cs ≠ [] := by
        intro hcon; rw [trimLeftCh, if_pos hc] at h; exact h hcon
      show trimLeftCh (c :: (cs ++ y)) = _
      rw [trimLeftCh, if_pos hc, trimLeftCh, if_pos hc, ih h2]
    · simp only [Bool.not_eq_true] at hc
      show trimLeftCh (c :: (cs ++ y)) = _
      rw [trimLeftCh, if_neg (by simp [hc]), trimLeftCh, if_neg (by simp [hc])]
      rfl

theorem trimEndCh_cons_of_any (c : Char) (l : List Char) (h : anyNonWs l = true) :
    trimEndCh (c :: l) = c :: trimEndCh l := by
  unfold trimEndCh
  have hne : trimLeftCh l.reverse ≠ [] :=
    trimLeftCh_ne_nil l.reverse (by simpa [anyNonWs] using h)
  rw [List.reverse_cons, trimLeftCh_append_of_ne_nil _ [c] hne]
  simp

theorem trimCh_cons_ws (c : Char) (l : List Char) (hc : isWsChar c = true)
    (h : anyNonWs l = true) : trimCh (c :: l) = trimCh l := by
  unfold trimCh
  rw [trimEndCh_cons_of_any c l h, trimLeftCh, if_pos hc]

theorem anyNonWs_of_head (c : Char) (l : List Char) (hc : isWsChar c = false) :
    anyNonWs (c :: l) = true := by
  simp [anyNonWs, List.any_cons, hc]

/-- Appending a trailing run that ends in `'\n'` disappears under `trimEnd`. -/
theorem trimEndCh_append_nl (x : List Char) :
    trimEndCh (x ++ ['\n']) = trimEndCh x := by
  unfold trimEndCh
  have hrev : (x ++ ['\n']).reverse = '\n' :: x.reverse := by simp
  rw [hrev, trimLeftCh, if_pos (by decide)]

theorem splitNlCh_ne_nil : ∀ (l : List Char), splitNlCh l ≠ [] := by
  intro l
  cases l with
  | nil => simp [splitNlCh]
  | cons c cs =>
    by_cases hc : (c == '\n') = true
    · simp [splitNlCh, hc]
    · simp only [splitNlCh, hc]
      cases h : splitNlCh cs with
      | nil => simp
      | cons p ps => simp

theorem splitNlCh_cons_ne (c : Char) (l : List Char) (hc : (c == '\n') = false) :
    splitNlCh (c :: l) =
      (c :: (splitNlCh l).headD []) :: (splitNlCh l).tail := by
  simp only [splitNlCh, hc]
  cases h : splitNlCh l with
  | nil => exact absurd h (splitNlCh_ne_nil l)
  | cons p ps => simp

theorem splitNlCh_append_nl : ∀ (x : List Char), x.contains '\n' = false →
    splitNlCh (x ++ ['\n']) = splitNlCh x ++ [[]] := by
  intro x
  induction x with
  | nil => intro _; rfl
  | cons c cs ih =>
    intro h
    have hc : (c == '\n') = false := by
      have := h; simp only [List.contains_cons, Bool.or_eq_false_iff] at this
      simpa [BEq.comm] using this.1
    have hcs : cs.contains '\n' = false := by
      have := h; simp only [List.contains_cons, Bool.or_eq_false_iff] at this
      exact this.2
    show splitNlCh (c :: (cs ++ ['\n'])) = _
    rw [splitNlCh_cons_ne c _ hc, splitNlCh_cons_ne c cs hc, ih hcs]
    cases hsp : splitNlCh cs with
    | nil => exact absurd hsp (splitNlCh_ne_nil cs)
    | cons p ps => simp

theorem splitNlCh_of_no_nl (x : List Char) (h : x.contains '\n' = false) :
    splitNlCh x = [x] := by
  induction x with
  | nil => rfl
  | cons c cs ih =>
    have hc : (c == '\n') = false := by
      have := h; simp only [List.contains_cons, Bool.or_eq_false_iff] at this
      simpa [BEq.comm] using this.1
    have hcs : cs.contains '\n' = false := by
      have := h; simp only [List.contains_cons, Bool.or_eq_false_iff] at this
      exact this.2
    rw [splitNlCh_cons_ne c cs hc, ih hcs]
    rfl

theorem joinNlCh_cons (p : List Char) (q : List Char) (ps : List (List Char)) :
    joinNlCh (p :: q :: ps) = p ++ '\n' :: joinNlCh (q :: ps) := rfl

theorem splitNl_joinNl : ∀ (parts : List (List Char)), parts ≠ [] →
    (∀ p ∈ parts, p.contains '\n' = false) →
    splitNlCh (joinNlCh parts) = parts := by
  intro parts
  induction parts with
  | nil => intro h; exact absurd rfl h
  | cons p ps ih =>
    intro _ hall
    cases ps with
    | nil =>
      show splitNlCh (joinNlCh [p]) = [p]
      have : joinNlCh [p] = p := rfl
      rw [this, splitNlCh_of_no_nl p (hall p (List.mem_cons_self _ _))]
    | cons q qs =>
      rw [joinNlCh_cons]
      have hp : p.contains '\n' = false := hall p (List.mem_cons_self _ _)
      have hrest : splitNlCh (joinNlCh (q :: qs)) = q :: qs :=
        ih (by simp) (fun r hr => hall r (List.mem_cons_of_mem _ hr))
      have key : ∀ (x : List Char), x.contains '\n' = false →
          splitNlCh (x ++ '\n' :: joinNlCh (q :: qs)) = x :: q :: qs := by
        intro x hx
        induction x with
        | nil =>
          show splitNlCh ('\n' :: joinNlCh (q :: qs)) = [] :: q :: qs
          simp only [splitNlCh]
          rw [if_pos (by decide), hrest]
        | cons c cs ihx =>
          have hc : (c == '\n') = false := by
            have := hx; simp only [List.contains_cons, Bool.or_eq_false_iff] at this
            simpa [BEq.comm] using this.1
          have hcs : cs.contains '\n' = false := by
            have := hx; simp only [List.contains_cons, Bool.or_eq_false_iff] at this
            exact this.2
          show splitNlCh (c :: (cs ++ '\n' :: joinNlCh (q :: qs))) = _
          rw [splitNlCh_cons_ne c _ hc, ihx hcs]
          simp
      exact key p hp

/-- The last character of a newline-join is the last character of the
last part, when that part is nonempty. -/
theorem joinNlCh_getLast : ∀ (parts : List (List Char)) (p : List Char),
    parts.getLast? = some p → p ≠ [] → (joinNlCh parts).getLast? = p.getLast? := by
  intro parts
  induction parts with
  | nil => intro p h; cases h
  | cons x xs ih =>
    intro p h hp
    cases xs with
    | nil =>
      have : x = p := by simpa using h
      subst this; rfl
    | cons y ys =>
      have h2 : (y :: ys).getLast? = some p := by
        rw [← List.getLast?_cons_cons]; exact h
      rw [joinNlCh_cons]
      have htail := ih p h2 hp
      cases hj : joinNlCh (y :: ys) with
      | nil =>
        rw [hj] at htail
        have h0 : p.getLast? = none := by rw [← htail]; rfl
        exact absurd (by simpa using List.getLast?_eq_none_iff.mp h0) hp
      | cons a as =>
        rw [hj] at htail
        rw [getLast?_append_right, List.getLast?_cons_cons, htail]

/-! ### Replacement lemmas -/

theorem repGo_id (pat rep : List Char) : ∀ (l : List Char),
    containsSub pat l = false → repGo pat rep 0 l = l := by
  intro l
  induction l with
  | nil => intro _; rfl
  | cons c cs ih =>
    intro h
    have h2 : isPre pat (c :: cs) = false ∧ containsSub pat cs = false := by
      have := h; simp only [containsSub, Bool.or_eq_false_iff] at this; exact this
    show repGo pat rep 0 (c :: cs) = c :: cs
    rw [repGo, if_neg (by simp [h2.1]), ih h2.2]

theorem replaceAllCh_id (pat rep l : List Char) (h : containsSub pat l = false) :
    replaceAllCh pat rep l = l := repGo_id pat rep l h

theorem escCh_id (l : List Char) (h1 : l.contains '\\' = false)
    (h2 : l.contains '\n' = false) (h3 : containsSub "<!--".data l = false) :
    escCh l = l := by
  unfold escCh
  rw [replaceAllCh_id _ _ l (by rw [containsSub_singleton]; exact h1),
      replaceAllCh_id _ _ l (by rw [containsSub_singleton]; exact h2),
      replaceAllCh_id _ _ l h3]

theorem containsCh_eq_true_iff (l : List Char) (a : Char) :
    l.contains a = true ↔ a ∈ l := List.elem_iff

theorem not_mem_of_contains_eq_false (l : List Char) (a : Char)
    (h : l.contains a = false) : a ∉ l := by
  intro hmem
  have := (containsCh_eq_true_iff l a).mpr hmem
  rw [h] at this; cases this

theorem unescCh_id (l : List Char) (h1 : l.contains '\\' = false) :
    unescCh l = l := by
  unfold unescCh
  have hb : ('\\' : Char) ∉ l := not_mem_of_contains_eq_false l '\\' h1
  rw [replaceAllCh_id _ _ l (containsSub_eq_false_of_not_mem _ l '\\' (by decide) hb),
      replaceAllCh_id _ _ l (containsSub_eq_false_of_not_mem _ l '\\' (by decide) hb)]

theorem unescapeMarkdown_id (s : String) (h : s.data.contains '\\' = false) :
    unescapeMarkdown s = s := by
  unfold unescapeMarkdown
  rw [unescCh_id s.data h]

theorem removeFirstCheck_id : ∀ (l : List Char), l.contains '✓' = false →
    removeFirstCheck l = l := by
  intro l
  induction l with
  | nil => intro _; rfl
  | cons c cs ih =>
    intro h
    have hc : (c == '✓') = false := by
      have := h; simp only [List.contains_cons, Bool.or_eq_false_iff] at this
      simpa [BEq.comm] using this.1
    have hcs : cs.contains '✓' = false := by
      have := h; simp only [List.contains_cons, Bool.or_eq_false_iff] at this
      exact this.2
    rw [removeFirstCheck, if_neg (by simp_all), ih hcs]

theorem removeFirstCheck_append : ∀ (x : List Char), x.contains '✓' = false →
    ∀ y, removeFirstCheck (x ++ '✓' :: y) = x ++ y := by
  intro x
  induction x with
  | nil => intro _ y; show removeFirstCheck ('✓' :: y) = y; simp [removeFirstCheck]
  | cons c cs ih =>
    intro h y
    have hc : (c == '✓') = false := by
      have := h; simp only [List.contains_cons, Bool.or_eq_false_iff] at this
      simpa [BEq.comm] using this.1
    have hcs : cs.contains '✓' = false := by
      have := h; simp only [List.contains_cons, Bool.or_eq_false_iff] at this
      exact this.2
    show removeFirstCheck (c :: (cs ++ '✓' :: y)) = _
    rw [removeFirstCheck, if_neg (by simp_all), ih hcs y]
    rfl

/-! ### Digit and date lemmas -/

theorem digitChar_mem (k : Nat) (h : k < 10) :
    Nat.digitChar k ∈ "0123456789".data := by
  interval_cases k <;> decide

theorem digitChar_toNat48 (k : Nat) (h : k < 10) :
    (Nat.digitChar k).toNat - 48 = k := by
  interval_cases k <;> decide

theorem digitChar_isDigit (k : Nat) (h : k < 10) :
    (Nat.digitChar k).isDigit = true := by
  interval_cases k <;> decide

theorem natDigitsAux_mem : ∀ (fuel n : Nat), ∀ c ∈ natDigitsAux fuel n,
    c ∈ "0123456789".data := by
  intro fuel
  induction fuel with
  | zero => intro n c hc; simp [natDigitsAux] at hc
  | succ f ih =>
    intro n c hc
    by_cases h : n < 10
    · simp only [natDigitsAux, if_pos h, List.mem_singleton] at hc
      rw [hc]; exact digitChar_mem n h
    · simp only [natDigitsAux, if_neg h, List.mem_append, List.mem_singleton] at hc
      rcases hc with hc | hc
      · exact ih (n / 10) c hc
      · rw [hc]; exact digitChar_mem (n % 10) (Nat.mod_lt n (by omega))

theorem natToDigits_mem (n : Nat) : ∀ c ∈ natToDigits n, c ∈ "0123456789".data :=
  natDigitsAux_mem (n + 1) n

theorem natToDigits_ne_nil (n : Nat) : natToDigits n ≠ [] := by
  by_cases h : n < 10 <;> simp [natToDigits, natDigitsAux, h]

theorem digitsToNat_append_one (xs : List Char) (d : Char) :
    digitsToNat (xs ++ [d]) = digitsToNat xs * 10 + (d.toNat - 48) := by
  simp [digitsToNat, List.foldl_append]

theorem natDigitsAux_correct : ∀ (fuel n : Nat), n < 10 ^ fuel →
    digitsToNat (natDigitsAux fuel n) = n := by
  intro fuel
  induction fuel with
  | zero => intro n h; simp at h; simp [h, natDigitsAux, digitsToNat]
  | succ f ih =>
    intro n h
    by_cases h10 : n < 10
    · simp only [natDigitsAux, if_pos h10]
      show digitsToNat [Nat.digitChar n] = n
      have : digitsToNat [Nat.digitChar n] = (Nat.digitChar n).toNat - 48 := by
        simp [digitsToNat]
      rw [this, digitChar_toNat48 n h10]
    · simp only [natDigitsAux, if_neg h10]
      rw [digitsToNat_append_one, digitChar_toNat48 (n % 10) (Nat.mod_lt n (by omega))]
      have hdiv : n / 10 < 10 ^ f := by
        rw [Nat.div_lt_iff_lt_mul (by norm_num)]
        calc n < 10 ^ (f + 1) := h
          _ = 10 ^ f * 10 := by ring
      rw [ih (n / 10) hdiv]
      omega

theorem digitsToNat_natToDigits (n : Nat) : digitsToNat (natToDigits n) = n := by
  apply natDigitsAux_correct
  calc n < 10 ^ n := Nat.lt_pow_self (by norm_num) n
    _ ≤ 10 ^ (n + 1) := Nat.pow_le_pow_right (by norm_num) (by omega)

theorem takeWhile_append_stop (p : Char → Bool) : ∀ (xs : List Char) (y : Char)
    (ys : List Char), (∀ c ∈ xs, p c = true) → p y = false →
    (xs ++ y :: ys).takeWhile p = xs := by
  intro xs
  induction xs with
  | nil => intro y ys _ hy; simp [List.takeWhile, hy]
  | cons c cs ih =>
    intro y ys hall hy
    have hc : p c = true := hall c (List.mem_cons_self _ _)
    show ((c :: (cs ++ y :: ys)).takeWhile p) = c :: cs
    rw [List.takeWhile_cons, hc]
    simp [ih y ys (fun d hd => hall d (List.mem_cons_of_mem _ hd)) hy]

theorem takeWhile_all (p : Char → Bool) : ∀ (xs : List Char),
    (∀ c ∈ xs, p c = true) → xs.takeWhile p = xs := by
  intro xs
  induction xs with
  | nil => intro _; rfl
  | cons c cs ih =>
    intro hall
    rw [List.takeWhile_cons, hall c (List.mem_cons_self _ _)]
    simp [ih (fun d hd => hall d (List.mem_cons_of_mem _ hd))]

theorem dropWhile_cons_neg (p : Char → Bool) (c : Char) (cs : List Char)
    (h : p c = false) : (c :: cs).dropWhile p = c :: cs := by
  rw [List.dropWhile_cons, h]
  simp

theorem drop_len_append : ∀ (x y : List Char), (x ++ y).drop x.length = y := by
  intro x y
  induction x with
  | nil => rfl
  | cons c cs ih => simp [ih]

/-- Fixed-width date rendering parses back to the same date. -/
theorem parse_format_date (d : MdDate) (hv : validDate d.year d.month d.day = true)
    (hy : d.year ≤ 9999) : parseISODateCh (formatDate d) = some d := by
  obtain ⟨y, m, dd⟩ := d
  have hv2 : validDate y m dd = true := hv
  have hy9 : y ≤ 9999 := hy
  have hbounds : m ≤ 12 ∧ dd ≤ daysInMonth y m := by
    have := hv2
    simp only [validDate, Bool.and_eq_true, decide_eq_true_eq] at this
    exact ⟨this.1.1.2, this.2⟩
  have hdd31 : dd ≤ 31 := by
    have h31 : daysInMonth y m ≤ 31 := by
      unfold daysInMonth
      split_ifs <;> simp
    omega
  have hm100 : m < 100 := by omega
  have hd100 : dd < 100 := by omega
  have hten : ∀ (k : Nat), k % 10 < 10 := fun k => Nat.mod_lt k (by omega)
  show parseISODateCh
      (pad4 y ++ '-' :: (pad2 m ++ '-' :: pad2 dd)) = some ⟨y, m, dd⟩
  have hshape : pad4 y ++ '-' :: (pad2 m ++ '-' :: pad2 dd) =
      [Nat.digitChar (y / 1000 % 10), Nat.digitChar (y / 100 % 10),
       Nat.digitChar (y / 10 % 10), Nat.digitChar (y % 10), '-',
       Nat.digitChar (m / 10 % 10), Nat.digitChar (m % 10), '-',
       Nat.digitChar (dd / 10 % 10), Nat.digitChar (dd % 10)] := by
    simp [pad4, pad2]
  have hyv : digitsToNat [Nat.digitChar (y / 1000 % 10), Nat.digitChar (y / 100 % 10),
      Nat.digitChar (y / 10 % 10), Nat.digitChar (y % 10)] = y := by
    have e1 := digitChar_toNat48 (y / 1000 % 10) (hten _)
    have e2 := digitChar_toNat48 (y / 100 % 10) (hten _)
    have e3 := digitChar_toNat48 (y / 10 % 10) (hten _)
    have e4 := digitChar_toNat48 (y % 10) (hten _)
    simp only [digitsToNat, List.foldl]
    omega
  have hmv : digitsToNat [Nat.digitChar (m / 10 % 10), Nat.digitChar (m % 10)] = m := by
    have e1 := digitChar_toNat48 (m / 10 % 10) (hten _)
    have e2 := digitChar_toNat48 (m % 10) (hten _)
    simp only [digitsToNat, List.foldl]
    omega
  have hdv : digitsToNat [Nat.digitChar (dd / 10 % 10), Nat.digitChar (dd % 10)] = dd := by
    have e1 := digitChar_toNat48 (dd / 10 % 10) (hten _)
    have e2 := digitChar_toNat48 (dd % 10) (hten _)
    simp only [digitsToNat, List.foldl]
    omega
  have i1 := digitChar_isDigit (y / 1000 % 10) (hten _)
  have i2 := digitChar_isDigit (y / 100 % 10) (hten _)
  have i3 := digitChar_isDigit (y / 10 % 10) (hten _)
  have i4 := digitChar_isDigit (y % 10) (hten _)
  have i5 := digitChar_isDigit (m / 10 % 10) (hten _)
  have i6 := digitChar_isDigit (m % 10) (hten _)
  have i7 := digitChar_isDigit (dd / 10 % 10) (hten _)
  have i8 := digitChar_isDigit (dd % 10) (hten _)
  rw [hshape]
  simp only [parseISODateCh, i1, i2, i3, i4, i5, i6, i7, i8, hyv, hmv, hdv, hv2]
  simp

/-! ### Scanner lemmas for the parser's regexes -/

/-- Case-insensitive analogue of `diesWithin`. -/
def diesWithinCI : List Char → List Char → Bool
  | [], _ => false
  | _ :: _, [] => false
  | p :: ps, c :: cs => if p.toLower == c.toLower then diesWithinCI ps cs else true

/-- Case-insensitive analogue of `litNoStart`. -/
def litNoStartCI (pat lit : List Char) : Bool :=
  (List.range lit.length).all (fun i => diesWithinCI pat (lit.drop i))

theorem isPreCI_append_false_of_dies : ∀ (pat seg l : List Char),
    diesWithinCI pat seg = true → isPreCI pat (seg ++ l) = false := by
  intro pat
  induction pat with
  | nil => intro seg l h; simp [diesWithinCI] at h
  | cons p ps ih =>
    intro seg l h
    cases seg with
    | nil => simp [diesWithinCI] at h
    | cons c cs =>
      show (p.toLower == c.toLower && isPreCI ps (cs ++ l)) = false
      by_cases hpc : p.toLower == c.toLower
      · rw [hpc]
        simp only [diesWithinCI, if_pos hpc] at h
        simp [ih cs l h]
      · simp [hpc]

theorem isPreCI_append_left : ∀ (pat x y : List Char),
    isPreCI pat x = true → pat.length ≤ x.length → isPreCI pat (x ++ y) = true := by
  intro pat
  induction pat with
  | nil => intro x y _ _; rfl
  | cons p ps ih =>
    intro x y h hlen
    cases x with
    | nil => simp at hlen
    | cons c cs =>
      have h2 : (p.toLower == c.toLower) = true ∧ isPreCI ps cs = true := by
        have := h; simp only [isPreCI, Bool.and_eq_true] at this; exact this
      show (p.toLower == c.toLower && isPreCI ps (cs ++ y)) = true
      rw [h2.1, ih cs y h2.2 (by simpa using hlen)]
      rfl

theorem litNoStartCI_head (pat : List Char) (c : Char) (cs : List Char)
    (h : litNoStartCI pat (c :: cs) = true) : diesWithinCI pat (c :: cs) = true := by
  have := (List.all_eq_true.mp h) 0 (List.mem_range.mpr (by simp))
  simpa using this

theorem litNoStartCI_tail (pat : List Char) (c : Char) (cs : List Char)
    (h : litNoStartCI pat (c :: cs) = true) : litNoStartCI pat cs = true := by
  apply List.all_eq_true.mpr
  intro i hi
  have hi' : i + 1 ∈ List.range (c :: cs).length := by
    simp only [List.mem_range] at hi ⊢; simpa using Nat.succ_lt_succ hi
  have := (List.all_eq_true.mp h) (i + 1) hi'
  simpa using this

theorem findWip_cons (c : Char) (cs : List Char)
    (h : isPreCI "wip limit:".data (c :: cs) = false) :
    findWip (c :: cs) = findWip cs := by
  simp only [findWip, h]
  simp

theorem findWip_append_lit : ∀ (lit l : List Char),
    litNoStartCI "wip limit:".data lit = true → findWip (lit ++ l) = findWip l := by
  intro lit
  induction lit with
  | nil => intro l _; rfl
  | cons c cs ih =>
    intro l h
    have hd : isPreCI "wip limit:".data (c :: (cs ++ l)) = false := by
      have := isPreCI_append_false_of_dies "wip limit:".data (c :: cs) l
        (litNoStartCI_head _ c cs h)
      simpa using this
    show findWip (c :: (cs ++ l)) = findWip l
    rw [findWip_cons c _ hd]
    exact ih l (litNoStartCI_tail _ c cs h)

theorem findAssigned_cons (c : Char) (cs : List Char)
    (h : isPre "assigned:".data (c :: cs) = false) :
    findAssigned (c :: cs) = findAssigned cs := by
  simp only [findAssigned, h]
  simp

theorem findAssigned_append_lit : ∀ (lit l : List Char),
    litNoStart "assigned:".data lit = true → findAssigned (lit ++ l) = findAssigned l := by
  intro lit
  induction lit with
  | nil => intro l _; rfl
  | cons c cs ih =>
    intro l h
    have hd : isPre "assigned:".data (c :: (cs ++ l)) = false := by
      have := isPre_append_false_of_dies "assigned:".data (c :: cs) l
        (litNoStart_head _ c cs h)
      simpa using this
    show findAssigned (c :: (cs ++ l)) = findAssigned l
    rw [findAssigned_cons c _ hd]
    exact ih l (litNoStart_tail _ c cs h)

theorem findIdComment_cons (c : Char) (cs : List Char)
    (h : isPre "<!--".data (c :: cs) = false) :
    findIdComment (c :: cs) =
      match findIdComment cs with
      | some (i, r) => some (i, c :: r)
      | none => none := by
  simp only [findIdComment, h]
  simp

theorem findIdComment_none : ∀ (l : List Char),
    containsSub "<!--".data l = false → findIdComment l = none := by
  intro l
  induction l with
  | nil => intro _; rfl
  | cons c cs ih =>
    intro h
    have h2 : isPre "<!--".data (c :: cs) = false ∧ containsSub "<!--".data cs = false := by
      have := h; simp only [containsSub, Bool.or_eq_false_iff] at this; exact this
    rw [findIdComment_cons c cs h2.1, ih h2.2]

/-- Scanning past a prefix in which the id-comment regex cannot match. -/
theorem findIdComment_scan : ∀ (a tail : List Char),
    containsSub "<!--".data a = false →
    (∀ k, 0 < k → k < 4 → isPre ("<!--".data.drop k) tail = false) →
    findIdComment (a ++ tail) =
      match findIdComment tail with
      | some (i, r) => some (i, a ++ r)
      | none => none := by
  intro a
  induction a with
  | nil =>
    intro tail _ _
    cases h : findIdComment tail with
    | none => simpa using h
    | some pr => obtain ⟨i, r⟩ := pr; simpa using h
  | cons c a' ih =>
    intro tail hnc hstr
    have h2 : isPre "<!--".data (c :: a') = false ∧ containsSub "<!--".data a' = false := by
      have := hnc; simp only [containsSub, Bool.or_eq_false_iff] at this; exact this
    have hfirst : isPre "<!--".data (c :: (a' ++ tail)) = false := by
      cases hcase : isPre "<!--".data (c :: (a' ++ tail)) with
      | false => rfl
      | true =>
        exfalso
        by_cases hlen : ("<!--".data).length ≤ (c :: a').length
        · have : isPre "<!--".data ((c :: a') ++ tail) = true := by simpa using hcase
          have := isPre_append_of_le "<!--".data (c :: a') tail hlen this
          rw [h2.1] at this; cases this
        · push_neg at hlen
          have hc4 : (c :: a').length < 4 := by simpa using hlen
          have hdrop : isPre ("<!--".data.drop (c :: a').length) tail = true := by
            apply isPre_drop_append (c :: a') "<!--".data tail
            simpa using hcase
          have := hstr (c :: a').length (by simp) hc4
          rw [hdrop] at this; cases this
    rw [show (c :: a') ++ tail = c :: (a' ++ tail) from rfl,
        findIdComment_cons c _ hfirst, ih tail h2.2 hstr]
    cases h : findIdComment tail with
    | none => simp
    | some pr => obtain ⟨i, r⟩ := pr; simp

/-- Character facts for decimal digits, settled by enumeration. -/
theorem digits_char_props (c : Char) (h : c ∈ "0123456789".data) :
    isWsChar c = false ∧ c.isDigit = true ∧ (c == '\n') = false := by
  fin_cases h <;> exact ⟨rfl, rfl, rfl⟩

theorem findWip_match (n : Nat) :
    findWip ("WIP Limit: ".data ++ (natToDigits n ++ " -->".data)) = some (some n) := by
  have hd10 : ∀ c ∈ natToDigits n, Char.isDigit c = true :=
    fun c hc => (digits_char_props c (natToDigits_mem n c hc)).2.1
  have hpre : isPreCI "wip limit:".data
      ("WIP Limit: ".data ++ (natToDigits n ++ " -->".data)) = true := by
    apply isPreCI_append_left "wip limit:".data "WIP Limit: ".data _ (by decide) (by decide)
  have hdw : ((" ".data ++ (natToDigits n ++ " -->".data)).dropWhile isWsChar)
      = natToDigits n ++ " -->".data := by
    cases hnd : natToDigits n with
    | nil => exact absurd hnd (natToDigits_ne_nil n)
    | cons d ds =>
      have hdws : isWsChar d = false := by
        have hmem : d ∈ natToDigits n := by rw [hnd]; exact List.mem_cons_self _ _
        exact (digits_char_props d (natToDigits_mem n d hmem)).1
      show (' ' :: (d :: (ds ++ " -->".data))).dropWhile isWsChar = d :: (ds ++ " -->".data)
      rw [List.dropWhile_cons]
      simp only [show isWsChar ' ' = true from rfl, if_true]
      rw [List.dropWhile_cons]
      simp [hdws]
  have htw : (natToDigits n ++ " -->".data).takeWhile Char.isDigit = natToDigits n := by
    have := takeWhile_append_stop Char.isDigit (natToDigits n) ' ' "-->".data hd10 (by decide)
    simpa using this
  have hpre' : isPreCI "wip limit:".data
      ('W' :: ("IP Limit: ".data ++ (natToDigits n ++ " -->".data))) = true := hpre
  have hdrop : ('W' :: ("IP Limit: ".data ++ (natToDigits n ++ " -->".data))).drop 10
      = " ".data ++ (natToDigits n ++ " -->".data) :=
    drop_len_append "WIP Limit:".data (" ".data ++ (natToDigits n ++ " -->".data))
  have hne : (natToDigits n).isEmpty = false := by
    cases hnd : natToDigits n with
    | nil => exact absurd hnd (natToDigits_ne_nil n)
    | cons d ds => rfl
  show findWip ('W' :: ("IP Limit: ".data ++ (natToDigits n ++ " -->".data))) = some (some n)
  rw [findWip]
  rw [if_pos hpre']
  simp only [hdrop, hdw, htw, hne, Bool.not_false, if_true, digitsToNat_natToDigits n]

theorem findAssigned_match (a : List Char) (hne : a ≠ [])
    (hnw : ∀ c ∈ a, isWsChar c = false) :
    findAssigned ("assigned: ".data ++ a) = some a := by
  have hpre : isPre "assigned:".data ("assigned: ".data ++ a) = true := by
    have := isPre_append_refl "assigned:".data (" ".data ++ a)
    simpa using this
  show findAssigned ('a' :: ("ssigned: ".data ++ a)) = some a
  rw [findAssigned]
  rw [if_pos (by exact hpre)]
  have hdrop : ('a' :: ("ssigned: ".data ++ a)).drop 9 = " ".data ++ a :=
    drop_len_append "assigned:".data (" ".data ++ a)
  rw [hdrop]
  have hdw : (" ".data ++ a).dropWhile isWsChar = a := by
    cases hcase : a with
    | nil => exact absurd hcase hne
    | cons x xs =>
      have hx : isWsChar x = false := hnw x (by rw [hcase]; exact List.mem_cons_self _ _)
      show (' ' :: (x :: xs)).dropWhile isWsChar = x :: xs
      rw [List.dropWhile_cons]
      simp only [show isWsChar ' ' = true from rfl, if_true]
      rw [List.dropWhile_cons]
      simp [hx]
  rw [hdw]
  have htw : a.takeWhile (fun ch => !isWsChar ch) = a :=
    takeWhile_all _ a (fun c hc => by simp [hnw c hc])
  have hie : a.isEmpty = false := by
    cases hcase : a with
    | nil => exact absurd hcase hne
    | cons x xs => rfl
  simp only [htw, hie, Bool.false_eq_true, if_false]

theorem parseIdAt_match (idtok : List Char) (hne : idtok ≠ [])
    (hch : ∀ c ∈ idtok, isWsChar c = false ∧ (c == '>') = false) :
    parseIdAt (" id:".data ++ (idtok ++ " -->".data)) = some (idtok, []) := by
  have hdw : (" id:".data ++ (idtok ++ " -->".data)).dropWhile isWsChar
      = "id:".data ++ (idtok ++ " -->".data) := by
    show (' ' :: ("id:".data ++ (idtok ++ " -->".data))).dropWhile isWsChar = _
    rw [List.dropWhile_cons]
    simp only [show isWsChar ' ' = true from rfl, if_true]
    show ('i' :: ("d:".data ++ (idtok ++ " -->".data))).dropWhile isWsChar = _
    rw [List.dropWhile_cons]
    simp [show isWsChar 'i' = false from rfl]
  have hpre : isPre "id:".data ("id:".data ++ (idtok ++ " -->".data)) = true :=
    isPre_append_refl _ _
  have hd3 : ("id:".data ++ (idtok ++ " -->".data)).drop 3 = idtok ++ " -->".data :=
    drop_len_append "id:".data _
  have htw : (idtok ++ " -->".data).takeWhile (fun c => !isWsChar c) = idtok := by
    have := takeWhile_append_stop (fun c => !isWsChar c) idtok ' ' "-->".data
      (fun c hc => by simp [(hch c hc).1]) (by decide)
    simpa using this
  have hdtok : (idtok ++ " -->".data).drop idtok.length = " -->".data :=
    drop_len_append idtok _
  have hie : idtok.isEmpty = false := by
    cases hcase : idtok with
    | nil => exact absurd hcase hne
    | cons x xs => rfl
  have hsuf : isPre "-->".data.reverse idtok.reverse = false := by
    cases hrev : idtok.reverse with
    | nil =>
      exfalso
      exact hne (by simpa using congrArg List.reverse hrev)
    | cons x xs =>
      have hx : x ∈ idtok := by
        have : x ∈ idtok.reverse := by rw [hrev]; exact List.mem_cons_self _ _
        simpa using this
      have hxgt : (x == '>') = false := (hch x hx).2
      show isPre ('>' :: "--".data) (x :: xs) = false
      have hgtx : ('>' == x) = false := by
        cases hgx : ('>' == x) with
        | false => rfl
        | true =>
          exfalso
          have : '>' = x := by simpa using hgx
          rw [← this] at hxgt
          simp at hxgt
      show ('>' == x && isPre "--".data xs) = false
      rw [hgtx]
      rfl
  have hdw2 : (" -->".data).dropWhile isWsChar = "-->".data := by decide
  unfold parseIdAt
  rw [hdw]
  rw [if_pos (by exact hpre)]
  rw [hd3]
  simp only [htw, hdtok, hie, hsuf, Bool.false_and, Bool.false_eq_true, if_false, hdw2]
  rw [if_pos (by decide)]
  simp

/-- The id comment of an exported metadata title line parses out,
leaving the title and its separating space. -/
theorem findIdComment_title (title idtok : List Char)
    (htitle : containsSub "<!--".data title = false) (hne : idtok ≠ [])
    (hch : ∀ c ∈ idtok, isWsChar c = false ∧ (c == '>') = false) :
    findIdComment (title ++ (" <!-- id:".data ++ (idtok ++ " -->".data)))
      = some (idtok, title ++ " ".data) := by
  have hstep : findIdComment ("<!-- id:".data ++ (idtok ++ " -->".data))
      = some (idtok, []) := by
    show findIdComment ('<' :: ("!-- id:".data ++ (idtok ++ " -->".data))) = _
    rw [findIdComment]
    rw [if_pos (by
      have := isPre_append_refl "<!--".data (" id:".data ++ (idtok ++ " -->".data))
      simpa using this)]
    have hdrop4 : ('<' :: ("!-- id:".data ++ (idtok ++ " -->".data))).drop 4
        = " id:".data ++ (idtok ++ " -->".data) :=
      drop_len_append "<!--".data _
    rw [hdrop4, parseIdAt_match idtok hne hch]
  have hsp : findIdComment (' ' :: ("<!-- id:".data ++ (idtok ++ " -->".data)))
      = some (idtok, [' ']) := by
    have hfalse : isPre "<!--".data
        (' ' :: ("<!-- id:".data ++ (idtok ++ " -->".data))) = false := by
      show ('<' == ' ' && isPre "!--".data ("<!-- id:".data ++ (idtok ++ " -->".data)))
        = false
      simp
    rw [findIdComment_cons ' ' _ hfalse, hstep]
  have hstr : ∀ k, 0 < k → k < 4 → isPre ("<!--".data.drop k)
      (' ' :: ("<!-- id:".data ++ (idtok ++ " -->".data))) = false := by
    intro k hk h4
    interval_cases k
    · show ('!' == ' ' && isPre "--".data ("<!-- id:".data ++ (idtok ++ " -->".data)))
        = false
      simp
    · show ('-' == ' ' && isPre "-".data ("<!-- id:".data ++ (idtok ++ " -->".data)))
        = false
      simp
    · show ('-' == ' ' && isPre ([] : List Char) ("<!-- id:".data ++ (idtok ++ " -->".data)))
        = false
      simp
  have hscan := findIdComment_scan title
    (' ' :: ("<!-- id:".data ++ (idtok ++ " -->".data))) htitle hstr
  rw [hsp] at hscan
  exact hscan

/-! ### Round-trip safety conditions

`parseMarkdown` consumes any line containing `WIP Limit:` or
`Terminal column` as a directive, treats any indented line containing
`assigned:` as an assignee, splits labels at commas, and trims titles
and names; text that avoids those traps — together with the conditions
the spec itself imposes — round-trips. -/

/-- Free of characters and substrings that change a line's parse class. -/
def textPlain (l : List Char) : Bool :=
  !l.contains '\n' && !l.contains '\\' && !containsSub "<!--".data l
    && !containsSub "WIP Limit:".data l && !containsSub "Terminal column".data l

/-- A board name, column name or task title that survives the round trip. -/
def safeText (s : String) : Bool :=
  !s.data.isEmpty && textPlain s.data && headNotWs s.data && lastNotWs s.data

/-- A label that survives the comma join/split and line classification. -/
def safeLabel (s : String) : Bool :=
  !s.data.isEmpty && headNotWs s.data && lastNotWs s.data
    && !s.data.contains ',' && !s.data.contains '\n'
    && !containsSub "assigned:".data s.data
    && !containsSub "WIP Limit:".data s.data
    && !containsSub "Terminal column".data s.data

/-- An assignee → a single regex token. -/
def safeAssignee (s : String) : Bool :=
  !s.data.isEmpty && s.data.all (fun c => !isWsChar c)
    && !containsSub "WIP Limit:".data s.data
    && !containsSub "Terminal column".data s.data

/-- One line of a description. -/
def safeDescLine (l : List Char) : Bool :=
  !l.contains '\\' && !containsSub "<!--".data l
    && !containsSub "WIP Limit:".data l && !containsSub "Terminal column".data l
    && !containsSub "assigned:".data l

/-- A description that survives the `> ` framing and the final `trimEnd`. -/
def safeDesc (s : String) : Bool :=
  !s.data.isEmpty && (splitNlCh s.data).all safeDescLine
    && (match (splitNlCh s.data).getLast? with
        | some lastLn => !lastLn.isEmpty && lastNotWs lastLn
        | none => false)

/-- A task id the `id:` comment regex recovers verbatim. -/
def safeId (s : String) : Bool :=
  !s.data.isEmpty && s.data.all (fun c => !isWsChar c && !(c == '>'))

/-- A due date `toISOString` renders in 10 characters and `parseISODate`
accepts. -/
def safeDate (d : MdDate) : Bool := validDate d.year d.month d.day && d.year ≤ 9999

/-- All parts of a task survive the round trip. -/
def safeTask (opts : ExportOptions) (t : Task) : Bool :=
  safeText t.title
    && (match t.description with | some d => safeDesc d | none => true)
    && t.labels.all safeLabel
    && (match t.assignedTo with | some a => safeAssignee a | none => true)
    && (match t.dueDate with | some d => safeDate d | none => true)
    && (!opts.includeMetadata || safeId t.id)

/-- A column whose name and exported tasks survive the round trip. -/
def safeColumn (opts : ExportOptions) (tasksBC : String → List Task)
    (c : Column) : Bool :=
  safeText c.name && (keptTasks tasksBC opts c.id).all (safeTask opts)

/-- A board whose every exported part survives the round trip. -/
def safeBoard (boardName : String) (columns : List Column)
    (tasksBC : String → List Task) (opts : ExportOptions) : Bool :=
  safeText boardName && columns.all (safeColumn opts tasksBC)

/-- `column.isTerminal` as the parser reports it. -/
def termOpt (b : Bool) : Option Bool := if b then some true else none

/-- The task record the parser recovers from an exported task. -/
def projTask (opts : ExportOptions) (t : Task) : ParsedTask :=
  { title := t.title,
    id := if opts.includeMetadata then some t.id else none,
    description := t.description,
    dueDate := t.dueDate,
    labels := t.labels,
    assignedTo := t.assignedTo }

/-- The column record the parser recovers from an exported column. -/
def projCol (opts : ExportOptions) (tasksBC : String → List Task)
    (c : Column) : ParsedColumn :=
  { name := c.name, wipLimit := c.wipLimit, isTerminal := termOpt c.isTerminal,
    tasks := (keptTasks tasksBC opts c.id).map (projTask opts) }

theorem mk_data_eta (s : String) : String.mk s.data = s := rfl

/-! ### Label join/split lemmas -/

theorem containsSub_nil_eq_false (pat : List Char) (h : pat ≠ []) :
    containsSub pat [] = false := by
  cases pat with
  | nil => exact absurd rfl h
  | cons p ps => rfl

theorem joinLabels_not_contains (pat : List Char) (hne : pat ≠ [])
    (hstr : noStraddleSeg pat [',', ' '] = true)
    (hlit : litNoStart pat [',', ' '] = true) :
    ∀ ls : List (List Char), (∀ l ∈ ls, containsSub pat l = false) →
      containsSub pat (joinLabels ls) = false := by
  intro ls
  induction ls with
  | nil => intro _; exact containsSub_nil_eq_false pat hne
  | cons l ls ih =>
    intro hall
    cases ls with
    | nil => exact hall l (List.mem_cons_self _ _)
    | cons l' ls' =>
      show containsSub pat (l ++ ',' :: ' ' :: joinLabels (l' :: ls')) = false
      have hrest : containsSub pat ([',', ' '] ++ joinLabels (l' :: ls')) = false := by
        rw [containsSub_append_lit [',', ' '] pat _ hlit]
        exact ih (fun x hx => hall x (List.mem_cons_of_mem _ hx))
      have := containsSub_append_seg_false pat l [',', ' '] (joinLabels (l' :: ls'))
        (hall l (List.mem_cons_self _ _)) hrest hstr
      simpa using this

theorem joinLabels_ne_nil (l : List Char) (ls : List (List Char)) (h : l ≠ []) :
    joinLabels (l :: ls) ≠ [] := by
  cases ls with
  | nil => simpa [joinLabels] using h
  | cons l' ls' =>
    show l ++ ',' :: ' ' :: joinLabels (l' :: ls') ≠ []
    simp

theorem joinLabels_headNotWs (l : List Char) (ls : List (List Char))
    (hne : l ≠ []) (hh : headNotWs l = true) :
    headNotWs (joinLabels (l :: ls)) = true := by
  cases ls with
  | nil => exact hh
  | cons l' ls' =>
    show headNotWs (l ++ ',' :: ' ' :: joinLabels (l' :: ls')) = true
    cases hl : l with
    | nil => exact absurd hl hne
    | cons c cs =>
      rw [hl] at hh
      simpa [headNotWs] using hh

theorem joinLabels_lastNotWs : ∀ (ls : List (List Char)),
    (∀ l ∈ ls, l ≠ [] ∧ lastNotWs l = true) → ls ≠ [] →
    lastNotWs (joinLabels ls) = true := by
  intro ls
  induction ls with
  | nil => intro _ h; exact absurd rfl h
  | cons l ls ih =>
    intro hall _
    cases ls with
    | nil => exact (hall l (List.mem_cons_self _ _)).2
    | cons l' ls' =>
      show lastNotWs (l ++ ',' :: ' ' :: joinLabels (l' :: ls')) = true
      have hrest : lastNotWs (joinLabels (l' :: ls')) = true :=
        ih (fun x hx => hall x (List.mem_cons_of_mem _ hx)) (by simp)
      have hrne : joinLabels (l' :: ls') ≠ [] :=
        joinLabels_ne_nil l' ls' (hall l' (List.mem_cons_of_mem _ (List.mem_cons_self _ _))).1
      cases hj : joinLabels (l' :: ls') with
      | nil => exact absurd hj hrne
      | cons a as =>
        rw [hj] at hrest
        unfold lastNotWs
        rw [getLast?_append_right l ',' (' ' :: a :: as),
            List.getLast?_cons_cons, List.getLast?_cons_cons]
        simpa [lastNotWs] using hrest

theorem splitCommaCh_ne_nil : ∀ (l : List Char), splitCommaCh l ≠ [] := by
  intro l
  cases l with
  | nil => simp [splitCommaCh]
  | cons c cs =>
    by_cases hc : (c == ',') = true
    · simp [splitCommaCh, hc]
    · simp only [splitCommaCh, hc]
      cases h : splitCommaCh cs with
      | nil => simp
      | cons p ps => simp

theorem splitCommaCh_cons_ne (c : Char) (l : List Char) (hc : (c == ',') = false) :
    splitCommaCh (c :: l) =
      (c :: (splitCommaCh l).headD []) :: (splitCommaCh l).tail := by
  simp only [splitCommaCh, hc]
  cases h : splitCommaCh l with
  | nil => exact absurd h (splitCommaCh_ne_nil l)
  | cons p ps => simp

theorem splitComma_no_comma (x : List Char) (h : x.contains ',' = false) :
    splitCommaCh x = [x] := by
  induction x with
  | nil => rfl
  | cons c cs ih =>
    have hc : (c == ',') = false := by
      have := h; simp only [List.contains_cons, Bool.or_eq_false_iff] at this
      simpa [BEq.comm] using this.1
    have hcs : cs.contains ',' = false := by
      have := h; simp only [List.contains_cons, Bool.or_eq_false_iff] at this
      exact this.2
    rw [splitCommaCh_cons_ne c cs hc, ih hcs]
    rfl

theorem splitComma_append : ∀ (x r : List Char), x.contains ',' = false →
    splitCommaCh (x ++ ',' :: r) = x :: splitCommaCh r := by
  intro x
  induction x with
  | nil =>
    intro r _
    show splitCommaCh (',' :: r) = [] :: splitCommaCh r
    simp [splitCommaCh]
  | cons c cs ih =>
    intro r h
    have hc : (c == ',') = false := by
      have := h; simp only [List.contains_cons, Bool.or_eq_false_iff] at this
      simpa [BEq.comm] using this.1
    have hcs : cs.contains ',' = false := by
      have := h; simp only [List.contains_cons, Bool.or_eq_false_iff] at this
      exact this.2
    show splitCommaCh (c :: (cs ++ ',' :: r)) = _
    rw [splitCommaCh_cons_ne c _ hc, ih r hcs]
    simp

/-- Unpacking of `safeLabel`. -/
theorem safeLabel_spec (s : String) (h : safeLabel s = true) :
    s.data.isEmpty = false ∧ headNotWs s.data = true ∧ lastNotWs s.data = true
    ∧ s.data.contains ',' = false ∧ s.data.contains '\n' = false
    ∧ containsSub "assigned:".data s.data = false
    ∧ containsSub "WIP Limit:".data s.data = false
    ∧ containsSub "Terminal column".data s.data = false := by
  have := h
  simp only [safeLabel, Bool.and_eq_true, Bool.not_eq_true'] at this
  obtain ⟨⟨⟨⟨⟨⟨⟨h1, h2⟩, h3⟩, h4⟩, h5⟩, h6⟩, h7⟩, h8⟩ := this
  exact ⟨h1, h2, h3, h4, h5, h6, h7, h8⟩

theorem data_ne_nil_of_isEmpty_false (l : List Char) (h : l.isEmpty = false) :
    l ≠ [] := by
  cases l with
  | nil => cases h
  | cons c cs => simp

theorem splitComma_joinLabels : ∀ (ls : List (List Char)) (l : List Char),
    l.contains ',' = false → (∀ x ∈ ls, x.contains ',' = false) →
    splitCommaCh (joinLabels (l :: ls)) = l :: ls.map (fun x => ' ' :: x) := by
  intro ls
  induction ls with
  | nil => intro l hl _; exact splitComma_no_comma l hl
  | cons x xs ih =>
    intro l hl hall
    show splitCommaCh (l ++ ',' :: (' ' :: joinLabels (x :: xs))) = _
    rw [splitComma_append l _ hl]
    have hih := ih x (hall x (List.mem_cons_self _ _))
      (fun y hy => hall y (List.mem_cons_of_mem _ hy))
    rw [splitCommaCh_cons_ne ' ' _ (by decide), hih]
    simp

/-- The parser's label computation recovers a safe label list. -/
theorem labels_roundtrip (ls : List String) (hne : ls ≠ [])
    (hall : ∀ l ∈ ls, safeLabel l = true) :
    ((splitCommaCh (joinLabels (ls.map String.data))).map
        (fun lc => String.mk (trimCh lc))).filter (fun s => !s.data.isEmpty) = ls := by
  cases ls with
  | nil => exact absurd rfl hne
  | cons s ss =>
    obtain ⟨hse, hsh, hsl, hsc, -, -, -, -⟩ := safeLabel_spec s (hall s (List.mem_cons_self _ _))
    have hcommas : ∀ x ∈ ss.map String.data, x.contains ',' = false := by
      intro x hx
      obtain ⟨t, ht, rfl⟩ := List.mem_map.mp hx
      exact (safeLabel_spec t (hall t (List.mem_cons_of_mem _ ht))).2.2.2.1
    rw [show (s :: ss).map String.data = s.data :: ss.map String.data from rfl,
        splitComma_joinLabels (ss.map String.data) s.data hsc hcommas]
    show ((s.data :: (ss.map String.data).map (fun x => ' ' :: x)).map
        (fun lc => String.mk (trimCh lc))).filter (fun t => !t.data.isEmpty) = s :: ss
    rw [List.map_cons, List.filter_cons]
    rw [trimCh_id s.data hsh hsl, mk_data_eta]
    rw [if_pos (by simp [hse])]
    have htail : ∀ (ss' : List String), (∀ l ∈ ss', safeLabel l = true) →
        (((ss'.map String.data).map (fun x => ' ' :: x)).map
          (fun lc => String.mk (trimCh lc))).filter (fun t => !t.data.isEmpty) = ss' := by
      intro ss'
      induction ss' with
      | nil => intro _; rfl
      | cons x xs ihx =>
        intro hall'
        obtain ⟨hxe, hxh, hxl, -, -, -, -, -⟩ :=
          safeLabel_spec x (hall' x (List.mem_cons_self _ _))
        show (((' ' :: x.data) :: ((xs.map String.data).map (fun y => ' ' :: y))).map
            (fun lc => String.mk (trimCh lc))).filter (fun t => !t.data.isEmpty) = x :: xs
        rw [List.map_cons, List.filter_cons]
        have htr : trimCh (' ' :: x.data) = x.data := by
          rw [trimCh_cons_ws ' ' x.data (by decide)
            (by
              cases hx : x.data with
              | nil => rw [hx] at hxe; cases hxe
              | cons c cs =>
                have hc : isWsChar c = false := by
                  rw [hx] at hxh; simpa [headNotWs] using hxh
                exact anyNonWs_of_head c cs hc)]
          exact trimCh_id x.data hxh hxl
        rw [htr, mk_data_eta, if_pos (by simp [hxe])]
        rw [ihx (fun l hl => hall' l (List.mem_cons_of_mem _ hl))]
    rw [htail ss (fun l hl => hall l (List.mem_cons_of_mem _ hl))]

/-! ### Line classification lemmas -/

theorem isPre_append_ext : ∀ (pat x y : List Char),
    isPre pat x = true → isPre pat (x ++ y) = true := by
  intro pat
  induction pat with
  | nil => intro x y _; rfl
  | cons p ps ih =>
    intro x y h
    cases x with
    | nil => simp [isPre] at h
    | cons c cs =>
      have h2 : (p == c) = true ∧ isPre ps cs = true := by
        have := h; simp only [isPre, Bool.and_eq_true] at this
        exact ⟨by simp [this.1], this.2⟩
      show (p == c && isPre ps (cs ++ y)) = true
      rw [h2.1, ih cs y h2.2]
      rfl

theorem containsSub_append_left : ∀ (a : List Char) (pat b : List Char),
    containsSub pat a = true → containsSub pat (a ++ b) = true := by
  intro a
  induction a with
  | nil =>
    intro pat b h
    cases pat with
    | nil =>
      cases b with
      | nil => rfl
      | cons x xs => show (isPre [] (x :: xs) || containsSub [] xs) = true; simp [isPre]
    | cons p ps => simp [containsSub, isPre] at h
  | cons c cs ih =>
    intro pat b h
    have h2 : isPre pat (c :: cs) = true ∨ containsSub pat cs = true := by
      simpa [containsSub, Bool.or_eq_true] using h
    show (isPre pat ((c :: cs) ++ b) || containsSub pat (cs ++ b)) = true
    rcases h2 with h2 | h2
    · rw [isPre_append_ext pat (c :: cs) b h2]
      rfl
    · rw [ih pat b h2]
      simp

theorem containsSub_lit_payload (pat lit payload : List Char)
    (hlit : litNoStart pat lit = true) (hp : containsSub pat payload = false) :
    containsSub pat (lit ++ payload) = false := by
  rw [containsSub_append_lit lit pat payload hlit]
  exact hp

theorem containsSub_payload_litend (pat payload seg : List Char)
    (hp : containsSub pat payload = false) (hseg : containsSub pat seg = false)
    (hstr : noStraddleSeg pat seg = true) :
    containsSub pat (payload ++ seg) = false := by
  have := containsSub_append_seg_false pat payload seg [] hp (by simpa using hseg) hstr
  simpa using this

/-- The columns flushed when a new `## ` heading or the end of input is
reached. -/
def colFlush : Option ParsedColumn → Option ParsedTask → List ParsedColumn
  | some pc, ct => [pushTask pc ct]
  | none, _ => []

theorem parseStep_empty (st : PState) :
    parseStep st "" = { st with lineNum := st.lineNum + 1 } := rfl

theorem parseStep_header (st : PState) (name : String)
    (hh : headNotWs name.data = true) (hl : lastNotWs name.data = true)
    (hnb : name.data.contains '\\' = false) :
    parseStep st ⟨'#' :: ' ' :: name.data⟩ =
      { st with boardName := name, lineNum := st.lineNum + 1 } := by
  have hc1 : isPre "# ".data ('#' :: ' ' :: name.data) = true := by
    show ('#' == '#' && isPre [' '] (' ' :: name.data)) = true
    simp [isPre]
  have hc2 : isPre "## ".data ('#' :: ' ' :: name.data) = false := by
    show ('#' == '#' && isPre ['#', ' '] (' ' :: name.data)) = false
    show ('#' == '#' && ('#' == ' ' && isPre [' '] name.data)) = false
    simp
  have hname : unescapeMarkdown ⟨trimCh (('#' :: ' ' :: name.data).drop 2)⟩ = name := by
    show unescapeMarkdown ⟨trimCh name.data⟩ = name
    rw [trimCh_id name.data hh hl]
    show unescapeMarkdown name = name
    exact unescapeMarkdown_id name hnb
  simp only [parseStep, hc1, hc2, Bool.not_false, Bool.and_self, if_true, hname]

theorem parseStep_colHeader (st : PState) (name : String)
    (hh : headNotWs name.data = true) (hl : lastNotWs name.data = true)
    (hnb : name.data.contains '\\' = false) :
    parseStep st ⟨'#' :: '#' :: ' ' :: name.data⟩ =
      { st with
        cols := st.cols ++ colFlush st.curCol st.curTask,
        curCol := some ⟨name, none, none, []⟩,
        curTask := match st.curCol with | some _ => none | none => st.curTask,
        lineNum := st.lineNum + 1 } := by
  have hc1 : isPre "# ".data ('#' :: '#' :: ' ' :: name.data) = false := by
    simp [isPre]
  have hc2 : isPre "## ".data ('#' :: '#' :: ' ' :: name.data) = true := by
    simp [isPre]
  have hname : unescapeMarkdown ⟨trimCh (('#' :: '#' :: ' ' :: name.data).drop 3)⟩ = name := by
    show unescapeMarkdown ⟨trimCh name.data⟩ = name
    rw [trimCh_id name.data hh hl]
    show unescapeMarkdown name = name
    exact unescapeMarkdown_id name hnb
  simp only [parseStep, hc1, hc2, Bool.not_false, Bool.and_self, if_true, hname]
  cases hcc : st.curCol with
  | none =>
    cases hct : st.curTask with
    | none => simp [colFlush]
    | some t => simp [colFlush]
  | some pc =>
    cases hct : st.curTask with
    | none => simp [colFlush, pushTask]
    | some t => simp [colFlush, pushTask]

theorem parseStep_wip (st : PState) (pc : ParsedColumn) (n : Nat)
    (hcol : st.curCol = some pc) :
    parseStep st ⟨"<!-- WIP Limit: ".data ++ (natToDigits n ++ " -->".data)⟩ =
      { st with curCol := some { pc with wipLimit := some n },
                lineNum := st.lineNum + 1 } := by
  have hc1 : isPre "# ".data
      ("<!-- WIP Limit: ".data ++ (natToDigits n ++ " -->".data)) = false :=
    isPre_append_false_of_dies _ "<!-- WIP Limit: ".data _ (by decide)
  have hc2 : isPre "## ".data
      ("<!-- WIP Limit: ".data ++ (natToDigits n ++ " -->".data)) = false :=
    isPre_append_false_of_dies _ "<!-- WIP Limit: ".data _ (by decide)
  have hc3 : containsSub "WIP Limit:".data
      ("<!-- WIP Limit: ".data ++ (natToDigits n ++ " -->".data)) = true :=
    containsSub_append_left _ _ _ (by decide)
  have hfw : findWip ("<!-- WIP Limit: ".data ++ (natToDigits n ++ " -->".data))
      = some (some n) := by
    have h1 := findWip_append_lit "<!-- ".data
      ("WIP Limit: ".data ++ (natToDigits n ++ " -->".data)) (by decide)
    rw [findWip_match n] at h1
    exact h1
  simp only [parseStep, hc1, hc2, hc3, hcol, hfw, Bool.false_and, Bool.true_and,
    Bool.false_eq_true, if_false, Option.isSome_some, Bool.and_true, if_true]

theorem parseStep_terminal (st : PState) (pc : ParsedColumn)
    (hcol : st.curCol = some pc) :
    parseStep st "<!-- Terminal column -->" =
      { st with curCol := some { pc with isTerminal := some true },
                lineNum := st.lineNum + 1 } := by
  have hc1 : isPre "# ".data "<!-- Terminal column -->".data = false := by decide
  have hc2 : isPre "## ".data "<!-- Terminal column -->".data = false := by decide
  have hc3 : containsSub "WIP Limit:".data "<!-- Terminal column -->".data = false := by
    decide
  have hc4 : containsSub "Terminal column".data "<!-- Terminal column -->".data = true := by
    decide
  simp only [parseStep, hc1, hc2, hc3, hc4, hcol, Bool.false_and, Bool.true_and,
    Bool.false_eq_true, if_false, Option.isSome_some, Bool.and_true, if_true]

/-- Unpacking of `safeText`. -/
theorem safeText_spec (s : String) (h : safeText s = true) :
    s.data.isEmpty = false ∧ s.data.contains '\n' = false
    ∧ s.data.contains '\\' = false ∧ containsSub "<!--".data s.data = false
    ∧ containsSub "WIP Limit:".data s.data = false
    ∧ containsSub "Terminal column".data s.data = false
    ∧ headNotWs s.data = true ∧ lastNotWs s.data = true := by
  have h0 := h
  simp only [safeText, Bool.and_eq_true, Bool.not_eq_true'] at h0
  obtain ⟨⟨⟨h1, htp⟩, h7⟩, h8⟩ := h0
  simp only [textPlain, Bool.and_eq_true, Bool.not_eq_true'] at htp
  obtain ⟨⟨⟨⟨t1, t2⟩, t3⟩, t4⟩, t5⟩ := htp
  exact ⟨h1, t1, t2, t3, t4, t5, h7, h8⟩

/-- Unpacking of `safeId`. -/
theorem safeId_spec (s : String) (h : safeId s = true) :
    s.data ≠ [] ∧ ∀ c ∈ s.data, isWsChar c = false ∧ (c == '>') = false := by
  have := h
  simp only [safeId, Bool.and_eq_true, Bool.not_eq_true'] at this
  refine ⟨data_ne_nil_of_isEmpty_false _ this.1, ?h⟩
  intro c hc
  have := List.all_eq_true.mp this.2 c hc
  simp only [Bool.and_eq_true, Bool.not_eq_true'] at this
  exact this

/-- Unpacking of `safeAssignee`. -/
theorem safeAssignee_spec (s : String) (h : safeAssignee s = true) :
    s.data ≠ [] ∧ (∀ c ∈ s.data, isWsChar c = false)
    ∧ containsSub "WIP Limit:".data s.data = false
    ∧ containsSub "Terminal column".data s.data = false := by
  have := h
  simp only [safeAssignee, Bool.and_eq_true, Bool.not_eq_true'] at this
  obtain ⟨⟨⟨h1, h2⟩, h3⟩, h4⟩ := this
  refine ⟨data_ne_nil_of_isEmpty_false _ h1, ?hnw, h3, h4⟩
  intro c hc
  have := List.all_eq_true.mp h2 c hc
  simpa using this

theorem trimEndCh_append_ws (x : List Char) (c : Char) (hc : isWsChar c = true) :
    trimEndCh (x ++ [c]) = trimEndCh x := by
  unfold trimEndCh
  have hrev : (x ++ [c]).reverse = c :: x.reverse := by simp
  rw [hrev, trimLeftCh, if_pos hc]

theorem parseStep_titleLine (st : PState) (title : String)
    (hsafe : safeText title = true) :
    parseStep st ⟨'-' :: ' ' :: title.data⟩ =
      { st with
        curCol := (match st.curTask, st.curCol with
                   | some t, some pc => some { pc with tasks := pc.tasks ++ [t] }
                   | _, _ => st.curCol),
        curTask := some { title := title, id := none, description := none,
                          dueDate := none, labels := [], assignedTo := none },
        lineNum := st.lineNum + 1 } := by
  obtain ⟨hne, hnl, hnb, hncm, hW, hT, hh, hl⟩ := safeText_spec title hsafe
  have hc1 : isPre "# ".data ('-' :: ' ' :: title.data) = false := by simp [isPre]
  have hc2 : isPre "## ".data ('-' :: ' ' :: title.data) = false := by simp [isPre]
  have hc3 : containsSub "WIP Limit:".data ('-' :: ' ' :: title.data) = false :=
    containsSub_lit_payload _ "- ".data title.data (by decide) hW
  have hc4 : containsSub "Terminal column".data ('-' :: ' ' :: title.data) = false :=
    containsSub_lit_payload _ "- ".data title.data (by decide) hT
  have hc5 : isPre "- ".data ('-' :: ' ' :: title.data) = true := by simp [isPre]
  have hfid : findIdComment (('-' :: ' ' :: title.data).drop 2) = none :=
    findIdComment_none title.data hncm
  have htt : unescapeMarkdown ⟨('-' :: ' ' :: title.data).drop 2⟩ = title := by
    show unescapeMarkdown ⟨title.data⟩ = title
    exact unescapeMarkdown_id title hnb
  simp only [parseStep, hc1, hc2, hc3, hc4, hc5, hfid, htt, Bool.false_and,
    Bool.false_eq_true, if_false, if_true]
  cases hct : st.curTask with
  | none => cases hcc : st.curCol with
    | none => simp
    | some pc => simp
  | some t => cases hcc : st.curCol with
    | none => simp
    | some pc => simp

theorem parseStep_titleMeta (st : PState) (title tid : String)
    (hsafe : safeText title = true) (hid : safeId tid = true) :
    parseStep st ⟨'-' :: ' ' ::
        (title.data ++ (" <!-- id:".data ++ (tid.data ++ " -->".data)))⟩ =
      { st with
        curCol := (match st.curTask, st.curCol with
                   | some t, some pc => some { pc with tasks := pc.tasks ++ [t] }
                   | _, _ => st.curCol),
        curTask := some { title := title, id := some tid, description := none,
                          dueDate := none, labels := [], assignedTo := none },
        lineNum := st.lineNum + 1 } := by
  obtain ⟨hne, hnl, hnb, hncm, hW, hT, hh, hl⟩ := safeText_spec title hsafe
  obtain ⟨hidne, hidch⟩ := safeId_spec tid hid
  have hidsp : (' ' : Char) ∉ tid.data := by
    intro hmem
    have := (hidch ' ' hmem).1
    simp [isWsChar] at this
  have habsW : containsSub "WIP Limit:".data tid.data = false :=
    containsSub_eq_false_of_not_mem _ _ ' ' (by decide) hidsp
  have habsT : containsSub "Terminal column".data tid.data = false :=
    containsSub_eq_false_of_not_mem _ _ ' ' (by decide) hidsp
  have hinnerW : containsSub "WIP Limit:".data (tid.data ++ " -->".data) = false :=
    containsSub_payload_litend _ _ _ habsW (by decide) (by decide)
  have hinnerT : containsSub "Terminal column".data (tid.data ++ " -->".data) = false :=
    containsSub_payload_litend _ _ _ habsT (by decide) (by decide)
  have hmidW : containsSub "WIP Limit:".data
      (" <!-- id:".data ++ (tid.data ++ " -->".data)) = false :=
    containsSub_lit_payload _ " <!-- id:".data _ (by decide) hinnerW
  have hmidT : containsSub "Terminal column".data
      (" <!-- id:".data ++ (tid.data ++ " -->".data)) = false :=
    containsSub_lit_payload _ " <!-- id:".data _ (by decide) hinnerT
  have hbodyW : containsSub "WIP Limit:".data
      (title.data ++ (" <!-- id:".data ++ (tid.data ++ " -->".data))) = false :=
    containsSub_append_seg_false _ title.data " <!-- id:".data _ hW hmidW (by decide)
  have hbodyT : containsSub "Terminal column".data
      (title.data ++ (" <!-- id:".data ++ (tid.data ++ " -->".data))) = false :=
    containsSub_append_seg_false _ title.data " <!-- id:".data _ hT hmidT (by decide)
  have hc1 : isPre "# ".data ('-' :: ' ' ::
      (title.data ++ (" <!-- id:".data ++ (tid.data ++ " -->".data)))) = false := by
    simp [isPre]
  have hc2 : isPre "## ".data ('-' :: ' ' ::
      (title.data ++ (" <!-- id:".data ++ (tid.data ++ " -->".data)))) = false := by
    simp [isPre]
  have hc3 : containsSub "WIP Limit:".data ('-' :: ' ' ::
      (title.data ++ (" <!-- id:".data ++ (tid.data ++ " -->".data)))) = false :=
    containsSub_lit_payload _ "- ".data _ (by decide) hbodyW
  have hc4 : containsSub "Terminal column".data ('-' :: ' ' ::
      (title.data ++ (" <!-- id:".data ++ (tid.data ++ " -->".data)))) = false :=
    containsSub_lit_payload _ "- ".data _ (by decide) hbodyT
  have hc5 : isPre "- ".data ('-' :: ' ' ::
      (title.data ++ (" <!-- id:".data ++ (tid.data ++ " -->".data)))) = true := by
    simp [isPre]
  have hfid : findIdComment (('-' :: ' ' ::
      (title.data ++ (" <!-- id:".data ++ (tid.data ++ " -->".data)))).drop 2)
      = some (tid.data, title.data ++ " ".data) :=
    findIdComment_title title.data tid.data hncm hidne hidch
  have htr : unescapeMarkdown ⟨trimCh (title.data ++ " ".data)⟩ = title := by
    have htr0 : trimCh (title.data ++ " ".data) = title.data := by
      unfold trimCh
      rw [show (" ".data : List Char) = [' '] from rfl,
          trimEndCh_append_ws title.data ' ' (by decide),
          trimEndCh_of_lastNotWs _ hl, trimLeftCh_of_headNotWs _ hh]
    rw [htr0]
    show unescapeMarkdown title = title
    exact unescapeMarkdown_id title hnb
  simp only [parseStep, hc1, hc2, hc3, hc4, hc5, hfid, htr, Bool.false_and,
    Bool.false_eq_true, if_false, if_true, mk_data_eta]
  cases hct : st.curTask with
  | none => cases hcc : st.curCol with
    | none => simp
    | some pc => simp
  | some t => cases hcc : st.curCol with
    | none => simp
    | some pc => simp

/-- Unpacking of `safeDescLine`. -/
theorem safeDescLine_spec (l : List Char) (h : safeDescLine l = true) :
    l.contains '\\' = false ∧ containsSub "<!--".data l = false
    ∧ containsSub "WIP Limit:".data l = false
    ∧ containsSub "Terminal column".data l = false
    ∧ containsSub "assigned:".data l = false := by
  have h0 := h
  simp only [safeDescLine, Bool.and_eq_true, Bool.not_eq_true'] at h0
  obtain ⟨⟨⟨⟨h1, h2⟩, h3⟩, h4⟩, h5⟩ := h0
  exact ⟨h1, h2, h3, h4, h5⟩

/-- Appending one parsed description line, as the parser does. -/
def descAppend : Option String → String → String
  | none, ln => ln
  | some d, ln => d ++ "\n" ++ ln

theorem formatDate_chars (d : MdDate) : ∀ c ∈ formatDate d, c ∈ "0123456789-".data := by
  obtain ⟨y, m, dd⟩ := d
  intro c hc
  have hten : ∀ (k : Nat), k % 10 < 10 := fun k => Nat.mod_lt k (by omega)
  have hdig : ∀ (k : Nat), k < 10 → Nat.digitChar k ∈ "0123456789-".data := by
    intro k hk
    have hgen : ∀ x ∈ "0123456789".data, x ∈ "0123456789-".data := by decide
    exact hgen _ (digitChar_mem k hk)
  have hshape : formatDate ⟨y, m, dd⟩ =
      [Nat.digitChar (y / 1000 % 10), Nat.digitChar (y / 100 % 10),
       Nat.digitChar (y / 10 % 10), Nat.digitChar (y % 10), '-',
       Nat.digitChar (m / 10 % 10), Nat.digitChar (m % 10), '-',
       Nat.digitChar (dd / 10 % 10), Nat.digitChar (dd % 10)] := by
    simp [formatDate, pad4, pad2]
  rw [hshape] at hc
  simp only [List.mem_cons, List.not_mem_nil, or_false] at hc
  rcases hc with h | h | h | h | h | h | h | h | h | h <;>
    first
      | (rw [h]; exact hdig _ (hten _))
      | (rw [h]; decide)

theorem formatDate_head (d : MdDate) : headNotWs (formatDate d) = true := by
  obtain ⟨y, m, dd⟩ := d
  have hmem := digitChar_mem (y / 1000 % 10) (Nat.mod_lt _ (by omega))
  have hgen : ∀ x ∈ "0123456789".data, isWsChar x = false := by decide
  have hws : isWsChar (Nat.digitChar (y / 1000 % 10)) = false := hgen _ hmem
  show headNotWs (Nat.digitChar (y / 1000 % 10) :: _) = true
  simpa [headNotWs] using hws

theorem formatDate_last (d : MdDate) : lastNotWs (formatDate d) = true := by
  obtain ⟨y, m, dd⟩ := d
  have hmem := digitChar_mem (dd % 10) (Nat.mod_lt _ (by omega))
  have hgen : ∀ x ∈ "0123456789".data, isWsChar x = false := by decide
  have hws : isWsChar (Nat.digitChar (dd % 10)) = false := hgen _ hmem
  have hlast : (formatDate ⟨y, m, dd⟩).getLast? = some (Nat.digitChar (dd % 10)) := rfl
  unfold lastNotWs
  rw [hlast]
  simpa using hws

theorem formatDate_ne_nil (d : MdDate) : formatDate d ≠ [] := by
  obtain ⟨y, m, dd⟩ := d
  show Nat.digitChar (y / 1000 % 10) :: _ ≠ []
  simp

theorem headNotWs_append (x y : List Char) (hx : headNotWs x = true) (hne : x ≠ []) :
    headNotWs (x ++ y) = true := by
  cases x with
  | nil => exact absurd rfl hne
  | cons c cs => simpa [headNotWs] using hx

theorem contains_eq_false_of_forall (l : List Char) (c : Char)
    (h : ∀ x ∈ l, ¬ x = c) : l.contains c = false := by
  cases hc : l.contains c with
  | false => rfl
  | true => exact absurd rfl (h c ((containsCh_eq_true_iff l c).mp hc))

/-- Unpacking of `safeDate`. -/
theorem safeDate_spec (d : MdDate) (h : safeDate d = true) :
    validDate d.year d.month d.day = true ∧ d.year ≤ 9999 := by
  have h0 := h
  simp only [safeDate, Bool.and_eq_true, decide_eq_true_eq] at h0
  exact h0

theorem formatDate_no_check (d : MdDate) : (formatDate d).contains '✓' = false := by
  apply contains_eq_false_of_forall
  intro x hx he
  have := formatDate_chars d x hx
  rw [he] at this
  exact absurd this (by decide)

theorem parseStep_due (st : PState) (pt : ParsedTask) (d : MdDate) (chk : Bool)
    (hct : st.curTask = some pt) (hd : safeDate d = true) :
    parseStep st ⟨"    @ ".data ++ (formatDate d ++ (if chk then " ✓".data else []))⟩ =
      { st with curTask := some { pt with dueDate := some d },
                lineNum := st.lineNum + 1 } := by
  obtain ⟨hvd, hy⟩ := safeDate_spec d hd
  have hXchars : ∀ c ∈ formatDate d ++ (if chk then " ✓".data else []),
      c ∈ "0123456789- ✓".data := by
    intro c hc
    rcases List.mem_append.mp hc with hc | hc
    · have := formatDate_chars d c hc
      have hgen : ∀ x ∈ "0123456789-".data, x ∈ "0123456789- ✓".data := by decide
      exact hgen c this
    · cases chk with
      | true =>
        simp only [if_true] at hc
        have hgen : ∀ x ∈ " ✓".data, x ∈ "0123456789- ✓".data := by decide
        exact hgen c hc
      | false => simp at hc
  have habs : ∀ (p : Char), p ∉ "0123456789- ✓".data →
      p ∉ formatDate d ++ (if chk then " ✓".data else []) := by
    intro p hp hmem
    exact hp (hXchars p hmem)
  have habsW : containsSub "WIP Limit:".data
      (formatDate d ++ (if chk then " ✓".data else [])) = false :=
    containsSub_eq_false_of_not_mem _ _ 'W' (by decide) (habs 'W' (by decide))
  have habsT : containsSub "Terminal column".data
      (formatDate d ++ (if chk then " ✓".data else [])) = false :=
    containsSub_eq_false_of_not_mem _ _ 'T' (by decide) (habs 'T' (by decide))
  have habsA : containsSub "assigned:".data
      (formatDate d ++ (if chk then " ✓".data else [])) = false :=
    containsSub_eq_false_of_not_mem _ _ 'a' (by decide) (habs 'a' (by decide))
  have hc1 : isPre "# ".data ("    @ ".data
      ++ (formatDate d ++ (if chk then " ✓".data else []))) = false :=
    isPre_append_false_of_dies _ "    @ ".data _ (by decide)
  have hc2 : isPre "## ".data ("    @ ".data
      ++ (formatDate d ++ (if chk then " ✓".data else []))) = false :=
    isPre_append_false_of_dies _ "    @ ".data _ (by decide)
  have hc5 : isPre "- ".data ("    @ ".data
      ++ (formatDate d ++ (if chk then " ✓".data else []))) = false :=
    isPre_append_false_of_dies _ "    @ ".data _ (by decide)
  have hc3 : containsSub "WIP Limit:".data ("    @ ".data
      ++ (formatDate d ++ (if chk then " ✓".data else []))) = false :=
    containsSub_lit_payload _ "    @ ".data _ (by decide) habsW
  have hc4 : containsSub "Terminal column".data ("    @ ".data
      ++ (formatDate d ++ (if chk then " ✓".data else []))) = false :=
    containsSub_lit_payload _ "    @ ".data _ (by decide) habsT
  have hind : indentContent ("    @ ".data
      ++ (formatDate d ++ (if chk then " ✓".data else [])))
      = some ("@ ".data ++ (formatDate d ++ (if chk then " ✓".data else []))) := rfl
  have h61a : isPre "@ ".data ("@ ".data
      ++ (formatDate d ++ (if chk then " ✓".data else []))) = true :=
    isPre_append_refl _ _
  have h61b : containsSub "assigned:".data ("@ ".data
      ++ (formatDate d ++ (if chk then " ✓".data else []))) = false :=
    containsSub_lit_payload _ "@ ".data _ (by decide) habsA
  have hdate : trimCh (removeFirstCheck (trimCh
      (("@ ".data ++ (formatDate d ++ (if chk then " ✓".data else []))).drop 2)))
      = formatDate d := by
    have hdrop : ("@ ".data ++ (formatDate d ++ (if chk then " ✓".data else []))).drop 2
        = formatDate d ++ (if chk then " ✓".data else []) := rfl
    rw [hdrop]
    cases chk with
    | false =>
      simp only [Bool.false_eq_true, if_false]
      rw [List.append_nil]
      rw [trimCh_id _ (formatDate_head d) (formatDate_last d),
          removeFirstCheck_id _ (formatDate_no_check d),
          trimCh_id _ (formatDate_head d) (formatDate_last d)]
    | true =>
      simp only [if_true]
      have hx : formatDate d ++ " ✓".data = (formatDate d ++ [' ']) ++ '✓' :: [] := by
        simp
      have hlastX : lastNotWs (formatDate d ++ " ✓".data) = true := by
        unfold lastNotWs
        rw [show (" ✓".data : List Char) = ' ' :: '✓' :: [] from rfl,
            getLast?_append_right (formatDate d) ' ' ['✓'], List.getLast?_cons_cons]
        decide
      have hheadX : headNotWs (formatDate d ++ " ✓".data) = true :=
        headNotWs_append _ _ (formatDate_head d) (formatDate_ne_nil d)
      rw [trimCh_id _ hheadX hlastX, hx,
          removeFirstCheck_append (formatDate d ++ [' '])
            (by
              apply contains_eq_false_of_forall
              intro x hxm he
              rcases List.mem_append.mp hxm with hm | hm
              · have := formatDate_chars d x hm
                rw [he] at this
                exact absurd this (by decide)
              · rw [List.mem_singleton] at hm
                rw [hm] at he
                cases he) []]
      rw [List.append_nil]
      unfold trimCh
      rw [trimEndCh_append_ws _ ' ' (by decide),
          trimEndCh_of_lastNotWs _ (formatDate_last d),
          trimLeftCh_of_headNotWs _ (formatDate_head d)]
  have hpd : parseISODateCh (formatDate d) = some d := parse_format_date d hvd hy
  simp only [parseStep, hc1, hc2, hc3, hc4, hc5, hind, hct, h61a, h61b, hdate, hpd,
    Bool.false_and, Bool.false_eq_true, if_false, Bool.not_false, Bool.and_self,
    if_true, Bool.true_and]

theorem parseStep_labels (st : PState) (pt : ParsedTask) (ls : List String)
    (hct : st.curTask = some pt) (hne : ls ≠ [])
    (hall : ∀ l ∈ ls, safeLabel l = true) :
    parseStep st ⟨"    # ".data ++ joinLabels (ls.map String.data)⟩ =
      { st with curTask := some { pt with labels := ls },
                lineNum := st.lineNum + 1 } := by
  have hperW : ∀ x ∈ ls.map String.data, containsSub "WIP Limit:".data x = false := by
    intro x hx
    obtain ⟨t, ht, rfl⟩ := List.mem_map.mp hx
    exact (safeLabel_spec t (hall t ht)).2.2.2.2.2.2.1
  have hperT : ∀ x ∈ ls.map String.data,
      containsSub "Terminal column".data x = false := by
    intro x hx
    obtain ⟨t, ht, rfl⟩ := List.mem_map.mp hx
    exact (safeLabel_spec t (hall t ht)).2.2.2.2.2.2.2
  have hperA : ∀ x ∈ ls.map String.data, containsSub "assigned:".data x = false := by
    intro x hx
    obtain ⟨t, ht, rfl⟩ := List.mem_map.mp hx
    exact (safeLabel_spec t (hall t ht)).2.2.2.2.2.1
  have hJW : containsSub "WIP Limit:".data (joinLabels (ls.map String.data)) = false :=
    joinLabels_not_contains _ (by decide) (by decide) (by decide) _ hperW
  have hJT : containsSub "Terminal column".data (joinLabels (ls.map String.data)) = false :=
    joinLabels_not_contains _ (by decide) (by decide) (by decide) _ hperT
  have hJA : containsSub "assigned:".data (joinLabels (ls.map String.data)) = false :=
    joinLabels_not_contains _ (by decide) (by decide) (by decide) _ hperA
  have hc1 : isPre "# ".data ("    # ".data ++ joinLabels (ls.map String.data)) = false :=
    isPre_append_false_of_dies _ "    # ".data _ (by decide)
  have hc2 : isPre "## ".data ("    # ".data ++ joinLabels (ls.map String.data)) = false :=
    isPre_append_false_of_dies _ "    # ".data _ (by decide)
  have hc5 : isPre "- ".data ("    # ".data ++ joinLabels (ls.map String.data)) = false :=
    isPre_append_false_of_dies _ "    # ".data _ (by decide)
  have hc3 : containsSub "WIP Limit:".data
      ("    # ".data ++ joinLabels (ls.map String.data)) = false :=
    containsSub_lit_payload _ "    # ".data _ (by decide) hJW
  have hc4 : containsSub "Terminal column".data
      ("    # ".data ++ joinLabels (ls.map String.data)) = false :=
    containsSub_lit_payload _ "    # ".data _ (by decide) hJT
  have hind : indentContent ("    # ".data ++ joinLabels (ls.map String.data))
      = some ("# ".data ++ joinLabels (ls.map String.data)) := rfl
  have h61a : isPre "@ ".data ("# ".data ++ joinLabels (ls.map String.data)) = false :=
    isPre_append_false_of_dies _ "# ".data _ (by decide)
  have h62 : containsSub "assigned:".data
      ("# ".data ++ joinLabels (ls.map String.data)) = false :=
    containsSub_lit_payload _ "# ".data _ (by decide) hJA
  have h63 : isPre "# ".data ("# ".data ++ joinLabels (ls.map String.data)) = true :=
    isPre_append_refl _ _
  have htrim : trimCh (("# ".data ++ joinLabels (ls.map String.data)).drop 2)
      = joinLabels (ls.map String.data) := by
    have hdrop : ("# ".data ++ joinLabels (ls.map String.data)).drop 2
        = joinLabels (ls.map String.data) := rfl
    rw [hdrop]
    cases hls : ls with
    | nil => exact absurd hls hne
    | cons s ss =>
      obtain ⟨hse, hsh, hsl, -, -, -, -, -⟩ :=
        safeLabel_spec s (hall s (by rw [hls]; exact List.mem_cons_self _ _))
      have hperNL : ∀ x ∈ (s :: ss).map String.data, x ≠ [] ∧ lastNotWs x = true := by
        intro x hx
        obtain ⟨t, ht, rfl⟩ := List.mem_map.mp hx
        have hspec := safeLabel_spec t (hall t (by rw [hls]; exact ht))
        exact ⟨data_ne_nil_of_isEmpty_false _ hspec.1, hspec.2.2.1⟩
      apply trimCh_id
      · exact joinLabels_headNotWs s.data (ss.map String.data)
          (data_ne_nil_of_isEmpty_false _ hse) hsh
      · exact joinLabels_lastNotWs _ hperNL (by simp)
  have hlr := labels_roundtrip ls hne hall
  simp only [parseStep, hc1, hc2, hc3, hc4, hc5, hind, hct, h61a, h62, h63, htrim, hlr,
    Bool.false_and, Bool.false_eq_true, if_false, Bool.not_false, Bool.and_self,
    if_true, Bool.true_and]

theorem parseStep_assigned (st : PState) (pt : ParsedTask) (a : String)
    (hct : st.curTask = some pt) (ha : safeAssignee a = true) :
    parseStep st ⟨"    @ assigned: ".data ++ a.data⟩ =
      { st with curTask := some { pt with assignedTo := some a },
                lineNum := st.lineNum + 1 } := by
  obtain ⟨hne, hnw, hW, hT⟩ := safeAssignee_spec a ha
  have hc1 : isPre "# ".data ("    @ assigned: ".data ++ a.data) = false :=
    isPre_append_false_of_dies _ "    @ assigned: ".data _ (by decide)
  have hc2 : isPre "## ".data ("    @ assigned: ".data ++ a.data) = false :=
    isPre_append_false_of_dies _ "    @ assigned: ".data _ (by decide)
  have hc5 : isPre "- ".data ("    @ assigned: ".data ++ a.data) = false :=
    isPre_append_false_of_dies _ "    @ assigned: ".data _ (by decide)
  have hc3 : containsSub "WIP Limit:".data ("    @ assigned: ".data ++ a.data) = false :=
    containsSub_lit_payload _ "    @ assigned: ".data _ (by decide) hW
  have hc4 : containsSub "Terminal column".data
      ("    @ assigned: ".data ++ a.data) = false :=
    containsSub_lit_payload _ "    @ assigned: ".data _ (by decide) hT
  have hind : indentContent ("    @ assigned: ".data ++ a.data)
      = some ("@ assigned: ".data ++ a.data) := rfl
  have h61a : isPre "@ ".data ("@ assigned: ".data ++ a.data) = true :=
    isPre_append_ext _ "@ assigned: ".data _ (by decide)
  have h61b : containsSub "assigned:".data ("@ assigned: ".data ++ a.data) = true :=
    containsSub_append_left _ _ _ (by decide)
  have hfind : findAssigned ("@ assigned: ".data ++ a.data) = some a.data := by
    have h1 := findAssigned_append_lit "@ ".data ("assigned: ".data ++ a.data) (by decide)
    rw [findAssigned_match a.data hne hnw] at h1
    exact h1
  simp only [parseStep, hc1, hc2, hc3, hc4, hc5, hind, hct, h61a, h61b, hfind,
    mk_data_eta, Bool.false_and, Bool.false_eq_true, if_false, Bool.not_true,
    Bool.and_false, if_true, Bool.true_and]

theorem parseStep_desc (st : PState) (pt : ParsedTask) (dln : List Char)
    (hct : st.curTask = some pt) (hsafe : safeDescLine dln = true) :
    parseStep st ⟨"    > ".data ++ dln⟩ =
      { st with
        curTask := some { pt with description := some (descAppend pt.description ⟨dln⟩) },
        lineNum := st.lineNum + 1 } := by
  obtain ⟨hb, hcm, hW, hT, hA⟩ := safeDescLine_spec dln hsafe
  have hc1 : isPre "# ".data ("    > ".data ++ dln) = false :=
    isPre_append_false_of_dies _ "    > ".data _ (by decide)
  have hc2 : isPre "## ".data ("    > ".data ++ dln) = false :=
    isPre_append_false_of_dies _ "    > ".data _ (by decide)
  have hc5 : isPre "- ".data ("    > ".data ++ dln) = false :=
    isPre_append_false_of_dies _ "    > ".data _ (by decide)
  have hc3 : containsSub "WIP Limit:".data ("    > ".data ++ dln) = false :=
    containsSub_lit_payload _ "    > ".data _ (by decide) hW
  have hc4 : containsSub "Terminal column".data ("    > ".data ++ dln) = false :=
    containsSub_lit_payload _ "    > ".data _ (by decide) hT
  have hind : indentContent ("    > ".data ++ dln) = some ("> ".data ++ dln) := rfl
  have h61a : isPre "@ ".data ("> ".data ++ dln) = false :=
    isPre_append_false_of_dies _ "> ".data _ (by decide)
  have h62 : containsSub "assigned:".data ("> ".data ++ dln) = false :=
    containsSub_lit_payload _ "> ".data _ (by decide) hA
  have h63 : isPre "# ".data ("> ".data ++ dln) = false :=
    isPre_append_false_of_dies _ "> ".data _ (by decide)
  have h64 : isPre "> ".data ("> ".data ++ dln) = true := isPre_append_refl _ _
  have hun : unescapeMarkdown ⟨("> ".data ++ dln).drop 2⟩ = ⟨dln⟩ := by
    show unescapeMarkdown ⟨dln⟩ = ⟨dln⟩
    exact unescapeMarkdown_id ⟨dln⟩ hb
  cases hdesc : pt.description with
  | none =>
    simp only [parseStep, hc1, hc2, hc3, hc4, hc5, hind, hct, h61a, h62, h63, h64, hun,
      hdesc, descAppend, Bool.false_and, Bool.false_eq_true, if_false, Bool.not_false,
      if_true, Bool.true_and]
  | some d0 =>
    simp only [parseStep, hc1, hc2, hc3, hc4, hc5, hind, hct, h61a, h62, h63, h64, hun,
      hdesc, descAppend, Bool.false_and, Bool.false_eq_true, if_false, Bool.not_false,
      if_true, Bool.true_and]

/-! ### Block-level parsing lemmas -/

theorem pstate_ext (a b : PState) (h1 : a.boardName = b.boardName)
    (h2 : a.cols = b.cols) (h3 : a.curCol = b.curCol) (h4 : a.curTask = b.curTask)
    (h5 : a.errors = b.errors) (h6 : a.lineNum = b.lineNum) : a = b := by
  cases a; cases b
  cases h1; cases h2; cases h3; cases h4; cases h5; cases h6
  rfl

theorem splitNl_no_nl : ∀ (x : List Char), ∀ p ∈ splitNlCh x, p.contains '\n' = false := by
  intro x
  induction x with
  | nil =>
    intro p hp
    simp only [splitNlCh, List.mem_singleton] at hp
    rw [hp]
    rfl
  | cons c cs ih =>
    intro p hp
    by_cases hc : (c == '\n') = true
    · simp only [splitNlCh, hc, if_true, List.mem_cons] at hp
      rcases hp with hp | hp
      · rw [hp]; rfl
      · exact ih p hp
    · rw [splitNlCh_cons_ne c cs (by simpa using hc)] at hp
      rcases List.mem_cons.mp hp with hp | hp
      · cases hsp : splitNlCh cs with
        | nil => exact absurd hsp (splitNlCh_ne_nil cs)
        | cons q qs =>
          rw [hsp] at hp
          simp only [List.headD_cons] at hp
          have hq : q.contains '\n' = false := ih q (by rw [hsp]; exact List.mem_cons_self _ _)
          rw [hp]
          simp only [List.contains_cons, Bool.or_eq_false_iff]
          constructor
          · simpa [BEq.comm] using hc
          · exact hq
      · cases hsp : splitNlCh cs with
        | nil => exact absurd hsp (splitNlCh_ne_nil cs)
        | cons q qs =>
          rw [hsp] at hp
          simp only [List.tail_cons] at hp
          exact ih p (by rw [hsp]; exact List.mem_cons_of_mem _ hp)

theorem joinNl_splitNl : ∀ (x : List Char), joinNlCh (splitNlCh x) = x := by
  intro x
  induction x with
  | nil => rfl
  | cons c cs ih =>
    by_cases hc : (c == '\n') = true
    · have hceq : c = '\n' := by simpa using hc
      simp only [splitNlCh, hc, if_true]
      cases hsp : splitNlCh cs with
      | nil => exact absurd hsp (splitNlCh_ne_nil cs)
      | cons q qs =>
        rw [joinNlCh_cons]
        rw [hsp] at ih
        rw [ih, hceq]
        rfl
    · rw [splitNlCh_cons_ne c cs (by simpa using hc)]
      cases hsp : splitNlCh cs with
      | nil => exact absurd hsp (splitNlCh_ne_nil cs)
      | cons q qs =>
        rw [hsp] at ih
        simp only [List.headD_cons, List.tail_cons]
        cases qs with
        | nil =>
          show c :: q = c :: cs
          have : joinNlCh [q] = q := rfl
          rw [this] at ih
          rw [ih]
        | cons q1 qs1 =>
          rw [joinNlCh_cons]
          rw [joinNlCh_cons] at ih
          show c :: (q ++ '\n' :: joinNlCh (q1 :: qs1)) = c :: cs
          rw [ih]

/-- The accumulated description after folding a list of parsed lines. -/
def descAppendList : Option String → List (List Char) → Option String
  | acc, [] => acc
  | acc, l :: ls => descAppendList (some (descAppend acc ⟨l⟩)) ls

/-- The newline-joined tail of a join. -/
def tailJoinNl : List (List Char) → List Char
  | [] => []
  | l :: ls => '\n' :: (l ++ tailJoinNl ls)

theorem joinNl_eq_head_tailJoin : ∀ (l : List Char) (ls : List (List Char)),
    joinNlCh (l :: ls) = l ++ tailJoinNl ls := by
  intro l ls
  induction ls generalizing l with
  | nil => show joinNlCh [l] = l ++ []; simp [joinNlCh]
  | cons q qs ih =>
    rw [joinNlCh_cons, ih q]
    show l ++ '\n' :: (q ++ tailJoinNl qs) = _
    rfl

theorem descAppendList_acc : ∀ (ls : List (List Char)) (d0 : String),
    descAppendList (some d0) ls = some ⟨d0.data ++ tailJoinNl ls⟩ := by
  intro ls
  induction ls with
  | nil =>
    intro d0
    show some d0 = some ⟨d0.data ++ []⟩
    rw [List.append_nil]
  | cons l ls ih =>
    intro d0
    show descAppendList (some (descAppend (some d0) ⟨l⟩)) ls = _
    rw [ih]
    show some (⟨(d0 ++ "\n" ++ (⟨l⟩ : String)).data ++ tailJoinNl ls⟩ : String) = _
    have hdata : (d0 ++ "\n" ++ (⟨l⟩ : String)).data = d0.data ++ '\n' :: l := by
      show (d0.data ++ '\n' :: []) ++ l = d0.data ++ '\n' :: l
      simp
    rw [hdata]
    show some (⟨d0.data ++ '\n' :: l ++ tailJoinNl ls⟩ : String)
      = some (⟨d0.data ++ ('\n' :: (l ++ tailJoinNl ls))⟩ : String)
    simp

theorem descAppendList_none (parts : List (List Char)) (hne : parts ≠ []) :
    descAppendList none parts = some ⟨joinNlCh parts⟩ := by
  cases parts with
  | nil => exact absurd rfl hne
  | cons l ls =>
    show descAppendList (some (descAppend none ⟨l⟩)) ls = _
    show descAppendList (some ⟨l⟩) ls = _
    rw [descAppendList_acc ls ⟨l⟩, joinNl_eq_head_tailJoin]

/-- Folding the exported description lines rebuilds the description. -/
theorem parse_descLines : ∀ (ls : List (List Char)) (st : PState) (pt : ParsedTask),
    st.curTask = some pt → (∀ l ∈ ls, safeDescLine l = true) →
    (ls.map (fun ln => (⟨"    > ".data ++ ln⟩ : String))).foldl parseStep st =
      { st with
        curTask := some { pt with description := descAppendList pt.description ls },
        lineNum := st.lineNum + ls.length } := by
  intro ls
  induction ls with
  | nil =>
    intro st pt hct _
    show st = _
    apply pstate_ext <;> simp [descAppendList, hct]
  | cons l ls ih =>
    intro st pt hct hall
    show ((⟨"    > ".data ++ l⟩ : String) :: ls.map _).foldl parseStep st = _
    rw [List.foldl_cons,
        parseStep_desc st pt l hct (hall l (List.mem_cons_self _ _))]
    rw [ih _ _ rfl (fun x hx => hall x (List.mem_cons_of_mem _ hx))]
    apply pstate_ext <;> simp [descAppendList]
    omega

/-- Unpacking of `safeTask`. -/
theorem safeTask_spec (opts : ExportOptions) (t : Task) (h : safeTask opts t = true) :
    safeText t.title = true
    ∧ (match t.description with | some d => safeDesc d | none => true) = true
    ∧ (∀ l ∈ t.labels, safeLabel l = true)
    ∧ (match t.assignedTo with | some a => safeAssignee a | none => true) = true
    ∧ (match t.dueDate with | some d => safeDate d | none => true) = true
    ∧ (opts.includeMetadata = true → safeId t.id = true) := by
  have h0 := h
  simp only [safeTask, Bool.and_eq_true] at h0
  obtain ⟨⟨⟨⟨⟨h1, h2⟩, h3⟩, h4⟩, h5⟩, h6⟩ := h0
  refine ⟨h1, h2, fun l hl => List.all_eq_true.mp h3 l hl, h4, h5, ?hm⟩
  intro hm
  rw [hm] at h6
  simpa using h6

/-- Unpacking of `safeDesc`. -/
theorem safeDesc_spec (s : String) (h : safeDesc s = true) :
    s.data.isEmpty = false ∧ (∀ l ∈ splitNlCh s.data, safeDescLine l = true)
    ∧ ∃ lastLn, (splitNlCh s.data).getLast? = some lastLn
        ∧ lastLn.isEmpty = false ∧ lastNotWs lastLn = true := by
  have h0 := h
  simp only [safeDesc, Bool.and_eq_true, Bool.not_eq_true'] at h0
  obtain ⟨⟨h1, h2⟩, h3⟩ := h0
  refine ⟨h1, fun l hl => List.all_eq_true.mp h2 l hl, ?hlast⟩
  cases hgl : (splitNlCh s.data).getLast? with
  | none => rw [hgl] at h3; cases h3
  | some ll =>
    rw [hgl] at h3
    simp only [Bool.and_eq_true, Bool.not_eq_true'] at h3
    exact ⟨ll, rfl, h3.1, h3.2⟩

/-- The task record right after its title line is parsed. -/
def initParsedTask (opts : ExportOptions) (t : Task) : ParsedTask :=
  { title := t.title,
    id := if opts.includeMetadata then some t.id else none,
    description := none, dueDate := none, labels := [], assignedTo := none }

/-- Folding one exported task's lines: the pending task is pushed into
the open column and the new task accumulates to its projection. -/
theorem parse_taskBlock (opts : ExportOptions) (t : Task) (st : PState)
    (pc : ParsedColumn) (hcol : st.curCol = some pc) (hsafe : safeTask opts t = true) :
    (taskLines opts t).foldl parseStep st =
      { st with
        curCol := some (pushTask pc st.curTask),
        curTask := some (projTask opts t),
        lineNum := st.lineNum + (taskLines opts t).length } := by
  obtain ⟨htitle, hdesc, hlabels, hassign, hdue, hmeta⟩ := safeTask_spec opts t hsafe
  obtain ⟨-, htnl, htnb, htncm, -, -, -, -⟩ := safeText_spec t.title htitle
  have hesc : escCh t.title.data = t.title.data := escCh_id _ htnb htnl htncm
  have htStep : parseStep st (if opts.includeMetadata then
        (⟨'-' :: ' ' :: (t.title.data ++ (" <!-- id:".data ++ (t.id.data ++ " -->".data)))⟩ : String)
      else ⟨'-' :: ' ' :: t.title.data⟩) =
      { st with
        curCol := some (pushTask pc st.curTask),
        curTask := some (initParsedTask opts t),
        lineNum := st.lineNum + 1 } := by
    cases hm : opts.includeMetadata with
    | true =>
      simp only [hm, if_true]
      rw [parseStep_titleMeta st t.title t.id htitle (hmeta hm)]
      cases hct : st.curTask with
      | none => apply pstate_ext <;> simp [hcol, pushTask, initParsedTask, hm]
      | some t0 => apply pstate_ext <;> simp [hcol, pushTask, initParsedTask, hm]
    | false =>
      simp only [hm, Bool.false_eq_true, if_false]
      rw [parseStep_titleLine st t.title htitle]
      cases hct : st.curTask with
      | none => apply pstate_ext <;> simp [hcol, pushTask, initParsedTask, hm]
      | some t0 => apply pstate_ext <;> simp [hcol, pushTask, initParsedTask, hm]
  simp only [taskLines, hesc]
  simp only [List.foldl_append, List.foldl_cons, List.foldl_nil]
  rw [htStep]
  set pt1 : ParsedTask := initParsedTask opts t with hpt1
  set st1 : PState := { st with
    curCol := some (pushTask pc st.curTask),
    curTask := some pt1,
    lineNum := st.lineNum + 1 } with hst1
  have hdueStep : List.foldl parseStep st1 (match t.dueDate with
      | some d => [(⟨"    @ ".data ++ (formatDate d
          ++ (if t.completedAt.isSome then " ✓".data else []))⟩ : String)]
      | none => []) =
      { st1 with
        curTask := some { pt1 with dueDate := t.dueDate },
        lineNum := st1.lineNum + (match t.dueDate with
          | some _ => 1 | none => 0) } := by
    cases hd : t.dueDate with
    | none =>
      show st1 = _
      apply pstate_ext <;> simp [hst1, hpt1, initParsedTask]
    | some d =>
      rw [hd] at hdue
      show List.foldl parseStep st1 [_] = _
      rw [List.foldl_cons, List.foldl_nil,
          parseStep_due st1 pt1 d t.completedAt.isSome (by simp [hst1]) hdue]
  rw [hdueStep]
  set pt2 : ParsedTask := { pt1 with dueDate := t.dueDate } with hpt2
  set st2 : PState := { st1 with
    curTask := some pt2,
    lineNum := st1.lineNum + (match t.dueDate with | some _ => 1 | none => 0) } with hst2
  have hlabStep : List.foldl parseStep st2 (if t.labels.isEmpty then []
      else [(⟨"    # ".data ++ joinLabels (t.labels.map String.data)⟩ : String)]) =
      { st2 with
        curTask := some { pt2 with labels := t.labels },
        lineNum := st2.lineNum + (if t.labels.isEmpty then 0 else 1) } := by
    cases hl : t.labels.isEmpty with
    | true =>
      simp only [hl, if_true]
      have hln : t.labels = [] := by
        cases hcase : t.labels with
        | nil => rfl
        | cons a as => rw [hcase] at hl; cases hl
      show st2 = _
      apply pstate_ext <;> simp [hst2, hpt2, hpt1, initParsedTask, hln]
    | false =>
      simp only [hl, Bool.false_eq_true, if_false]
      have hln : t.labels ≠ [] := by
        intro hcase
        rw [hcase] at hl
        cases hl
      rw [List.foldl_cons, List.foldl_nil,
          parseStep_labels st2 pt2 t.labels (by simp [hst2]) hln hlabels]
  rw [hlabStep]
  set pt3 : ParsedTask := { pt2 with labels := t.labels } with hpt3
  set st3 : PState := { st2 with
    curTask := some pt3,
    lineNum := st2.lineNum + (if t.labels.isEmpty then 0 else 1) } with hst3
  have hassignStep : List.foldl parseStep st3 (match t.assignedTo with
      | some a => if a.data.isEmpty then []
          else [(⟨"    @ assigned: ".data ++ a.data⟩ : String)]
      | none => []) =
      { st3 with
        curTask := some { pt3 with assignedTo := t.assignedTo },
        lineNum := st3.lineNum + (match t.assignedTo with
          | some a => if a.data.isEmpty then 0 else 1 | none => 0) } := by
    cases ha : t.assignedTo with
    | none =>
      show st3 = _
      apply pstate_ext <;> simp [hst3, hpt3, hpt2, hpt1, initParsedTask]
    | some a =>
      rw [ha] at hassign
      have hae : a.data.isEmpty = false := by
        have := (safeAssignee_spec a hassign).1
        cases hcase : a.data with
        | nil => exact absurd hcase this
        | cons c cs => rfl
      simp only [hae, Bool.false_eq_true, if_false]
      rw [List.foldl_cons, List.foldl_nil,
          parseStep_assigned st3 pt3 a (by simp [hst3]) hassign]
  rw [hassignStep]
  set pt4 : ParsedTask := { pt3 with assignedTo := t.assignedTo } with hpt4
  set st4 : PState := { st3 with
    curTask := some pt4,
    lineNum := st3.lineNum + (match t.assignedTo with
      | some a => if a.data.isEmpty then 0 else 1 | none => 0) } with hst4
  have hdescStep : List.foldl parseStep st4 (match t.description with
      | some dsc => if dsc.data.isEmpty then []
          else (splitNlCh dsc.data).map (fun ln => (⟨"    > ".data ++ escCh ln⟩ : String))
      | none => []) =
      { st4 with
        curTask := some { pt4 with description := t.description },
        lineNum := st4.lineNum + (match t.description with
          | some dsc => if dsc.data.isEmpty then 0 else (splitNlCh dsc.data).length
          | none => 0) } := by
    cases hdd : t.description with
    | none =>
      show st4 = _
      apply pstate_ext <;> simp [hst4, hpt4, hpt3, hpt2, hpt1, initParsedTask]
    | some dsc =>
      rw [hdd] at hdesc
      obtain ⟨hde, hdlines, -⟩ := safeDesc_spec dsc hdesc
      simp only [hde, Bool.false_eq_true, if_false]
      have hescd : ∀ ln ∈ splitNlCh dsc.data, escCh ln = ln := by
        intro ln hln
        obtain ⟨he1, he2, -, -, -⟩ := safeDescLine_spec ln (hdlines ln hln)
        exact escCh_id ln he1 (splitNl_no_nl dsc.data ln hln) he2
      have hmapeq : (splitNlCh dsc.data).map (fun ln => (⟨"    > ".data ++ escCh ln⟩ : String))
          = (splitNlCh dsc.data).map (fun ln => (⟨"    > ".data ++ ln⟩ : String)) := by
        apply List.map_congr_left
        intro ln hln
        rw [hescd ln hln]
      rw [hmapeq, parse_descLines (splitNlCh dsc.data) st4 pt4 (by simp [hst4]) hdlines]
      have hfold : descAppendList pt4.description (splitNlCh dsc.data) = some dsc := by
        have hptd : pt4.description = none := by
          simp [hpt4, hpt3, hpt2, hpt1, initParsedTask]
        rw [hptd, descAppendList_none _ (splitNlCh_ne_nil dsc.data), joinNl_splitNl]
      rw [hfold]
  rw [hdescStep]
  rw [parseStep_empty]
  apply pstate_ext
  · simp [hst4, hst3, hst2, hst1]
  · simp [hst4, hst3, hst2, hst1]
  · simp [hst4, hst3, hst2, hst1]
  · simp only [hst4, hst3, hst2, hst1, hpt4, hpt3, hpt2, hpt1]
    simp [projTask, initParsedTask]
  · simp [hst4, hst3, hst2, hst1]
  · simp only [hst4, hst3, hst2, hst1, taskLines, hesc]
    cases t.dueDate <;> cases t.assignedTo <;> cases t.description <;>
      (try simp [apply_ite List.length]) <;> (try split_ifs) <;> (try simp) <;> omega

theorem pcol_ext (a b : ParsedColumn) (h1 : a.name = b.name)
    (h2 : a.wipLimit = b.wipLimit) (h3 : a.isTerminal = b.isTerminal)
    (h4 : a.tasks = b.tasks) : a = b := by
  cases a; cases b
  cases h1; cases h2; cases h3; cases h4
  rfl

/-- The open column and open task after a run of task blocks. -/
def runTasks (opts : ExportOptions) :
    ParsedColumn → Option ParsedTask → List Task → ParsedColumn × Option ParsedTask
  | pc, ct, [] => (pc, ct)
  | pc, ct, t :: ts => runTasks opts (pushTask pc ct) (some (projTask opts t)) ts

theorem parse_taskList (opts : ExportOptions) : ∀ (ts : List Task) (st : PState)
    (pc : ParsedColumn), st.curCol = some pc → (∀ t ∈ ts, safeTask opts t = true) →
    (ts.flatMap (taskLines opts)).foldl parseStep st =
      { st with
        curCol := some (runTasks opts pc st.curTask ts).1,
        curTask := (runTasks opts pc st.curTask ts).2,
        lineNum := st.lineNum + (ts.flatMap (taskLines opts)).length } := by
  intro ts
  induction ts with
  | nil =>
    intro st pc hcol _
    show st = _
    apply pstate_ext <;> simp [runTasks, hcol]
  | cons t ts ih =>
    intro st pc hcol hall
    show ((taskLines opts t ++ ts.flatMap (taskLines opts)).foldl parseStep st) = _
    rw [List.foldl_append,
        parse_taskBlock opts t st pc hcol (hall t (List.mem_cons_self _ _))]
    rw [ih _ (pushTask pc st.curTask) rfl
        (fun x hx => hall x (List.mem_cons_of_mem _ hx))]
    apply pstate_ext <;> simp [runTasks]
    omega

theorem runTasks_flush (opts : ExportOptions) : ∀ (ts : List Task)
    (pc : ParsedColumn) (ct : Option ParsedTask),
    pushTask (runTasks opts pc ct ts).1 (runTasks opts pc ct ts).2 =
      { pushTask pc ct with tasks := (pushTask pc ct).tasks ++ ts.map (projTask opts) } := by
  intro ts
  induction ts with
  | nil =>
    intro pc ct
    show pushTask pc ct = _
    apply pcol_ext <;> simp
  | cons t ts ih =>
    intro pc ct
    show pushTask (runTasks opts (pushTask pc ct) (some (projTask opts t)) ts).1
        (runTasks opts (pushTask pc ct) (some (projTask opts t)) ts).2 = _
    rw [ih (pushTask pc ct) (some (projTask opts t))]
    apply pcol_ext <;> simp [pushTask]

/-- Unpacking of `safeColumn`. -/
theorem safeColumn_spec (opts : ExportOptions) (tasksBC : String → List Task)
    (c : Column) (h : safeColumn opts tasksBC c = true) :
    safeText c.name = true ∧ ∀ t ∈ keptTasks tasksBC opts c.id, safeTask opts t = true := by
  have h0 := h
  simp only [safeColumn, Bool.and_eq_true] at h0
  exact ⟨h0.1, fun t ht => List.all_eq_true.mp h0.2 t ht⟩

/-- Folding one exported column's lines. -/
theorem parse_colBlock (opts : ExportOptions) (tasksBC : String → List Task)
    (c : Column) (st : PState) (hsafe : safeColumn opts tasksBC c = true)
    (hconsist : st.curCol.isSome = true ∨ st.curTask = none) :
    (colLines opts tasksBC c).foldl parseStep st =
      { st with
        cols := st.cols ++ colFlush st.curCol st.curTask,
        curCol := some (runTasks opts ⟨c.name, c.wipLimit, termOpt c.isTerminal, []⟩
          none (keptTasks tasksBC opts c.id)).1,
        curTask := (runTasks opts ⟨c.name, c.wipLimit, termOpt c.isTerminal, []⟩
          none (keptTasks tasksBC opts c.id)).2,
        lineNum := st.lineNum + (colLines opts tasksBC c).length } := by
  obtain ⟨hname, htasks⟩ := safeColumn_spec opts tasksBC c hsafe
  obtain ⟨-, -, hnnb, -, -, -, hnh, hnl⟩ := safeText_spec c.name hname
  have hescn : escCh c.name.data = c.name.data := by
    obtain ⟨-, hn2, hn3, hn4, -, -, -, -⟩ := safeText_spec c.name hname
    exact escCh_id _ hn3 hn2 hn4
  simp only [colLines, hescn]
  simp only [List.foldl_append, List.foldl_cons, List.foldl_nil]
  rw [parseStep_colHeader st c.name hnh hnl hnnb]
  have hctask : (match st.curCol with
      | some _ => none
      | none => st.curTask) = (none : Option ParsedTask) := by
    cases hcc : st.curCol with
    | some pc => rfl
    | none =>
      rcases hconsist with hs | hn
      · rw [hcc] at hs; cases hs
      · exact hn
  rw [hctask]
  set st1 : PState := { st with
    cols := st.cols ++ colFlush st.curCol st.curTask,
    curCol := some ⟨c.name, none, none, []⟩,
    curTask := none,
    lineNum := st.lineNum + 1 } with hst1
  have hwipStep : List.foldl parseStep st1 (match c.wipLimit with
      | some n => [(⟨"<!-- WIP Limit: ".data ++ (natToDigits n ++ " -->".data)⟩ : String)]
      | none => []) =
      { st1 with
        curCol := some ⟨c.name, c.wipLimit, none, []⟩,
        lineNum := st1.lineNum + (match c.wipLimit with | some _ => 1 | none => 0) } := by
    cases hw : c.wipLimit with
    | none =>
      show st1 = _
      apply pstate_ext <;> simp [hst1]
    | some n =>
      rw [List.foldl_cons, List.foldl_nil,
          parseStep_wip st1 ⟨c.name, none, none, []⟩ n (by simp [hst1])]
  rw [hwipStep]
  set st2 : PState := { st1 with
    curCol := some ⟨c.name, c.wipLimit, none, []⟩,
    lineNum := st1.lineNum + (match c.wipLimit with | some _ => 1 | none => 0) } with hst2
  have htermStep : List.foldl parseStep st2
      (if c.isTerminal then ["<!-- Terminal column -->"] else []) =
      { st2 with
        curCol := some ⟨c.name, c.wipLimit, termOpt c.isTerminal, []⟩,
        lineNum := st2.lineNum + (if c.isTerminal then 1 else 0) } := by
    cases hterm : c.isTerminal with
    | false =>
      show st2 = _
      apply pstate_ext <;> simp [hst2, termOpt]
    | true =>
      simp only [if_true]
      rw [List.foldl_cons, List.foldl_nil,
          parseStep_terminal st2 ⟨c.name, c.wipLimit, none, []⟩ (by simp [hst2])]
      apply pstate_ext <;> simp [hst2, termOpt]
  rw [htermStep]
  set st3 : PState := { st2 with
    curCol := some ⟨c.name, c.wipLimit, termOpt c.isTerminal, []⟩,
    lineNum := st2.lineNum + (if c.isTerminal then 1 else 0) } with hst3
  rw [parseStep_empty]
  rw [parse_taskList opts (keptTasks tasksBC opts c.id)
      { st3 with lineNum := st3.lineNum + 1 }
      ⟨c.name, c.wipLimit, termOpt c.isTerminal, []⟩ (by simp [hst3]) htasks]
  apply pstate_ext
  · simp [hst3, hst2, hst1]
  · simp [hst3, hst2, hst1]
  · simp [hst3, hst2, hst1]
  · simp [hst3, hst2, hst1]
  · simp [hst3, hst2, hst1]
  · simp only [hst3, hst2, hst1, colLines, hescn]
    simp [apply_ite List.length]
    cases c.wipLimit <;> cases c.isTerminal <;> (try simp) <;> omega

theorem finalizeRun_eq (st : PState) :
    finalizeRun st =
      { boardName := st.boardName,
        columns := st.cols ++ colFlush st.curCol st.curTask,
        errors := st.errors } := by
  unfold finalizeRun
  cases hcc : st.curCol with
  | none =>
    cases hct : st.curTask with
    | none => simp [colFlush, hcc, hct]
    | some t => simp [colFlush, hcc, hct]
  | some pc =>
    cases hct : st.curTask with
    | none => simp [colFlush, pushTask, hcc, hct]
    | some t => simp [colFlush, pushTask, hcc, hct]

/-- Folding all exported column blocks and flushing. -/
theorem parse_colList (opts : ExportOptions) (tasksBC : String → List Task) :
    ∀ (cs : List Column) (st : PState),
    (∀ c ∈ cs, safeColumn opts tasksBC c = true) →
    (st.curCol.isSome = true ∨ st.curTask = none) →
    finalizeRun ((cs.flatMap (colLines opts tasksBC)).foldl parseStep st) =
      { boardName := st.boardName,
        columns := st.cols ++ colFlush st.curCol st.curTask
          ++ cs.map (projCol opts tasksBC),
        errors := st.errors } := by
  intro cs
  induction cs with
  | nil =>
    intro st _ _
    show finalizeRun st = _
    rw [finalizeRun_eq]
    simp
  | cons c cs ih =>
    intro st hall hconsist
    show finalizeRun (((colLines opts tasksBC c ++ cs.flatMap (colLines opts tasksBC))).foldl
        parseStep st) = _
    rw [List.foldl_append,
        parse_colBlock opts tasksBC c st (hall c (List.mem_cons_self _ _)) hconsist]
    rw [ih _ (fun x hx => hall x (List.mem_cons_of_mem _ hx)) (by simp)]
    have hflush : colFlush
        (some (runTasks opts ⟨c.name, c.wipLimit, termOpt c.isTerminal, []⟩
          none (keptTasks tasksBC opts c.id)).1)
        (runTasks opts ⟨c.name, c.wipLimit, termOpt c.isTerminal, []⟩
          none (keptTasks tasksBC opts c.id)).2
        = [projCol opts tasksBC c] := by
      show [pushTask _ _] = _
      rw [runTasks_flush]
      show [{ pushTask ⟨c.name, c.wipLimit, termOpt c.isTerminal, []⟩ none with
        tasks := (pushTask ⟨c.name, c.wipLimit, termOpt c.isTerminal, []⟩ none).tasks
          ++ (keptTasks tasksBC opts c.id).map (projTask opts) }] = _
      simp [pushTask, projCol]
    rw [hflush]
    simp

theorem mem_insertByKey {α : Type} (key : α → Int) (x : α) :
    ∀ (l : List α) (y : α), y ∈ insertByKey key x l → y = x ∨ y ∈ l := by
  intro l
  induction l with
  | nil =>
    intro y hy
    simp only [insertByKey, List.mem_singleton] at hy
    exact Or.inl hy
  | cons u us ih =>
    intro y hy
    simp only [insertByKey] at hy
    split_ifs at hy with hcmp
    · rcases List.mem_cons.mp hy with h | h
      · exact Or.inl h
      · exact Or.inr h
    · rcases List.mem_cons.mp hy with h | h
      · exact Or.inr (by rw [h]; exact List.mem_cons_self _ _)
      · rcases ih y h with h2 | h2
        · exact Or.inl h2
        · exact Or.inr (List.mem_cons_of_mem _ h2)

theorem mem_sortByKey {α : Type} (key : α → Int) (l : List α) (y : α)
    (hy : y ∈ sortByKey key l) : y ∈ l := by
  have hgen : ∀ (l' : List α) (acc : List α) (z : α),
      z ∈ l'.foldl (fun a x => insertByKey key x a) acc → z ∈ acc ∨ z ∈ l' := by
    intro l'
    induction l' with
    | nil => intro acc z hz; exact Or.inl hz
    | cons x xs ih =>
      intro acc z hz
      rcases ih (insertByKey key x acc) z hz with h | h
      · rcases mem_insertByKey key x acc z h with h2 | h2
        · exact Or.inr (by rw [h2]; exact List.mem_cons_self _ _)
        · exact Or.inl h2
      · exact Or.inr (List.mem_cons_of_mem _ h)
  rcases hgen l [] y hy with h | h
  · cases h
  · exact h

/-- Unpacking of `safeBoard`. -/
theorem safeBoard_spec (boardName : String) (columns : List Column)
    (tasksBC : String → List Task) (opts : ExportOptions)
    (h : safeBoard boardName columns tasksBC opts = true) :
    safeText boardName = true ∧ ∀ c ∈ columns, safeColumn opts tasksBC c = true := by
  have h0 := h
  simp only [safeBoard, Bool.and_eq_true] at h0
  exact ⟨h0.1, fun c hc => List.all_eq_true.mp h0.2 c hc⟩

/-- Parsing the exported line list recovers the board structure. -/
theorem parse_exportLines (boardName : String) (columns : List Column)
    (tasksBC : String → List Task) (opts : ExportOptions)
    (hsafe : safeBoard boardName columns tasksBC opts = true) :
    parseLinesRun (exportLines boardName columns tasksBC opts) =
      { boardName := boardName,
        columns := (sortByKey Column.position columns).map (projCol opts tasksBC),
        errors := [] } := by
  obtain ⟨hbn, hcols⟩ := safeBoard_spec boardName columns tasksBC opts hsafe
  obtain ⟨-, hb2, hb3, hb4, -, -, hbh, hbl⟩ := safeText_spec boardName hbn
  have hescb : escCh boardName.data = boardName.data := escCh_id _ hb3 hb2 hb4
  unfold parseLinesRun exportLines
  rw [hescb]
  simp only [List.foldl_append, List.foldl_cons, List.foldl_nil]
  rw [parseStep_header initPState boardName hbh hbl hb3, parseStep_empty]
  rw [parse_colList opts tasksBC (sortByKey Column.position columns) _
      (fun c hc => hcols c (mem_sortByKey Column.position columns c hc))
      (Or.inr rfl)]
  simp [initPState, colFlush]

/-! ### No exported line contains a newline -/

theorem contains_via_containsSub (l : List Char) (c : Char) :
    l.contains c = containsSub [c] l := (containsSub_singleton c l).symm

theorem no_nl_lit_payload (lit payload : List Char)
    (hlit : litNoStart ['\n'] lit = true) (hp : payload.contains '\n' = false) :
    (lit ++ payload).contains '\n' = false := by
  rw [contains_via_containsSub]
  exact containsSub_lit_payload ['\n'] lit payload hlit
    (by rw [← contains_via_containsSub]; exact hp)

theorem no_nl_payload_lit (payload seg : List Char)
    (hp : payload.contains '\n' = false) (hseg : seg.contains '\n' = false) :
    (payload ++ seg).contains '\n' = false := by
  rw [contains_via_containsSub]
  apply containsSub_payload_litend ['\n'] payload seg
  · rw [← contains_via_containsSub]; exact hp
  · rw [← contains_via_containsSub]; exact hseg
  · cases seg with
    | nil => rfl
    | cons c cs => rfl

theorem taskLines_no_nl (opts : ExportOptions) (t : Task)
    (hsafe : safeTask opts t = true) :
    ∀ s ∈ taskLines opts t, s.data.contains '\n' = false := by
  obtain ⟨htitle, hdesc, hlabels, hassign, hdue, hmeta⟩ := safeTask_spec opts t hsafe
  obtain ⟨-, htnl, htnb, htncm, -, -, -, -⟩ := safeText_spec t.title htitle
  intro s hs
  simp only [taskLines, List.mem_append, List.mem_cons, List.not_mem_nil, or_false,
    List.mem_singleton] at hs
  rcases hs with ((((hs | hs) | hs) | hs) | hs) | hs
  · -- title line
    cases hm : opts.includeMetadata with
    | true =>
      rw [hm] at hs
      simp only [if_true] at hs
      rw [hs]
      show ('-' :: ' ' :: (escCh t.title.data
        ++ (" <!-- id:".data ++ (t.id.data ++ " -->".data)))).contains '\n' = false
      rw [escCh_id _ htnb htnl htncm]
      have hid : t.id.data.contains '\n' = false := by
        apply contains_eq_false_of_forall
        intro x hx he
        have := ((safeId_spec t.id (hmeta hm)).2 x hx).1
        rw [he] at this
        cases this
      have h1 : (t.id.data ++ " -->".data).contains '\n' = false :=
        no_nl_payload_lit _ _ hid (by decide)
      have h2 : (" <!-- id:".data ++ (t.id.data ++ " -->".data)).contains '\n' = false :=
        no_nl_lit_payload _ _ (by decide) h1
      have h3 : (t.title.data
          ++ (" <!-- id:".data ++ (t.id.data ++ " -->".data))).contains '\n' = false :=
        no_nl_payload_lit _ _ htnl h2
      exact no_nl_lit_payload "- ".data _ (by decide) h3
    | false =>
      rw [hm] at hs
      simp only [Bool.false_eq_true, if_false] at hs
      rw [hs]
      show ('-' :: ' ' :: escCh t.title.data).contains '\n' = false
      rw [escCh_id _ htnb htnl htncm]
      exact no_nl_lit_payload "- ".data _ (by decide) htnl
  · -- due line
    cases hd : t.dueDate with
    | none => rw [hd] at hs; cases hs
    | some d =>
      rw [hd] at hs
      simp only [List.mem_singleton] at hs
      rw [hs]
      show ("    @ ".data ++ (formatDate d
        ++ (if t.completedAt.isSome then " ✓".data else []))).contains '\n' = false
      apply no_nl_lit_payload _ _ (by decide)
      apply no_nl_payload_lit
      · apply contains_eq_false_of_forall
        intro x hx he
        have := formatDate_chars d x hx
        rw [he] at this
        exact absurd this (by decide)
      · cases t.completedAt.isSome <;> decide
  · -- labels line
    cases hl : t.labels.isEmpty with
    | true => rw [hl] at hs; cases hs
    | false =>
      rw [hl] at hs
      simp only [Bool.false_eq_true, if_false, List.mem_singleton] at hs
      rw [hs]
      show ("    # ".data ++ joinLabels (t.labels.map String.data)).contains '\n' = false
      apply no_nl_lit_payload _ _ (by decide)
      rw [contains_via_containsSub]
      apply joinLabels_not_contains ['\n'] (by simp) (by decide) (by decide)
      intro x hx
      obtain ⟨u, hu, rfl⟩ := List.mem_map.mp hx
      rw [← contains_via_containsSub]
      exact (safeLabel_spec u (hlabels u hu)).2.2.2.2.1
  · -- assigned line
    cases ha : t.assignedTo with
    | none => rw [ha] at hs; cases hs
    | some a =>
      rw [ha] at hs
      rw [ha] at hassign
      have hae : a.data.isEmpty = false := by
        have := (safeAssignee_spec a hassign).1
        cases hcase : a.data with
        | nil => exact absurd hcase this
        | cons c cs => rfl
      simp only [hae, Bool.false_eq_true, if_false, List.mem_singleton] at hs
      rw [hs]
      show ("    @ assigned: ".data ++ a.data).contains '\n' = false
      apply no_nl_lit_payload _ _ (by decide)
      apply contains_eq_false_of_forall
      intro x hx he
      have := (safeAssignee_spec a hassign).2.1 x hx
      rw [he] at this
      cases this
  · -- description lines
    cases hdd : t.description with
    | none => rw [hdd] at hs; cases hs
    | some dsc =>
      rw [hdd] at hs
      rw [hdd] at hdesc
      obtain ⟨hde, hdlines, -⟩ := safeDesc_spec dsc hdesc
      simp only [hde, Bool.false_eq_true, if_false, List.mem_map] at hs
      obtain ⟨ln, hln, rfl⟩ := hs
      show ("    > ".data ++ escCh ln).contains '\n' = false
      have hlnl : ln.contains '\n' = false := splitNl_no_nl dsc.data ln hln
      obtain ⟨he1, he2, -, -, -⟩ := safeDescLine_spec ln (hdlines ln hln)
      rw [escCh_id ln he1 hlnl he2]
      exact no_nl_lit_payload _ _ (by decide) hlnl
  · -- trailing empty line
    rw [hs]
    rfl

theorem colLines_no_nl (opts : ExportOptions) (tasksBC : String → List Task)
    (c : Column) (hsafe : safeColumn opts tasksBC c = true) :
    ∀ s ∈ colLines opts tasksBC c, s.data.contains '\n' = false := by
  obtain ⟨hname, htasks⟩ := safeColumn_spec opts tasksBC c hsafe
  obtain ⟨-, hn2, hn3, hn4, -, -, -, -⟩ := safeText_spec c.name hname
  intro s hs
  simp only [colLines, List.mem_append, List.mem_cons, List.not_mem_nil, or_false,
    List.mem_singleton] at hs
  rcases hs with (((hs | hs) | hs) | hs) | hs
  · rw [hs]
    show ('#' :: '#' :: ' ' :: escCh c.name.data).contains '\n' = false
    rw [escCh_id _ hn3 hn2 hn4]
    exact no_nl_lit_payload "## ".data _ (by decide) hn2
  · cases hw : c.wipLimit with
    | none => rw [hw] at hs; cases hs
    | some n =>
      rw [hw] at hs
      simp only [List.mem_singleton] at hs
      rw [hs]
      show ("<!-- WIP Limit: ".data ++ (natToDigits n ++ " -->".data)).contains '\n' = false
      apply no_nl_lit_payload _ _ (by decide)
      apply no_nl_payload_lit
      · apply contains_eq_false_of_forall
        intro x hx he
        have := natToDigits_mem n x hx
        rw [he] at this
        exact absurd this (by decide)
      · decide
  · cases ht : c.isTerminal with
    | false => rw [ht] at hs; cases hs
    | true =>
      rw [ht] at hs
      simp only [if_true, List.mem_singleton] at hs
      rw [hs]
      rfl
  · rw [hs]; rfl
  · rw [List.mem_flatMap] at hs
    obtain ⟨t, ht, hst⟩ := hs
    exact taskLines_no_nl opts t (htasks t ht) s hst

theorem exportLines_no_nl (boardName : String) (columns : List Column)
    (tasksBC : String → List Task) (opts : ExportOptions)
    (hsafe : safeBoard boardName columns tasksBC opts = true) :
    ∀ s ∈ exportLines boardName columns tasksBC opts, s.data.contains '\n' = false := by
  obtain ⟨hbn, hcols⟩ := safeBoard_spec boardName columns tasksBC opts hsafe
  obtain ⟨-, hb2, hb3, hb4, -, -, -, -⟩ := safeText_spec boardName hbn
  intro s hs
  simp only [exportLines, List.mem_append, List.mem_cons, List.not_mem_nil, or_false,
    List.mem_singleton] at hs
  rcases hs with (hs | hs) | hs
  · rw [hs]
    show ('#' :: ' ' :: escCh boardName.data).contains '\n' = false
    rw [escCh_id _ hb3 hb2 hb4]
    exact no_nl_lit_payload "# ".data _ (by decide) hb2
  · rw [hs]; rfl
  · rw [List.mem_flatMap] at hs
    obtain ⟨c, hc, hsc⟩ := hs
    exact colLines_no_nl opts tasksBC c
      (hcols c (mem_sortByKey Column.position columns c hc)) s hsc

/-! ### The export's final line ends in a non-whitespace character -/

/-- Nonempty and ending in a non-whitespace character: exactly what the
final `trimEnd` must not be able to eat into. -/
def endsSolid (l : List Char) : Bool := !l.isEmpty && lastNotWs l

/-- The line list ends with a solid line followed by one empty line. -/
def tailGood (ls : List String) : Prop :=
  ∃ core ln, ls = core ++ [ln, ""] ∧ endsSolid ln.data = true

theorem tailGood_append (A B : List String) (h : tailGood B) : tailGood (A ++ B) := by
  obtain ⟨core, ln, hshape, hsolid⟩ := h
  exact ⟨A ++ core, ln, by rw [hshape, List.append_assoc], hsolid⟩

theorem endsSolid_spec (l : List Char) (h : endsSolid l = true) :
    l ≠ [] ∧ lastNotWs l = true := by
  have h0 := h
  simp only [endsSolid, Bool.and_eq_true, Bool.not_eq_true'] at h0
  exact ⟨data_ne_nil_of_isEmpty_false _ h0.1, h0.2⟩

theorem endsSolid_of (l : List Char) (hne : l ≠ []) (hl : lastNotWs l = true) :
    endsSolid l = true := by
  simp only [endsSolid, Bool.and_eq_true, Bool.not_eq_true']
  constructor
  · cases l with
    | nil => exact absurd rfl hne
    | cons c cs => rfl
  · exact hl

theorem endsSolid_append (x y : List Char) (hy : endsSolid y = true) :
    endsSolid (x ++ y) = true := by
  obtain ⟨hne, hl⟩ := endsSolid_spec y hy
  cases y with
  | nil => exact absurd rfl hne
  | cons c cs =>
    apply endsSolid_of _ (by simp)
    unfold lastNotWs
    rw [getLast?_append_right x c cs]
    exact hl

theorem exists_init_of_getLast? {α : Type} : ∀ (l : List α) (a : α),
    l.getLast? = some a → ∃ init, l = init ++ [a] := by
  intro l
  induction l with
  | nil => intro a h; cases h
  | cons c cs ih =>
    intro a h
    cases cs with
    | nil =>
      have : c = a := by simpa using h
      exact ⟨[], by rw [this]; rfl⟩
    | cons d ds =>
      rw [List.getLast?_cons_cons] at h
      obtain ⟨init, hinit⟩ := ih a h
      refine ⟨c :: init, ?heq⟩
      rw [show (c :: init) ++ [a] = c :: (init ++ [a]) from rfl, ← hinit]

theorem mem_of_getLast? {α : Type} (l : List α) (a : α) (h : l.getLast? = some a) :
    a ∈ l := by
  obtain ⟨init, hinit⟩ := exists_init_of_getLast? l a h
  rw [hinit]
  simp

theorem taskLines_tailGood (opts : ExportOptions) (t : Task)
    (hsafe : safeTask opts t = true) : tailGood (taskLines opts t) := by
  obtain ⟨htitle, hdesc, hlabels, hassign, hdue, hmeta⟩ := safeTask_spec opts t hsafe
  obtain ⟨htne, htnl, htnb, htncm, -, -, -, htl⟩ := safeText_spec t.title htitle
  cases hdd : t.description with
  | some dsc =>
    rw [hdd] at hdesc
    obtain ⟨hde, hdlines, ll, hll, hlle, hlln⟩ := safeDesc_spec dsc hdesc
    obtain ⟨init, hinit⟩ := exists_init_of_getLast? _ ll hll
    refine ⟨[if opts.includeMetadata then
        (⟨'-' :: ' ' :: (escCh t.title.data
          ++ (" <!-- id:".data ++ (t.id.data ++ " -->".data)))⟩ : String)
      else ⟨'-' :: ' ' :: escCh t.title.data⟩]
      ++ (match t.dueDate with
          | some d => [(⟨"    @ ".data ++ (formatDate d
              ++ (if t.completedAt.isSome then " ✓".data else []))⟩ : String)]
          | none => [])
      ++ (if t.labels.isEmpty then []
          else [(⟨"    # ".data ++ joinLabels (t.labels.map String.data)⟩ : String)])
      ++ (match t.assignedTo with
          | some a => if a.data.isEmpty then []
              else [(⟨"    @ assigned: ".data ++ a.data⟩ : String)]
          | none => [])
      ++ init.map (fun ln => (⟨"    > ".data ++ escCh ln⟩ : String)),
      ⟨"    > ".data ++ escCh ll⟩, ?hshape, ?hsolid⟩
    case hshape =>
      simp only [taskLines, hdd, hde, Bool.false_eq_true, if_false, hinit]
      simp [List.append_assoc]
    case hsolid =>
      obtain ⟨he1, he2, -, -, -⟩ := safeDescLine_spec ll
        (hdlines ll (by rw [hinit]; simp))
      rw [escCh_id ll he1 (splitNl_no_nl dsc.data ll (by rw [hinit]; simp)) he2]
      apply endsSolid_append
      exact endsSolid_of ll (by
        intro hcon
        rw [hcon] at hlle
        cases hlle) hlln
  | none =>
    cases ha : t.assignedTo with
    | some a =>
      rw [ha] at hassign
      obtain ⟨hane, hanw, -, -⟩ := safeAssignee_spec a hassign
      have hae : a.data.isEmpty = false := by
        cases hcase : a.data with
        | nil => exact absurd hcase hane
        | cons c cs => rfl
      refine ⟨[if opts.includeMetadata then
          (⟨'-' :: ' ' :: (escCh t.title.data
            ++ (" <!-- id:".data ++ (t.id.data ++ " -->".data)))⟩ : String)
        else ⟨'-' :: ' ' :: escCh t.title.data⟩]
        ++ (match t.dueDate with
            | some d => [(⟨"    @ ".data ++ (formatDate d
                ++ (if t.completedAt.isSome then " ✓".data else []))⟩ : String)]
            | none => [])
        ++ (if t.labels.isEmpty then []
            else [(⟨"    # ".data ++ joinLabels (t.labels.map String.data)⟩ : String)]),
        ⟨"    @ assigned: ".data ++ a.data⟩, ?hshape2, ?hsolid2⟩
      case hshape2 =>
        simp only [taskLines, hdd, ha, hae, Bool.false_eq_true, if_false]
        simp [List.append_assoc]
      case hsolid2 =>
        apply endsSolid_append
        apply endsSolid_of a.data hane
        unfold lastNotWs
        cases hgl : a.data.getLast? with
        | none => rfl
        | some c =>
          have := hanw c (mem_of_getLast? a.data c hgl)
          simp [this]
    | none =>
      cases hl : t.labels.isEmpty with
      | false =>
        have hlne : t.labels ≠ [] := by
          intro hcon
          rw [hcon] at hl
          cases hl
        refine ⟨[if opts.includeMetadata then
            (⟨'-' :: ' ' :: (escCh t.title.data
              ++ (" <!-- id:".data ++ (t.id.data ++ " -->".data)))⟩ : String)
          else ⟨'-' :: ' ' :: escCh t.title.data⟩]
          ++ (match t.dueDate with
              | some d => [(⟨"    @ ".data ++ (formatDate d
                  ++ (if t.completedAt.isSome then " ✓".data else []))⟩ : String)]
              | none => []),
          ⟨"    # ".data ++ joinLabels (t.labels.map String.data)⟩, ?hshape3, ?hsolid3⟩
        case hshape3 =>
          simp only [taskLines, hdd, ha, hl, Bool.false_eq_true, if_false]
          simp [List.append_assoc]
        case hsolid3 =>
          apply endsSolid_append
          cases hcase : t.labels with
          | nil => exact absurd hcase hlne
          | cons s ss =>
            apply endsSolid_of
            · exact joinLabels_ne_nil s.data _
                (data_ne_nil_of_isEmpty_false _ (safeLabel_spec s
                  (hlabels s (by rw [hcase]; exact List.mem_cons_self _ _))).1)
            · apply joinLabels_lastNotWs
              · intro x hx
                obtain ⟨u, hu, rfl⟩ := List.mem_map.mp hx
                have hspec := safeLabel_spec u (hlabels u (by rw [hcase]; exact hu))
                exact ⟨data_ne_nil_of_isEmpty_false _ hspec.1, hspec.2.2.1⟩
              · simp
      | true =>
        cases hd : t.dueDate with
        | some d =>
          refine ⟨[if opts.includeMetadata then
              (⟨'-' :: ' ' :: (escCh t.title.data
                ++ (" <!-- id:".data ++ (t.id.data ++ " -->".data)))⟩ : String)
            else ⟨'-' :: ' ' :: escCh t.title.data⟩],
            ⟨"    @ ".data ++ (formatDate d
              ++ (if t.completedAt.isSome then " ✓".data else []))⟩, ?hshape4, ?hsolid4⟩
          case hshape4 =>
            simp only [taskLines, hdd, ha, hl, hd, if_true]
            simp [List.append_assoc]
          case hsolid4 =>
            apply endsSolid_append
            cases hck : t.completedAt.isSome with
            | false =>
              simp only [Bool.false_eq_true, if_false, List.append_nil]
              exact endsSolid_of _ (formatDate_ne_nil d) (formatDate_last d)
            | true =>
              simp only [if_true]
              apply endsSolid_append
              decide
        | none =>
          refine ⟨[], if opts.includeMetadata then
              (⟨'-' :: ' ' :: (escCh t.title.data
                ++ (" <!-- id:".data ++ (t.id.data ++ " -->".data)))⟩ : String)
            else ⟨'-' :: ' ' :: escCh t.title.data⟩, ?hshape5, ?hsolid5⟩
          case hshape5 =>
            simp only [taskLines, hdd, ha, hl, hd, if_true]
            simp
          case hsolid5 =>
            cases hm : opts.includeMetadata with
            | true =>
              simp only [if_true]
              show endsSolid ("- ".data ++ (escCh t.title.data
                ++ (" <!-- id:".data ++ (t.id.data ++ " -->".data)))) = true
              apply endsSolid_append
              apply endsSolid_append
              apply endsSolid_append
              apply endsSolid_append
              decide
            | false =>
              simp only [Bool.false_eq_true, if_false]
              show endsSolid ("- ".data ++ escCh t.title.data) = true
              apply endsSolid_append
              rw [escCh_id _ htnb htnl htncm]
              exact endsSolid_of _ (data_ne_nil_of_isEmpty_false _ htne) htl

theorem taskList_tailGood (opts : ExportOptions) : ∀ (ts : List Task) (t0 : Task),
    (∀ t ∈ t0 :: ts, safeTask opts t = true) →
    tailGood ((t0 :: ts).flatMap (taskLines opts)) := by
  intro ts
  induction ts with
  | nil =>
    intro t0 hall
    show tailGood (taskLines opts t0 ++ [])
    rw [List.append_nil]
    exact taskLines_tailGood opts t0 (hall t0 (List.mem_cons_self _ _))
  | cons t1 ts ih =>
    intro t0 hall
    show tailGood (taskLines opts t0 ++ (t1 :: ts).flatMap (taskLines opts))
    exact tailGood_append _ _ (ih t1 (fun x hx => hall x (List.mem_cons_of_mem _ hx)))

theorem colLines_tailGood (opts : ExportOptions) (tasksBC : String → List Task)
    (c : Column) (hsafe : safeColumn opts tasksBC c = true) :
    tailGood (colLines opts tasksBC c) := by
  obtain ⟨hname, htasks⟩ := safeColumn_spec opts tasksBC c hsafe
  obtain ⟨hne, hn2, hn3, hn4, -, -, -, hnl⟩ := safeText_spec c.name hname
  cases hk : keptTasks tasksBC opts c.id with
  | cons t0 ts =>
    have : tailGood ((t0 :: ts).flatMap (taskLines opts)) :=
      taskList_tailGood opts ts t0 (by rw [← hk]; exact htasks)
    unfold colLines
    rw [hk]
    exact tailGood_append _ _ this
  | nil =>
    cases hterm : c.isTerminal with
    | true =>
      refine ⟨[(⟨'#' :: '#' :: ' ' :: escCh c.name.data⟩ : String)]
        ++ (match c.wipLimit with
            | some n => [(⟨"<!-- WIP Limit: ".data
                ++ (natToDigits n ++ " -->".data)⟩ : String)]
            | none => []),
        "<!-- Terminal column -->", ?hshape, ?hsolid⟩
      case hshape =>
        simp only [colLines, hterm, hk, if_true]
        simp [List.append_assoc]
      case hsolid => decide
    | false =>
      cases hw : c.wipLimit with
      | some n =>
        refine ⟨[(⟨'#' :: '#' :: ' ' :: escCh c.name.data⟩ : String)],
          ⟨"<!-- WIP Limit: ".data ++ (natToDigits n ++ " -->".data)⟩, ?hshape2, ?hsolid2⟩
        case hshape2 =>
          simp only [colLines, hterm, hk, hw, Bool.false_eq_true, if_false]
          simp [List.append_assoc]
        case hsolid2 =>
          apply endsSolid_append
          apply endsSolid_append
          decide
      | none =>
        refine ⟨[], ⟨'#' :: '#' :: ' ' :: escCh c.name.data⟩, ?hshape3, ?hsolid3⟩
        case hshape3 =>
          simp only [colLines, hterm, hk, hw, Bool.false_eq_true, if_false]
          simp
        case hsolid3 =>
          show endsSolid ("## ".data ++ escCh c.name.data) = true
          apply endsSolid_append
          rw [escCh_id _ hn3 hn2 hn4]
          exact endsSolid_of _ (data_ne_nil_of_isEmpty_false _ hne) hnl

theorem colList_tailGood (opts : ExportOptions) (tasksBC : String → List Task) :
    ∀ (cs : List Column) (c0 : Column),
    (∀ c ∈ c0 :: cs, safeColumn opts tasksBC c = true) →
    tailGood ((c0 :: cs).flatMap (colLines opts tasksBC)) := by
  intro cs
  induction cs with
  | nil =>
    intro c0 hall
    show tailGood (colLines opts tasksBC c0 ++ [])
    rw [List.append_nil]
    exact colLines_tailGood opts tasksBC c0 (hall c0 (List.mem_cons_self _ _))
  | cons c1 cs ih =>
    intro c0 hall
    show tailGood (colLines opts tasksBC c0 ++ (c1 :: cs).flatMap (colLines opts tasksBC))
    exact tailGood_append _ _ (ih c1 (fun x hx => hall x (List.mem_cons_of_mem _ hx)))

theorem exportLines_tailGood (boardName : String) (columns : List Column)
    (tasksBC : String → List Task) (opts : ExportOptions)
    (hsafe : safeBoard boardName columns tasksBC opts = true) :
    tailGood (exportLines boardName columns tasksBC opts) := by
  obtain ⟨hbn, hcols⟩ := safeBoard_spec boardName columns tasksBC opts hsafe
  obtain ⟨hne, hb2, hb3, hb4, -, -, -, hbl⟩ := safeText_spec boardName hbn
  cases hs : sortByKey Column.position columns with
  | nil =>
    refine ⟨[], ⟨'#' :: ' ' :: escCh boardName.data⟩, ?hshape, ?hsolid⟩
    case hshape =>
      simp only [exportLines, hs]
      simp
    case hsolid =>
      show endsSolid ("# ".data ++ escCh boardName.data) = true
      apply endsSolid_append
      rw [escCh_id _ hb3 hb2 hb4]
      exact endsSolid_of _ (data_ne_nil_of_isEmpty_false _ hne) hbl
  | cons c0 cs =>
    unfold exportLines
    rw [hs]
    apply tailGood_append
    apply colList_tailGood opts tasksBC cs c0
    intro c hc
    rw [← hs] at hc
    exact hcols c (mem_sortByKey Column.position columns c hc)

/-! ### From the exported string back to the exported lines -/

theorem splitNl_append_nl_gen : ∀ (x : List Char),
    splitNlCh (x ++ ['\n']) = splitNlCh x ++ [[]] := by
  intro x
  induction x with
  | nil => rfl
  | cons c cs ih =>
    by_cases hc : (c == '\n') = true
    · have hceq : c = '\n' := by simpa using hc
      show splitNlCh (c :: (cs ++ ['\n'])) = _
      rw [hceq]
      show [] :: splitNlCh (cs ++ ['\n']) = ([] :: splitNlCh cs) ++ [[]]
      rw [ih]
      rfl
    · have hc' : (c == '\n') = false := by simpa using hc
      show splitNlCh (c :: (cs ++ ['\n'])) = _
      rw [splitNlCh_cons_ne c _ hc', splitNlCh_cons_ne c cs hc', ih]
      cases hsp : splitNlCh cs with
      | nil => exact absurd hsp (splitNlCh_ne_nil cs)
      | cons p ps => simp

theorem joinNl_append_nil_elem : ∀ (ys : List (List Char)), ys ≠ [] →
    joinNlCh (ys ++ [[]]) = joinNlCh ys ++ ['\n'] := by
  intro ys
  induction ys with
  | nil => intro h; exact absurd rfl h
  | cons y ys ih =>
    intro _
    cases ys with
    | nil =>
      show joinNlCh [y, []] = y ++ ['\n']
      rw [joinNlCh_cons]
      rfl
    | cons y1 ys1 =>
      show joinNlCh (y :: ((y1 :: ys1) ++ [[]])) = _
      have h1 : (y1 :: ys1) ++ [[]] = y1 :: (ys1 ++ [[]]) := rfl
      rw [h1, joinNlCh_cons, ← h1, ih (by simp), joinNlCh_cons]
      simp

theorem map_mk_data (l : List String) : l.map (fun s => String.mk s.data) = l := by
  induction l with
  | nil => rfl
  | cons s ss ih => simp [ih, mk_data_eta]

/-- The exported text splits back into exactly the exported lines. -/
theorem splitNl_exportBoard (boardName : String) (columns : List Column)
    (tasksBC : String → List Task) (opts : ExportOptions)
    (hsafe : safeBoard boardName columns tasksBC opts = true) :
    (splitNlCh (exportBoard boardName columns tasksBC opts).data).map String.mk
      = exportLines boardName columns tasksBC opts := by
  obtain ⟨core, ln, hshape, hsolid⟩ :=
    exportLines_tailGood boardName columns tasksBC opts hsafe
  obtain ⟨hlnne, hlnl⟩ := endsSolid_spec _ hsolid
  have hnl := exportLines_no_nl boardName columns tasksBC opts hsafe
  have hdata : (exportBoard boardName columns tasksBC opts).data
      = trimEndCh (joinNlCh ((exportLines boardName columns tasksBC opts).map
          String.data)) ++ ['\n'] := rfl
  have hmapdata : (exportLines boardName columns tasksBC opts).map String.data
      = core.map String.data ++ [ln.data, []] := by
    rw [hshape]
    simp
  have hjoin : joinNlCh (core.map String.data ++ [ln.data, []])
      = joinNlCh (core.map String.data ++ [ln.data]) ++ ['\n'] := by
    have h1 : core.map String.data ++ [ln.data, []]
        = (core.map String.data ++ [ln.data]) ++ [[]] := by simp
    rw [h1, joinNl_append_nil_elem _ (by simp)]
  have hlastJ : (joinNlCh (core.map String.data ++ [ln.data])).getLast?
      = ln.data.getLast? := by
    apply joinNlCh_getLast
    · rw [getLast?_append_right (core.map String.data) ln.data []]
      rfl
    · exact hlnne
  have htrim : trimEndCh (joinNlCh (core.map String.data ++ [ln.data]) ++ ['\n'])
      = joinNlCh (core.map String.data ++ [ln.data]) := by
    rw [trimEndCh_append_nl]
    apply trimEndCh_of_lastNotWs
    unfold lastNotWs
    rw [hlastJ]
    unfold lastNotWs at hlnl
    exact hlnl
  have hpartsnl : ∀ p ∈ core.map String.data ++ [ln.data], p.contains '\n' = false := by
    intro p hp
    rcases List.mem_append.mp hp with hp | hp
    · obtain ⟨s, hsmem, rfl⟩ := List.mem_map.mp hp
      apply hnl
      rw [hshape]
      exact List.mem_append_left _ hsmem
    · rw [List.mem_singleton] at hp
      rw [hp]
      apply hnl
      rw [hshape]
      exact List.mem_append_right _ (List.mem_cons_self _ _)
  have hsplitJ : splitNlCh (joinNlCh (core.map String.data ++ [ln.data]))
      = core.map String.data ++ [ln.data] :=
    splitNl_joinNl _ (by simp) hpartsnl
  rw [hdata, hmapdata, hjoin, htrim, splitNl_append_nl_gen, hsplitJ]
  have hfin : (core.map String.data ++ [ln.data]) ++ [[]]
      = (core ++ [ln, ""]).map String.data := by simp
  rw [hfin, ← hshape]
  rw [List.map_map]
  exact map_mk_data _

/-- Parsing the export of a safe board recovers the board's structure:
name, columns in position order with `wipLimit` and `isTerminal`, and
each column's non-archived tasks in position order with title, id (when
metadata was exported), description, due date, labels and assignee. -/
theorem parseMarkdown_exportBoard (boardName : String) (columns : List Column)
    (tasksBC : String → List Task) (opts : ExportOptions)
    (hsafe : safeBoard boardName columns tasksBC opts = true) :
    parseMarkdown (exportBoard boardName columns tasksBC opts) =
      { boardName := boardName,
        columns := (sortByKey Column.position columns).map (projCol opts tasksBC),
        errors := [] } := by
  unfold parseMarkdown
  rw [splitNl_exportBoard boardName columns tasksBC opts hsafe,
      parse_exportLines boardName columns tasksBC opts hsafe]

/-! ### The round-trip claim: counterexample and corrected statement -/

/-- A task whose title satisfies the spec's stated restrictions (no
embedded newline; no description at all), but contains the text
`WIP Limit: 9`. -/
def cexTask : Task :=
  { id := "abc12345", boardTaskId := none, title := "Raise WIP Limit: 9",
    description := none, columnId := "todo", position := 0, createdBy := "user",
    assignedTo := none, parentId := none, dependsOn := [], files := [],
    labels := [], blockedReason := none, version := 1, createdAt := 0,
    updatedAt := 0, startedAt := none, completedAt := none, dueDate := none,
    archived := false, archivedAt := none, updatedBy := none }

/-- A column with WIP limit 2 holding `cexTask`. -/
def cexCol : Column :=
  { id := "todo", boardId := "b", name := "To Do", position := 0,
    wipLimit := some 2, isTerminal := false }

/-- Tasks by column for the counterexample board. -/
def cexTbc : String → List Task := fun cid => if cid = "todo" then [cexTask] else []

/-- A two-column board with full task features used to witness the
corrected round-trip guarantee. -/
def wTask1 : Task :=
  { id := "abc12345", boardTaskId := none, title := "Fix the bug",
    description := some "first line\nsecond line", columnId := "todo", position := 2,
    createdBy := "user", assignedTo := some "alice", parentId := none,
    dependsOn := [], files := [], labels := ["bug", "ui"], blockedReason := none,
    version := 1, createdAt := 0, updatedAt := 0, startedAt := none,
    completedAt := some 5, dueDate := some ⟨2024, 2, 29⟩, archived := false,
    archivedAt := none, updatedBy := none }

/-- A second, plainer task for the witness board. -/
def wTask2 : Task :=
  { wTask1 with
    id := "zzz99999", title := "Other task", position := 1,
    labels := [], assignedTo := none, description := none, dueDate := none,
    completedAt := none }

/-- First witness column. -/
def wColA : Column :=
  { id := "todo", boardId := "b", name := "To Do", position := 0,
    wipLimit := some 3, isTerminal := false }

/-- Second witness column. -/
def wColB : Column :=
  { id := "done", boardId := "b", name := "Done", position := 1,
    wipLimit := none, isTerminal := true }

/-- Tasks by column for the witness board. -/
def wTbc : String → List Task := fun cid => if cid = "todo" then [wTask1, wTask2] else []

/-- C7 counterexample: a board that satisfies the claim's stated
restrictions (the task title has no embedded newline, and there is no
description at all), whose serialised Markdown does not parse back to
the board: the task's title line is consumed as a `WIP Limit:` directive,
so the task vanishes and the column's WIP limit is rewritten from 2 to 9. -/
theorem markdown_roundtrip_cex :
    cexTask.title.data.contains '\n' = false
    ∧ cexTask.description = none
    ∧ cexCol.wipLimit = some 2
    ∧ cexTbc "todo" = [cexTask]
    ∧ (parseMarkdown (exportBoard "My Board" [cexCol] cexTbc {})).columns
        = [{ name := "To Do", wipLimit := some 9, isTerminal := none, tasks := [] }] := by
  refine ⟨by decide, rfl, rfl, rfl, ?hp⟩
  decide

/-- C7 (corrected): the stated restrictions (no newline in titles, no
tabs or four-space-prefixed lines in descriptions) do not suffice — a
title containing `WIP Limit:` is swallowed as a directive.  For boards
whose exported text avoids the parser's traps (`safeBoard`: board,
column and title text is nonempty, has no surrounding whitespace, no
newline, no backslash, no `<!--`, and no `WIP Limit:` or
`Terminal column` substring; labels are nonempty, comma-free and avoid
the directive and `assigned:` substrings; assignees are nonempty and
whitespace-free; descriptions are nonempty, their lines avoid
backslash, `<!--`, the directives and `assigned:`, and the final line
ends in non-whitespace; ids in metadata exports are nonempty without
whitespace or `>`; due-date years stay ≤ 9999 on valid dates), parsing
the serialised Markdown reproduces the board: name, columns in position
order with `wipLimit` and `isTerminal`, and each column's non-archived
tasks in position order with title, id (when metadata was exported),
description, due date, labels and assignee, with no parse errors. -/
theorem markdown_roundtrip (boardName : String) (columns : List Column)
    (tasksBC : String → List Task) (opts : ExportOptions)
    (hsafe : safeBoard boardName columns tasksBC opts = true) :
    parseMarkdown (exportBoard boardName columns tasksBC opts) =
      { boardName := boardName,
        columns := (sortByKey Column.position columns).map (projCol opts tasksBC),
        errors := [] } :=
  parseMarkdown_exportBoard boardName columns tasksBC opts hsafe

theorem markdown_roundtrip_witness :
    safeBoard "My Board" [wColA, wColB] wTbc ⟨false, true⟩ = true
    ∧ parseMarkdown (exportBoard "My Board" [wColA, wColB] wTbc ⟨false, true⟩) =
        { boardName := "My Board",
          columns := (sortByKey Column.position [wColA, wColB]).map
            (projCol ⟨false, true⟩ wTbc),
          errors := [] } :=
  ⟨by decide, markdown_roundtrip "My Board" [wColA, wColB] wTbc ⟨false, true⟩ (by decide)⟩

end Kaban
